/-
Verification of the `migration` package: a shallow embedding of the
migration-plan compiler (schema.go, plan.go), the execution worker
(worker.go) and the forgiving timestamp scanner (timeval.go), together
with proofs about the embedded definitions.

Conventions of the embedding:
  * Go `int64` version ids become `Int` (only compared, never overflowed).
  * Go function payloads of migration actions (`DBFunc`, `TxFunc`) are
    modelled by their observable outcome: `some b` is a function whose
    execution succeeds iff `b`; executing a raw SQL command against the
    live database is modelled by the worker field `execSql`.
  * The persisted version table is a list of rows; a transaction is
    modelled by discarding the candidate table on error (rollback) and
    keeping it on success (commit).  The wall clock is a counter that
    each `time.Now()` call reads and advances; log output is a list of
    entries that survives rollbacks, as real log output does.
-/
import Mathlib

namespace Migration

/-! ## Generic sorting kit

`sort.Slice` from the Go standard library is modelled by insertion sort
with a boolean "less or equal" test.  The lemmas below are all the
worker proofs need: the result is a permutation, it is pairwise ordered
when the test is total and transitive, and sorting an already ordered
list is the identity.
-/

def insertLe {α : Type} (le : α → α → Bool) (a : α) : List α → List α
  | [] => [a]
  | b :: l => if le a b then a :: b :: l else b :: insertLe le a l

def isortBy {α : Type} (le : α → α → Bool) : List α → List α
  | [] => []
  | a :: l => insertLe le a (isortBy le l)

/-! ## Data model of the plan compiler

Embeds `VersionID`, `Error`/`Errors`, the `action` struct, the public
`Action` combinators (`Command`, `DBFunc`, `TxFunc`, `Replay`),
`Definition` with its builder methods, and `Schema` with `Define`,
`complete` and `Err`.  Error description format strings become an
inductive, one constructor per format string of the source.
-/

abbrev VersionID := Int

/-- One error-description format string of the source. -/
inductive ErrDesc
  | definedMoreThanOnce            -- "defined more than once"
  | upNotDefined                   -- "up migration not defined"
  | upDefinedTimes (n : Nat)       -- "up migration defined %d times"
  | downNotDefined                 -- "down migration not defined"
  | downDefinedTimes (n : Nat)     -- "down migration defined %d times"
  | replayEarlier                  -- "replay must specify an earlier version"
  | replayUnknown (id : VersionID) -- "replay refers to unknown version %d"
  deriving DecidableEq, Repr

/-- `Error{Version, Description}` from the source. -/
structure MigError where
  Version : VersionID
  Description : ErrDesc
  deriving DecidableEq, Repr

/-- Whether a description is one of the two replay-resolution errors. -/
def isReplayErr : ErrDesc → Bool
  | .replayEarlier => true
  | .replayUnknown _ => true
  | _ => false

/-- The `action` struct: the two Go function payloads are modelled by
their observable outcome (`some b` = a function that succeeds iff `b`). -/
structure MAction where
  sql : String := ""
  dbFunc : Option Bool := none
  txFunc : Option Bool := none
  replayUp : Option VersionID := none
  deriving DecidableEq, Repr

/-- `type Action func(*action)` -/
def Action : Type := MAction → MAction

/-- `Command` sets the SQL text of the action. -/
def Command (sql : String) : Action := fun a => { a with sql := sql }

/-- `DBFunc` sets a non-transactional Go function payload. -/
def DBFunc (outcome : Bool) : Action := fun a => { a with dbFunc := some outcome }

/-- `TxFunc` sets a transactional Go function payload. -/
def TxFunc (outcome : Bool) : Action := fun a => { a with txFunc := some outcome }

/-- `Replay` records a reference to replay an earlier up migration. -/
def Replay (id : VersionID) : Action := fun a => { a with replayUp := some id }

/-- `Definition`: id, up/down actions, and how often each was set. -/
structure Definition where
  id : VersionID
  upAction : Option Action := none
  upCount : Nat := 0
  downAction : Option Action := none
  downCount : Nat := 0

def newDefinition (id : VersionID) : Definition := { id := id }

def Definition.Up (d : Definition) (sql : String) : Definition :=
  { d with upCount := d.upCount + 1, upAction := some (Command sql) }

def Definition.UpAction (d : Definition) (a : Action) : Definition :=
  { d with upCount := d.upCount + 1, upAction := some a }

def Definition.Down (d : Definition) (sql : String) : Definition :=
  { d with downCount := d.downCount + 1, downAction := some (Command sql) }

def Definition.DownAction (d : Definition) (a : Action) : Definition :=
  { d with downCount := d.downCount + 1, downAction := some a }

/-- `Definition.errs()`: structural errors of a single definition. -/
def Definition.errs (d : Definition) : List MigError :=
  (if d.upCount = 0 then [⟨d.id, .upNotDefined⟩] else [])
    ++ (if d.upCount > 1 then [⟨d.id, .upDefinedTimes d.upCount⟩] else [])
    ++ (if d.downCount = 0 then [⟨d.id, .downNotDefined⟩] else [])
    ++ (if d.downCount > 1 then [⟨d.id, .downDefinedTimes d.downCount⟩] else [])

/-- `migrationPlan`. -/
structure MigrationPlan where
  id : VersionID
  up : MAction
  down : MAction
  errs : List MigError
  deriving DecidableEq, Repr

/-- Go map indexing `m[k]` on an association list. -/
def lookupA {β : Type} (k : VersionID) : List (VersionID × β) → Option β
  | [] => none
  | pr :: l => if pr.1 = k then some pr.2 else lookupA k l

/-- Go map assignment `m[k] = v` on an association list. -/
def assocSet {β : Type} (l : List (VersionID × β)) (k : VersionID) (v : β) :
    List (VersionID × β) :=
  if (lookupA k l).isSome then l.map (fun p => if p.1 = k then (k, v) else p)
  else l ++ [(k, v)]

/-- Applying a registered `Action` to the zero-valued `action` struct
(`def.upAction(&p.up)`); a nil `Action` leaves the zero value. -/
def buildAction : Option Action → MAction
  | some f => f {}
  | none => {}

/-- The `replayUp` closure of `newPlan`: resolve a replay reference
against the plans already produced during this compilation pass. -/
def resolveReplay (pid : VersionID) (plans : List (VersionID × MigrationPlan))
    (a : MAction) : MAction × List MigError :=
  match a.replayUp with
  | none => (a, [])
  | some replayID =>
    if replayID ≥ pid then (a, [⟨pid, .replayEarlier⟩])
    else
      match lookupA replayID plans with
      | none => (a, [⟨pid, .replayUnknown replayID⟩])
      | some prevPlan => (prevPlan.up, [])

/-- `newPlan`. -/
def newPlan (d : Definition) (plans : List (VersionID × MigrationPlan)) :
    MigrationPlan :=
  let r1 := resolveReplay d.id plans (buildAction d.upAction)
  let r2 := resolveReplay d.id plans (buildAction d.downAction)
  { id := d.id, up := r1.1, down := r2.1, errs := d.errs ++ r1.2 ++ r2.2 }

/-- The loop of `Schema.complete`: for each id in order, look the
definition up, build its plan against the map of plans produced so far,
and record the plan in both the output list and the map. -/
def compileGo (defs : List (VersionID × Definition)) :
    List VersionID → List (VersionID × MigrationPlan) →
      List MigrationPlan × List (VersionID × MigrationPlan)
  | [], m => ([], m)
  | id :: L, m =>
    match lookupA id defs with
    | some d =>
      let p := newPlan d m
      let r := compileGo defs L (assocSet m id p)
      (p :: r.1, r.2)
    | none => compileGo defs L m  -- unreachable: every sorted id is a key

/-- The compilation pass of `Schema.complete`: sort ids ascending and
run the loop with an empty plan map. -/
def compileDefs (defs : List (VersionID × Definition)) : List MigrationPlan :=
  (compileGo defs (isortBy (fun a b => decide (a ≤ b)) (defs.map Prod.fst)) []).1

/-- `Schema`.  The `MigrationsTable` field carries no logic and is
omitted.  `definitions` is the registration map (keys unique),
`plans` the cached compilation result. -/
structure Schema where
  definitions : List (VersionID × Definition) := []
  plans : Option (List MigrationPlan) := none
  errs : List MigError := []

/-- The value `Schema.Define` returns: a pointer either into the
registration map or to a detached, unregistered `Definition`. -/
inductive DefHandle
  | attached (id : VersionID)
  | detached (d : Definition)

/-- `Schema.Define`. -/
def Schema.Define (s : Schema) (id : VersionID) : Schema × DefHandle :=
  if (lookupA id s.definitions).isSome then
    ({ s with errs := s.errs ++ [⟨id, .definedMoreThanOnce⟩], plans := none },
      .detached (newDefinition id))
  else
    ({ s with
        definitions := s.definitions ++ [(id, newDefinition id)]
        plans := none },
      .attached id)

/-- A chained builder call on the value returned by `Define`. -/
inductive DefCall
  | up (sql : String)
  | upAction (a : Action)
  | down (sql : String)
  | downAction (a : Action)

def defCallStep (d : Definition) : DefCall → Definition
  | .up sql => d.Up sql
  | .upAction a => d.UpAction a
  | .down sql => d.Down sql
  | .downAction a => d.DownAction a

/-- One builder call through a handle: an attached handle mutates the
registered definition, a detached handle mutates only itself. -/
def applyCall (s : Schema) (h : DefHandle) (c : DefCall) : Schema × DefHandle :=
  match h with
  | .attached id =>
    match lookupA id s.definitions with
    | some d =>
      ({ s with definitions := assocSet s.definitions id (defCallStep d c) }, h)
    | none => (s, h)  -- unreachable: attached handles name registered ids
  | .detached d => (s, .detached (defCallStep d c))

def applyCalls (s : Schema) (h : DefHandle) : List DefCall → Schema × DefHandle
  | [] => (s, h)
  | c :: cs =>
    let r := applyCall s h c
    applyCalls r.1 r.2 cs

/-- `Schema.complete`: compile unless already cached. -/
def Schema.complete (s : Schema) : Schema :=
  match s.plans with
  | some _ => s
  | none => { s with plans := some (compileDefs s.definitions) }

def Schema.compiledPlans (s : Schema) : List MigrationPlan :=
  s.complete.plans.getD []

/-- The error list `Schema.Err` aggregates: registry errors followed by
each plan's errors in plan order. -/
def Schema.errList (s : Schema) : List MigError :=
  s.complete.errs ++ ((s.complete.plans.getD []).map MigrationPlan.errs).flatten

/-- `Schema.Err`: `none` models the nil error. -/
def Schema.Err (s : Schema) : Option (List MigError) :=
  if s.errList.isEmpty then none else some s.errList

/-! ## timeVal: the forgiving timestamp scanner (timeval.go)

`time.Time` is modelled as an instant (seconds and nanoseconds since
the Unix epoch) plus the zone offset carried by the value.  `time.Parse`
is embedded for exactly the three layouts the scanner tries, including
the range validation Go performs, with dates converted to epoch days by
the standard proleptic-Gregorian formula.
-/

structure GoTime where
  sec : Int       -- seconds since the Unix epoch (the instant)
  nsec : Nat      -- nanoseconds part
  offMin : Int    -- zone offset east of UTC, in minutes
  deriving DecidableEq, Repr

/-- `time.Unix(v, 0).UTC()` -/
def timeUnix (v : Int) : GoTime := ⟨v, 0, 0⟩

def isLeapYear (y : Int) : Bool := (y % 4 == 0 && y % 100 != 0) || y % 400 == 0

def daysInMonth (y : Int) (m : Nat) : Nat :=
  if m = 2 then (if isLeapYear y then 29 else 28)
  else if m = 4 ∨ m = 6 ∨ m = 9 ∨ m = 11 then 30 else 31

/-- Days from 1970-01-01 to y-m-d in the proleptic Gregorian calendar. -/
def daysFromCivil (y : Int) (m d : Nat) : Int :=
  let y' : Int := if m ≤ 2 then y - 1 else y
  let era : Int := (if 0 ≤ y' then y' else y' - 399) / 400
  let yoe : Int := y' - era * 400
  let mp : Int := (Int.ofNat m + 9) % 12
  let doy : Int := (153 * mp + 2) / 5 + (Int.ofNat d - 1)
  let doe : Int := yoe * 365 + yoe / 4 - yoe / 100 + doy
  era * 146097 + doe - 719468

/-- The wall-clock fields a timestamp string denotes. -/
structure Civil where
  year : Nat
  month : Nat
  day : Nat
  hour : Nat
  minute : Nat
  second : Nat
  nsec : Nat := 0
  offMin : Int := 0
  deriving DecidableEq, Repr

def Civil.toGoTime (c : Civil) : GoTime :=
  ⟨daysFromCivil (Int.ofNat c.year) c.month c.day * 86400
      + c.hour * 3600 + c.minute * 60 + c.second - c.offMin * 60,
    c.nsec, c.offMin⟩

def digitVal? (c : Char) : Option Nat :=
  if '0' ≤ c ∧ c ≤ '9' then some (c.toNat - '0'.toNat) else none

def parse2 : List Char → Option (Nat × List Char)
  | c1 :: c2 :: rest =>
    match digitVal? c1, digitVal? c2 with
    | some a, some b => some (a * 10 + b, rest)
    | _, _ => none
  | _ => none

def parse4 : List Char → Option (Nat × List Char)
  | c1 :: c2 :: c3 :: c4 :: rest =>
    match digitVal? c1, digitVal? c2, digitVal? c3, digitVal? c4 with
    | some a, some b, some c, some d => some (((a * 10 + b) * 10 + c) * 10 + d, rest)
    | _, _, _, _ => none
  | _ => none

def expectChar (c : Char) : List Char → Option (List Char)
  | x :: rest => if x = c then some rest else none
  | [] => none

/-- Layout element `Z07:00`: the letter `Z` or a signed `hh:mm` offset,
yielding the offset in minutes east of UTC. -/
def parseZone : List Char → Option (Int × List Char)
  | 'Z' :: rest => some (0, rest)
  | '+' :: rest => do
    let (h, r) ← parse2 rest
    let r ← expectChar ':' r
    let (m, r) ← parse2 r
    pure ((h * 60 + m : Nat), r)
  | '-' :: rest => do
    let (h, r) ← parse2 rest
    let r ← expectChar ':' r
    let (m, r) ← parse2 r
    pure (-(h * 60 + m : Nat), r)
  | _ => none

def takeDigits : List Char → List Nat × List Char
  | c :: rest =>
    match digitVal? c with
    | some d => let r := takeDigits rest; (d :: r.1, r.2)
    | none => ([], c :: rest)
  | [] => ([], [])

def natOfDigits (ds : List Nat) : Nat := ds.foldl (fun acc d => acc * 10 + d) 0

/-- Layout element `.999999999`: an optional fraction of a second of one
to nine digits, yielding nanoseconds. -/
def parseFrac (l : List Char) : Option (Nat × List Char) :=
  match l with
  | '.' :: rest =>
    let r := takeDigits rest
    if r.1.length = 0 ∨ r.1.length > 9 then none
    else some (natOfDigits r.1 * 10 ^ (9 - r.1.length), r.2)
  | _ => none

/-- Validation and assembly once all components are parsed: Go's range
checks, then the civil-to-instant conversion. -/
def mkParsed (y mo d h mi sec ns : Nat) (off : Int) : Option GoTime :=
  if 1 ≤ mo ∧ mo ≤ 12 ∧ 1 ≤ d ∧ d ≤ daysInMonth (Int.ofNat y) mo
      ∧ h ≤ 23 ∧ mi ≤ 59 ∧ sec ≤ 59 then
    some (Civil.toGoTime ⟨y, mo, d, h, mi, sec, ns, off⟩)
  else none

/-- `time.Parse` for a layout `"2006-01-02?15:04:05Z07:00"` where `?` is
`sep`, optionally with the `RFC3339Nano` fraction, including Go's range
validation of the parsed components. -/
def parseDateTime (sep : Char) (allowFrac : Bool) (s : String) : Option GoTime :=
  match parse4 s.data with
  | none => none
  | some (y, l) =>
  match expectChar '-' l with
  | none => none
  | some l =>
  match parse2 l with
  | none => none
  | some (mo, l) =>
  match expectChar '-' l with
  | none => none
  | some l =>
  match parse2 l with
  | none => none
  | some (d, l) =>
  match expectChar sep l with
  | none => none
  | some l =>
  match parse2 l with
  | none => none
  | some (h, l) =>
  match expectChar ':' l with
  | none => none
  | some l =>
  match parse2 l with
  | none => none
  | some (mi, l) =>
  match expectChar ':' l with
  | none => none
  | some l =>
  match parse2 l with
  | none => none
  | some (sec, l) =>
  let fr :=
    if allowFrac then
      match parseFrac l with
      | some r => r
      | none => (0, l)
    else (0, l)
  match parseZone fr.2 with
  | none => none
  | some (off, l) =>
  match l with
  | [] => mkParsed y mo d h mi sec fr.1 off
  | _ => none

/-- Layout `"2006-01-02 15:04:05Z07:00"` (tried first, for sqlite). -/
def parseSqliteTime (s : String) : Option GoTime := parseDateTime ' ' false s

/-- Layout `time.RFC3339` (tried second). -/
def parseRFC3339 (s : String) : Option GoTime := parseDateTime 'T' false s

/-- Layout `time.RFC3339Nano` (tried last). -/
def parseRFC3339Nano (s : String) : Option GoTime := parseDateTime 'T' true s

/-- The dynamic value handed to `timeVal.Scan` by `database/sql`. -/
inductive SqlValue
  | null
  | timeV (t : GoTime)
  | str (s : String)
  | int64 (v : Int)
  | other          -- any dynamic type the switch does not handle

/-- `timeVal.Scan`: the resulting `tv.Time` paired with the returned
error, which is nil on every path. -/
def timeValScan : SqlValue → GoTime × Option String
  | .null => (timeUnix 0, none)
  | .timeV t => (t, none)
  | .str s =>
    match parseSqliteTime s with
    | some t => (t, none)
    | none =>
      match parseRFC3339 s with
      | some t => (t, none)
      | none =>
        match parseRFC3339Nano s with
        | some t => (t, none)
        | none => (timeUnix 0, none)
  | .int64 v => (timeUnix v, none)
  | .other => (timeUnix 0, none)

/-- Fixed-width decimal renderings, used to state which strings the
scanner must accept. -/
def digitChar (n : Nat) : Char := Char.ofNat ('0'.toNat + n)

def render2 (n : Nat) : List Char := [digitChar (n / 10), digitChar (n % 10)]

def render4 (n : Nat) : List Char :=
  [digitChar (n / 1000), digitChar (n / 100 % 10), digitChar (n / 10 % 10),
    digitChar (n % 10)]

/-- A zone suffix: `none` renders as `Z` (UTC, no explicit offset),
`some (sgn, h, m)` as `±hh:mm`. -/
def renderZone : Option (Bool × Nat × Nat) → List Char
  | none => ['Z']
  | some z => (if z.1 then '-' else '+') :: (render2 z.2.1 ++ [':'] ++ render2 z.2.2)

def zoneOffMin : Option (Bool × Nat × Nat) → Int
  | none => 0
  | some z => (if z.1 then -1 else 1) * ((z.2.1 : Int) * 60 + z.2.2)

def renderTimestamp (sep : Char) (y mo d h mi s : Nat)
    (z : Option (Bool × Nat × Nat)) : String :=
  ⟨render4 y ++ '-' :: (render2 mo ++ '-' :: (render2 d ++ sep ::
    (render2 h ++ ':' :: (render2 mi ++ ':' :: (render2 s ++ renderZone z)))))⟩

/-! ## The execution worker (worker.go)

State of a run: the persisted version table (a list of rows), a wall
clock that each `time.Now()` call reads and advances, and the log
output.  A transaction is modelled by keeping the table unchanged on an
error result (rollback); clock and log survive rollbacks, like real
time and real log output.
-/

/-- One persisted row of the version table
(`id, applied_at, failed, locked`). -/
structure Row where
  id : VersionID
  appliedAt : Nat
  failed : Bool
  locked : Bool
  deriving DecidableEq, Repr

/-- `Version`: the runtime view of one schema version. -/
structure Version where
  ID : VersionID
  AppliedAt : Option Nat
  Failed : Bool := false
  Locked : Bool := false
  Up : String := ""
  Down : String := ""
  deriving DecidableEq, Repr

/-- One log line, one constructor per format string of the source. -/
inductive LogEntry
  | migratedUp (id : VersionID)     -- "migrated up version=%d"
  | migratedDown (id : VersionID)   -- "migrated down version=%d"
  | lockedSkip (id : VersionID)     -- "locked version=%d"
  | lockVerb (verb : String) (id : VersionID)  -- "%s version=%d"
  | deletedVersion (id : VersionID)  -- "deleted database schema version id=%d"
  | clearedFailure (id : VersionID)  -- "cleared database schema version failure id=%d"
  | finishedMsg (msg : String) (version : VersionID) (locked failed : Bool)
  deriving DecidableEq, Repr

structure WState where
  db : List Row
  clock : Nat
  log : List LogEntry
  deriving DecidableEq, Repr

/-- Errors the worker can return. -/
inductive WErr
  | prevFailed                       -- "previously failed"
  | lockedVersion (id : VersionID)   -- "database schema version locked id=%d"
  | invalidVersion (id : VersionID)  -- "invalid schema version id=%d"
  | stepFailed (id : VersionID)      -- a migration action failed; wrapped as "%d: ..."
  | insertConflict (id : VersionID)  -- "cannot insert migration version %d"
  | missingPlan (id : VersionID)     -- "missing plan for version %d"
  | forceUnapplied (id : VersionID)  -- "cannot force unapplied version id=%d"
  | unappliedVersion (verb : String) (id : VersionID)  -- "cannot %s unapplied version id=%d"
  | versionNotFound (id : VersionID) -- "cannot find version %d"
  | noVersionRow (id : VersionID)    -- nil dereference in downOne; unreachable in valid states
  | fuelExhausted                    -- bound of the loop embedding; unreachable for compiled schemas
  deriving DecidableEq, Repr

/-- `Worker`: the compiled schema (definition keys plus plans) and the
backend, reduced to its observable behaviour (transactional-DDL support
and the outcome of executing each SQL text on the live database). -/
structure Worker where
  defIds : List VersionID
  plans : List MigrationPlan
  txDDL : Bool
  execSql : String → Bool

/-! Driver operations on the version table. -/

/-- `InsertVersion`: fails on a duplicate primary key. -/
def rowsInsert (rows : List Row) (r : Row) : Except WErr (List Row) :=
  if rows.any (fun x => x.id == r.id) then .error (.insertConflict r.id)
  else .ok (rows ++ [r])

/-- `DeleteVersion`. -/
def rowsDelete (rows : List Row) (id : VersionID) : List Row :=
  rows.filter (fun r => r.id != id)

/-- `SetVersionFailed`. -/
def rowsSetFailed (rows : List Row) (id : VersionID) (b : Bool) : List Row :=
  rows.map (fun r => if r.id == id then { r with failed := b } else r)

/-- `SetVersionLocked`. -/
def rowsSetLocked (rows : List Row) (id : VersionID) (b : Bool) : List Row :=
  rows.map (fun r => if r.id == id then { r with locked := b } else r)

/-- `ListVersions`: `select id,applied_at,failed,locked from %s order by id`. -/
def listRows (rows : List Row) : List Row :=
  isortBy (fun a b => decide (a.id ≤ b.id)) rows

def rowVersion (r : Row) : Version := ⟨r.id, some r.appliedAt, r.failed, r.locked, "", ""⟩

def listVersionRows (rows : List Row) : List Version := (listRows rows).map rowVersion

/-- `versionSummary`. -/
structure VersionSummary where
  id : VersionID
  versions : List Version
  applied : List MigrationPlan
  unapplied : List MigrationPlan
  vmap : List (VersionID × Version)

/-- `vs.vmap[id]` (always present at the ids the worker uses it on). -/
def vmapGetD (m : List (VersionID × Version)) (id : VersionID) : Version :=
  (lookupA id m).getD ⟨id, none, false, false, "", ""⟩

def planUpText (p : MigrationPlan) : String :=
  if p.up.dbFunc.isSome then "(DBFunc)"
  else if p.up.txFunc.isSome then "(TxFunc)"
  else p.up.sql

def planDownText (p : MigrationPlan) : String :=
  if p.down.dbFunc.isSome then "(DBFunc)"
  else if p.down.txFunc.isSome then "(TxFunc)"
  else p.down.sql

def setPlanText (p : MigrationPlan) (v : Version) : Version :=
  { v with Up := planUpText p, Down := planDownText p }

/-- The persisted content of a `Version` (everything except the
rendered up/down text): id, applied-at, failed, locked. -/
def projV (v : Version) : VersionID × Option Nat × Bool × Bool :=
  (v.ID, v.AppliedAt, v.Failed, v.Locked)

/-- Whether the table has a row for this id. -/
def hasRowB (rows : List Row) (id : VersionID) : Bool :=
  rows.any (fun r => r.id == id)

/-- Loop body of `getVersionSummaryAllowFailed` over the compiled plans:
partition into applied/unapplied, synthesize placeholder `Version`s and
render the up/down text on the (shared) `Version` objects. -/
def summaryStep (appliedIds : List VersionID) (acc : VersionSummary)
    (plan : MigrationPlan) : VersionSummary :=
  if appliedIds.contains plan.id then
    let ver := setPlanText plan (vmapGetD acc.vmap plan.id)
    { acc with
        versions := acc.versions.map (fun v => if v.ID == plan.id then ver else v)
        vmap := assocSet acc.vmap plan.id ver
        applied := acc.applied ++ [plan] }
  else
    let ver := setPlanText plan ⟨plan.id, none, false, false, "", ""⟩
    { acc with
        versions := acc.versions ++ [ver]
        vmap := assocSet acc.vmap plan.id ver
        unapplied := acc.unapplied ++ [plan] }

/-- The zero-valued summary populated from the persisted rows: the
running maximum id, the listed versions, and the id map. -/
def summaryInit (rows : List Row) : VersionSummary :=
  let vers0 := listVersionRows rows
  { id := vers0.foldl (fun acc v => if v.ID > acc then v.ID else acc) 0
    versions := vers0
    applied := []
    unapplied := []
    vmap := vers0.map (fun v => (v.ID, v)) }

/-- The summary after the loop over the compiled plans. -/
def summaryFold (w : Worker) (rows : List Row) : VersionSummary :=
  List.foldl (summaryStep ((listVersionRows rows).map Version.ID))
    (summaryInit rows) w.plans

/-- `getVersionSummaryAllowFailed`. -/
def getVersionSummaryAllowFailed (w : Worker) (rows : List Row) : VersionSummary :=
  let vs := summaryFold w rows
  { vs with
      applied := isortBy (fun a b => decide (b.id ≤ a.id)) vs.applied
      unapplied := isortBy (fun a b => decide (a.id ≤ b.id)) vs.unapplied
      versions := isortBy (fun a b => decide (a.ID ≤ b.ID)) vs.versions }

/-- `getVersionSummary`: the failed-state gate used by state-changing
operations. -/
def getVersionSummary (w : Worker) (rows : List Row) : Except WErr VersionSummary :=
  let vs := getVersionSummaryAllowFailed w rows
  if vs.versions.any (fun v => v.Failed) then .error .prevFailed else .ok vs

def checkLockedFrom (vmap : List (VersionID × Version)) (id : VersionID) :
    List MigrationPlan → Except WErr Unit
  | [] => .ok ()
  | p :: rest =>
    if p.id ≤ id then .ok ()
    else if (vmapGetD vmap p.id).Locked then .error (.lockedVersion p.id)
    else checkLockedFrom vmap id rest

/-- `versionSummary.checkLocked`. -/
def VersionSummary.checkLocked (vs : VersionSummary) (id : VersionID) :
    Except WErr Unit :=
  checkLockedFrom vs.vmap id vs.applied

/-- `Worker.checkVersion`. -/
def checkVersion (w : Worker) (id : VersionID) : Except WErr Unit :=
  if w.defIds.contains id then .ok () else .error (.invalidVersion id)

/-- `Worker.finished`: log the end-of-loop message with the current top
version and its status flags. -/
def finishedOp (w : Worker) (msg : String) (s : WState) : WState :=
  let vs := getVersionSummaryAllowFailed w s.db
  match vs.applied with
  | [] => { s with log := s.log ++ [.finishedMsg msg 0 false false] }
  | plan :: _ =>
    let v := vmapGetD vs.vmap plan.id
    { s with log := s.log ++ [.finishedMsg msg v.ID v.Locked v.Failed] }

/-- `Worker.upOneNoTx`: the non-transactional two-phase protocol for an
up step.  Phase 1 commits the row stamped `failed=true`; phase 2 runs
the action outside any transaction; phase 3 clears the flag. -/
def upOneNoTx (w : Worker) (id : VersionID) (s : WState) :
    Except WErr Unit × WState :=
  match w.plans.find? (fun p => p.id == id) with
  | none => (.error (.missingPlan id), s)
  | some plan =>
    let now := s.clock
    let s1 : WState := { s with clock := s.clock + 1 }
    match rowsInsert s1.db ⟨id, now, true, false⟩ with
    | .error e => (.error e, s1)
    | .ok db1 =>
      let s2 : WState := { s1 with db := db1 }
      let okExec :=
        match plan.up.dbFunc with
        | some b => b
        | none => w.execSql plan.up.sql
      if okExec then (.ok (), { s2 with db := rowsSetFailed s2.db id false })
      else (.error (.stepFailed id), s2)

/-- The tail of `upOne`'s transaction: insert the version row and log. -/
def upCommit (plan : MigrationPlan) (appliedAt : Nat) (more : Bool) (s : WState) :
    Except WErr Unit × Bool × WState :=
  match rowsInsert s.db ⟨plan.id, appliedAt, false, false⟩ with
  | .error e => (.error e, more, s)
  | .ok db' =>
    (.ok (), more, { s with db := db', log := s.log ++ [.migratedUp plan.id] })

/-- `Worker.upOne`. -/
def upOne (w : Worker) (s : WState) : Except WErr Unit × Bool × WState :=
  match getVersionSummary w s.db with
  | .error e => (.error e, false, s)
  | .ok vs =>
    match vs.unapplied with
    | [] => (.ok (), false, s)
    | plan :: rest =>
      let appliedAt := s.clock
      let s1 : WState := { s with clock := s.clock + 1 }
      let more := !rest.isEmpty
      match plan.up.txFunc with
      | some fnOk =>
        if fnOk then upCommit plan appliedAt more s1
        else (.error (.stepFailed plan.id), more, s1)
      | none =>
        if !w.txDDL || plan.up.dbFunc.isSome then
          match upOneNoTx w plan.id s1 with
          | (.ok _, s') =>
            (.ok (), more, { s' with log := s'.log ++ [.migratedUp plan.id] })
          | (.error e, s') => (.error e, more, s')
        else if w.execSql plan.up.sql then upCommit plan appliedAt more s1
        else (.error (.stepFailed plan.id), more, s1)

/-- `Worker.downOneNoTx`.  NOTE: the source's comment says "mark version
as failed", but the call passes `false`, so phase 1 stamps the row
`failed=false`. -/
def downOneNoTx (w : Worker) (id : VersionID) (s : WState) :
    Except WErr Unit × WState :=
  match w.plans.find? (fun p => p.id == id) with
  | none => (.error (.missingPlan id), s)
  | some plan =>
    let s1 : WState := { s with db := rowsSetFailed s.db id false }
    let okExec :=
      match plan.down.dbFunc with
      | some b => b
      | none => w.execSql plan.down.sql
    if okExec then (.ok (), { s1 with db := rowsDelete s1.db id })
    else (.error (.stepFailed id), s1)

/-- The tail of `downOne`'s transaction: delete the version row and log. -/
def downCommit (plan : MigrationPlan) (verID : VersionID) (more : Bool)
    (s : WState) : Except WErr Unit × Bool × WState :=
  (.ok (), more,
    { s with db := rowsDelete s.db verID, log := s.log ++ [.migratedDown plan.id] })

/-- `Worker.downOne`. -/
def downOne (w : Worker) (s : WState) : Except WErr Unit × Bool × WState :=
  match getVersionSummary w s.db with
  | .error e => (.error e, false, s)
  | .ok vs =>
    match vs.applied with
    | [] => (.ok (), false, s)
    | plan :: restApplied =>
      match vs.versions.find? (fun v => v.ID == plan.id) with
      | none => (.error (.noVersionRow plan.id), false, s)
      | some version =>
        if version.Locked then
          (.ok (), false, { s with log := s.log ++ [.lockedSkip version.ID] })
        else
          let more := !restApplied.isEmpty
          match plan.down.txFunc with
          | some fnOk =>
            if fnOk then downCommit plan version.ID more s
            else (.error (.stepFailed plan.id), more, s)
          | none =>
            if !w.txDDL || plan.down.dbFunc.isSome then
              match downOneNoTx w plan.id s with
              | (.ok _, s') =>
                (.ok (), more, { s' with log := s'.log ++ [.migratedDown plan.id] })
              | (.error e, s') => (.error e, false, s')
            else if w.execSql plan.down.sql then downCommit plan version.ID more s
            else (.error (.stepFailed plan.id), more, s)

/-- Down-steps still pending for a target (`applied.id > id`). -/
def pendingDown (vs : VersionSummary) (id : VersionID) : Nat :=
  (vs.applied.takeWhile (fun p => decide (id < p.id))).length

/-- Up-steps still pending for a target (`unapplied.id <= id`). -/
def pendingUp (vs : VersionSummary) (id : VersionID) : Nat :=
  (vs.unapplied.takeWhile (fun p => decide (p.id ≤ id))).length

/-- `Worker.gotoOne`. -/
def gotoOne (w : Worker) (id : VersionID) (s : WState) :
    Except WErr Unit × Bool × WState :=
  match getVersionSummary w s.db with
  | .error e => (.error e, false, s)
  | .ok vs =>
    match vs.checkLocked id with
    | .error e => (.error e, false, s)
    | .ok _ =>
      let downCount := pendingDown vs id
      let upCount := pendingUp vs id
      if 0 < downCount then
        match downOne w s with
        | (.error e, _, s') => (.error e, false, s')
        | (.ok _, _, s') => (.ok (), decide (0 < upCount + (downCount - 1)), s')
      else if 0 < upCount then
        match upOne w s with
        | (.error e, _, s') => (.error e, false, s')
        | (.ok _, _, s') => (.ok (), decide (0 < (upCount - 1) + downCount), s')
      else (.ok (), false, s)

/-- The `Up` loop, with an explicit bound on the number of iterations;
`fuelExhausted` is unreachable for compiled schemas (each iteration
applies one of the finitely many unapplied plans). -/
def upN (w : Worker) : Nat → WState → Except WErr Unit × WState
  | 0, s => (.error .fuelExhausted, s)
  | fuel + 1, s =>
    match upOne w s with
    | (.error e, _, s') => (.error e, s')
    | (.ok _, more, s') =>
      if more then upN w fuel s'
      else (.ok (), finishedOp w "migrate up finished" s')

/-- `Worker.Up`. -/
def Up (w : Worker) (s : WState) : Except WErr Unit × WState :=
  upN w (w.plans.length + 1) s

/-- The `Down` loop. -/
def downN (w : Worker) : Nat → WState → Except WErr Unit × WState
  | 0, s => (.error .fuelExhausted, s)
  | fuel + 1, s =>
    match downOne w s with
    | (.error e, _, s') => (.error e, s')
    | (.ok _, more, s') =>
      if more then downN w fuel s'
      else (.ok (), finishedOp w "migrate down finished" s')

/-- `Worker.Down`. -/
def Down (w : Worker) (s : WState) : Except WErr Unit × WState :=
  downN w (w.plans.length + 1) s

/-- The `Goto` loop. -/
def gotoN (w : Worker) (id : VersionID) : Nat → WState → Except WErr Unit × WState
  | 0, s => (.error .fuelExhausted, s)
  | fuel + 1, s =>
    match gotoOne w id s with
    | (.error e, _, s') => (.error e, s')
    | (.ok _, more, s') =>
      if more then gotoN w id fuel s'
      else (.ok (), finishedOp w "migrate goto finished" s')

/-- `Worker.Goto` (`id = 0` means: remove all migrations). -/
def Goto (w : Worker) (id : VersionID) (s : WState) : Except WErr Unit × WState :=
  match (if id = 0 then Except.ok () else checkVersion w id : Except WErr Unit) with
  | .error e => (.error e, s)
  | .ok _ => gotoN w id (w.plans.length + 1) s

/-- `Worker.Force`. -/
def Force (w : Worker) (id : VersionID) (s : WState) : Except WErr Unit × WState :=
  match (if id = 0 then Except.ok () else checkVersion w id : Except WErr Unit) with
  | .error e => (.error e, s)
  | .ok _ =>
    let vs := getVersionSummaryAllowFailed w s.db
    match vs.checkLocked id with
    | .error e => (.error e, s)
    | .ok _ =>
      if id ≠ 0 ∧ ¬ vs.applied.any (fun p => p.id == id) then
        (.error (.forceUnapplied id), s)
      else
        let s' := vs.applied.foldl
          (fun acc plan =>
            let ver := vmapGetD vs.vmap plan.id
            if ver.ID > id then
              { acc with
                  db := rowsDelete acc.db ver.ID
                  log := acc.log ++ [.deletedVersion ver.ID] }
            else if ver.Failed then
              { acc with
                  db := rowsSetFailed acc.db ver.ID false
                  log := acc.log ++ [.clearedFailure id] }
            else acc)
          s
        (.ok (), finishedOp w "database schema version forced" s')

/-- `Worker.lockHelper`. -/
def lockHelper (w : Worker) (id : VersionID) (verb : String) (lock : Bool)
    (s : WState) : Except WErr Unit × WState :=
  match checkVersion w id with
  | .error e => (.error e, s)
  | .ok _ =>
    match getVersionSummary w s.db with
    | .error e => (.error e, s)
    | .ok vs =>
      if vs.applied.any (fun p => p.id == id) then
        (.ok (),
          { s with
              db := rowsSetLocked s.db id lock
              log := s.log ++ [.lockVerb verb id] })
      else (.error (.unappliedVersion verb id), s)

/-- `Worker.Lock`. -/
def Lock (w : Worker) (id : VersionID) (s : WState) : Except WErr Unit × WState :=
  lockHelper w id "lock" true s

/-- `Worker.Unlock`. -/
def Unlock (w : Worker) (id : VersionID) (s : WState) : Except WErr Unit × WState :=
  lockHelper w id "unlock" false s

/-- `Worker.Version`: read-only lookup of one version. -/
def VersionOf (w : Worker) (id : VersionID) (s : WState) : Except WErr Version :=
  match checkVersion w id with
  | .error e => .error e
  | .ok _ =>
    let vs := getVersionSummaryAllowFailed w s.db
    match vs.versions.find? (fun v => v.ID == id) with
    | some v => .ok v
    | none => .error (.versionNotFound id)

/-- `Worker.Versions`: read-only list of all versions. -/
def Versions (w : Worker) (s : WState) : Except WErr (List Version) :=
  .ok (getVersionSummaryAllowFailed w s.db).versions

/-- Whether executing the given migration action against this worker's
backend succeeds, following the worker's dispatch order: a transaction
function runs as such; otherwise a database function; otherwise the raw
SQL text. -/
def actionOk (w : Worker) (a : MAction) : Bool :=
  match a.txFunc with
  | some b => b
  | none =>
    match a.dbFunc with
    | some b => b
    | none => w.execSql a.sql

/-! ## Concrete instances used by the witnesses -/

/-- The replay chain of `TestSchemaReplay`: version 3's up replays
version 1, version 5's up replays version 3. -/
def chainDef1 : Definition := ((newDefinition 1).Up "create view v1;").Down "drop view v1;"

def chainDef3 : Definition := ((newDefinition 3).UpAction (Replay 1)).Down "drop view v1;"

def chainDef5 : Definition := ((newDefinition 5).UpAction (Replay 3)).Down "drop view v1;"

def chainDefs : List (VersionID × Definition) :=
  [(1, chainDef1), (3, chainDef3), (5, chainDef5)]

/-- A schema with version 1 already registered, for the duplicate-define
witness. -/
def oneSchema : Schema := (Schema.Define {} 1).1

theorem insertLe_perm {α : Type} (le : α → α → Bool) (a : α) (l : List α) :
    (insertLe le a l).Perm (a :: l) := by
  induction l with
  | nil => simp [insertLe]
  | cons b l ih =>
    simp only [insertLe]
    by_cases h : le a b
    · simp [h]
    · simp only [h, if_neg, Bool.false_eq_true, not_false_iff]
      exact .trans (.cons b ih) (.swap a b l)

theorem isortBy_perm {α : Type} (le : α → α → Bool) (l : List α) :
    (isortBy le l).Perm l := by
  induction l with
  | nil => simp [isortBy]
  | cons a l ih =>
    exact .trans (insertLe_perm le a (isortBy le l)) (.cons a ih)

theorem insertLe_pairwise {α : Type} (le : α → α → Bool)
    (htot : ∀ a b, le a b = true ∨ le b a = true)
    (htrans : ∀ a b c, le a b = true → le b c = true → le a c = true)
    (a : α) (l : List α)
    (hl : l.Pairwise (fun x y => le x y = true)) :
    (insertLe le a l).Pairwise (fun x y => le x y = true) := by
  induction l with
  | nil => simp [insertLe]
  | cons b l ih =>
    have hb : ∀ c ∈ l, le b c = true := (List.pairwise_cons.1 hl).1
    have hl' := (List.pairwise_cons.1 hl).2
    simp only [insertLe]
    by_cases h : le a b
    · simp only [h, if_pos]
      refine List.pairwise_cons.2 ⟨?_, hl⟩
      intro c hc
      rcases List.mem_cons.1 hc with rfl | hc
      · exact h
      · exact htrans a b c h (hb c hc)
    · simp only [h, if_neg, Bool.false_eq_true, not_false_iff]
      refine List.pairwise_cons.2 ⟨?_, ih hl'⟩
      intro c hc
      have hmem := (insertLe_perm le a l).mem_iff.1 hc
      rcases List.mem_cons.1 hmem with hca | hc'
      · subst hca
        cases htot c b with
        | inl h' => exact absurd h' h
        | inr h' => exact h'
      · exact hb c hc'

theorem isortBy_pairwise {α : Type} (le : α → α → Bool)
    (htot : ∀ a b, le a b = true ∨ le b a = true)
    (htrans : ∀ a b c, le a b = true → le b c = true → le a c = true)
    (l : List α) :
    (isortBy le l).Pairwise (fun x y => le x y = true) := by
  induction l with
  | nil => simp [isortBy]
  | cons a l ih => exact insertLe_pairwise le htot htrans a _ ih

theorem isortBy_of_pairwise {α : Type} {le : α → α → Bool} {l : List α}
    (hl : l.Pairwise (fun x y => le x y = true)) : isortBy le l = l := by
  induction l with
  | nil => rfl
  | cons a l ih =>
    have h1 := (List.pairwise_cons.1 hl).1
    have h2 := (List.pairwise_cons.1 hl).2
    rw [isortBy, ih h2]
    cases l with
    | nil => rfl
    | cons b l' => simp [insertLe, h1 b (List.mem_cons_self b l')]

/-- Two permuted lists that are both strictly ordered by the same
integer key are equal. -/
theorem eq_of_perm_of_strict_key {α : Type} (key : α → Int) :
    ∀ {l₁ l₂ : List α}, l₁.Perm l₂ →
      l₁.Pairwise (fun x y => key x < key y) →
      l₂.Pairwise (fun x y => key x < key y) → l₁ = l₂ := by
  intro l₁ l₂ hp h₁ h₂
  haveI : IsAntisymm α (fun x y => key x < key y) :=
    ⟨fun a b h1 h2 => absurd (h1.trans h2) (lt_irrefl _)⟩
  exact List.eq_of_perm_of_sorted hp h₁ h₂

/-! ## Lemmas about the timestamp parser -/

theorem digitVal?_digitChar {n : Nat} (h : n < 10) :
    digitVal? (digitChar n) = some n := by
  interval_cases n <;> decide

theorem parse2_render2 {n : Nat} (h : n < 100) (r : List Char) :
    parse2 (render2 n ++ r) = some (n, r) := by
  have h1 : n / 10 < 10 := by omega
  have h2 : n % 10 < 10 := by omega
  simp only [render2, List.cons_append, List.nil_append, parse2,
    digitVal?_digitChar h1, digitVal?_digitChar h2]
  have : n / 10 * 10 + n % 10 = n := by omega
  rw [this]

theorem parse4_render4 {n : Nat} (h : n ≤ 9999) (r : List Char) :
    parse4 (render4 n ++ r) = some (n, r) := by
  have h1 : n / 1000 < 10 := by omega
  have h2 : n / 100 % 10 < 10 := by omega
  have h3 : n / 10 % 10 < 10 := by omega
  have h4 : n % 10 < 10 := by omega
  simp only [render4, List.cons_append, List.nil_append, parse4,
    digitVal?_digitChar h1, digitVal?_digitChar h2, digitVal?_digitChar h3,
    digitVal?_digitChar h4]
  have : ((n / 1000 * 10 + n / 100 % 10) * 10 + n / 10 % 10) * 10 + n % 10 = n := by
    omega
  rw [this]

theorem expectChar_same (c : Char) (r : List Char) :
    expectChar c (c :: r) = some r := by
  simp [expectChar]

theorem parseZone_renderZone (z : Option (Bool × Nat × Nat))
    (hz : ∀ sgn oh om, z = some (sgn, oh, om) → oh < 100 ∧ om < 100)
    (r : List Char) :
    parseZone (renderZone z ++ r) = some (zoneOffMin z, r) := by
  match z with
  | none => rfl
  | some (sgn, oh, om) =>
    obtain ⟨hoh, hom⟩ := hz sgn oh om rfl
    cases sgn with
    | false =>
      simp only [renderZone, zoneOffMin, if_neg Bool.false_ne_true,
        List.cons_append, List.append_assoc, List.cons_append, List.nil_append]
      show parseZone ('+' :: _) = _
      simp only [parseZone, parse2_render2 hoh, Option.bind_eq_bind,
        Option.some_bind, expectChar_same, parse2_render2 hom]
      simp
    | true =>
      simp only [renderZone, zoneOffMin, if_pos rfl, List.cons_append,
        List.append_assoc, List.cons_append, List.nil_append]
      show parseZone ('-' :: _) = _
      simp only [parseZone, parse2_render2 hoh, Option.bind_eq_bind,
        Option.some_bind, expectChar_same, parse2_render2 hom]
      simp

/-- Parsing a timestamp rendered with the layout's own separator
recovers its components. -/
theorem parseDateTime_renderTimestamp (sep : Char) (y mo d h mi s : Nat)
    (z : Option (Bool × Nat × Nat))
    (hy : y ≤ 9999) (hmo1 : 1 ≤ mo) (hmo : mo ≤ 12) (hd1 : 1 ≤ d)
    (hd : d ≤ daysInMonth (Int.ofNat y) mo) (hh : h ≤ 23) (hmi : mi ≤ 59)
    (hs : s ≤ 59)
    (hz : ∀ sgn oh om, z = some (sgn, oh, om) → oh < 100 ∧ om < 100) :
    parseDateTime sep false (renderTimestamp sep y mo d h mi s z)
      = some (Civil.toGoTime ⟨y, mo, d, h, mi, s, 0, zoneOffMin z⟩) := by
  have hmo' : mo < 100 := by omega
  have hd' : d < 100 := by
    have : daysInMonth (Int.ofNat y) mo ≤ 31 := by
      unfold daysInMonth
      split
      · split <;> omega
      · split <;> omega
    omega
  have hh' : h < 100 := by omega
  have hmi' : mi < 100 := by omega
  have hs' : s < 100 := by omega
  show parseDateTime sep false
      ⟨render4 y ++ '-' :: (render2 mo ++ '-' :: (render2 d ++ sep ::
        (render2 h ++ ':' :: (render2 mi ++ ':' :: (render2 s ++ renderZone z)))))⟩
      = _
  unfold parseDateTime
  rw [show render2 s ++ renderZone z = render2 s ++ (renderZone z ++ []) from by
    rw [List.append_nil]]
  simp only [parse4_render4 hy, expectChar_same, parse2_render2 hmo',
    parse2_render2 hd', parse2_render2 hh', parse2_render2 hmi',
    parse2_render2 hs', parseZone_renderZone z hz, Bool.false_eq_true,
    if_false]
  show mkParsed y mo d h mi s 0 (zoneOffMin z) = _
  unfold mkParsed
  rw [if_pos ⟨hmo1, hmo, hd1, hd, hh, hmi, hs⟩]

/-- The space-separated layout rejects a `T`-separated timestamp. -/
theorem parseSqlite_rejects_T (y mo d h mi s : Nat)
    (z : Option (Bool × Nat × Nat))
    (hy : y ≤ 9999) (hmo : mo < 100) (hd : d < 100) :
    parseDateTime ' ' false (renderTimestamp 'T' y mo d h mi s z) = none := by
  show parseDateTime ' ' false
      ⟨render4 y ++ '-' :: (render2 mo ++ '-' :: (render2 d ++ 'T' ::
        (render2 h ++ ':' :: (render2 mi ++ ':' :: (render2 s ++ renderZone z)))))⟩
      = _
  unfold parseDateTime
  simp only [parse4_render4 hy, expectChar_same, parse2_render2 hmo,
    parse2_render2 hd]
  simp [expectChar]

/-- C9: scanning a persisted `applied_at` value never fails and yields
the time itself for a native time value, `time.Unix(v, 0)` for an
integer, the denoted time for an ISO-8601 string (with the `Z` marker or
an explicit `±hh:mm` offset) and for the space-separated
date-time-with-offset variant, and the Unix epoch for nil or any value
no layout parses. -/
theorem C9_timeVal_scan_spec :
    (∀ src, (timeValScan src).2 = none)
    ∧ (∀ t, timeValScan (.timeV t) = (t, none))
    ∧ (∀ v, timeValScan (.int64 v) = (timeUnix v, none))
    ∧ timeValScan .null = (timeUnix 0, none)
    ∧ (∀ y mo d h mi s z, y ≤ 9999 → 1 ≤ mo → mo ≤ 12 → 1 ≤ d →
        d ≤ daysInMonth (Int.ofNat y) mo → h ≤ 23 → mi ≤ 59 → s ≤ 59 →
        (∀ sgn oh om, z = some (sgn, oh, om) → oh < 100 ∧ om < 100) →
        timeValScan (.str (renderTimestamp 'T' y mo d h mi s z))
          = (Civil.toGoTime ⟨y, mo, d, h, mi, s, 0, zoneOffMin z⟩, none))
    ∧ (∀ y mo d h mi s z, y ≤ 9999 → 1 ≤ mo → mo ≤ 12 → 1 ≤ d →
        d ≤ daysInMonth (Int.ofNat y) mo → h ≤ 23 → mi ≤ 59 → s ≤ 59 →
        (∀ sgn oh om, z = some (sgn, oh, om) → oh < 100 ∧ om < 100) →
        timeValScan (.str (renderTimestamp ' ' y mo d h mi s z))
          = (Civil.toGoTime ⟨y, mo, d, h, mi, s, 0, zoneOffMin z⟩, none))
    ∧ (∀ str, parseSqliteTime str = none → parseRFC3339 str = none →
        parseRFC3339Nano str = none →
        timeValScan (.str str) = (timeUnix 0, none)) := by
  refine ⟨?_, fun t => rfl, fun v => rfl, rfl, ?_, ?_, ?_⟩
  · intro src
    cases src with
    | null => rfl
    | timeV t => rfl
    | int64 v => rfl
    | other => rfl
    | str s =>
      unfold timeValScan
      dsimp only
      cases parseSqliteTime s with
      | some t => rfl
      | none =>
        cases parseRFC3339 s with
        | some t => rfl
        | none =>
          cases parseRFC3339Nano s with
          | some t => rfl
          | none => rfl
  · intro y mo d h mi s z hy hmo1 hmo hd1 hd hh hmi hs hz
    have hmo' : mo < 100 := by omega
    have hd' : d < 100 := by
      have : daysInMonth (Int.ofNat y) mo ≤ 31 := by
        unfold daysInMonth
        split
        · split <;> omega
        · split <;> omega
      omega
    unfold timeValScan parseSqliteTime parseRFC3339
    dsimp only
    rw [parseSqlite_rejects_T y mo d h mi s z hy hmo' hd',
      parseDateTime_renderTimestamp 'T' y mo d h mi s z hy hmo1 hmo hd1 hd
        hh hmi hs hz]
  · intro y mo d h mi s z hy hmo1 hmo hd1 hd hh hmi hs hz
    unfold timeValScan parseSqliteTime
    dsimp only
    rw [parseDateTime_renderTimestamp ' ' y mo d h mi s z hy hmo1 hmo hd1 hd
      hh hmi hs hz]
  · intro str h1 h2 h3
    unfold timeValScan
    dsimp only
    rw [h1, h2, h3]

/-- Witness for C9 at the concrete inputs of the source's own test. -/
theorem C9_timeVal_scan_spec_witness :
    timeValScan (.str (renderTimestamp 'T' 2099 12 31 23 59 59 none))
        = (⟨4102444799, 0, 0⟩, none)
    ∧ renderTimestamp 'T' 2099 12 31 23 59 59 none = "2099-12-31T23:59:59Z"
    ∧ timeValScan (.str (renderTimestamp ' ' 2099 12 31 23 59 59
        (some (false, 10, 0)))) = (⟨4102408799, 0, 600⟩, none)
    ∧ renderTimestamp ' ' 2099 12 31 23 59 59 (some (false, 10, 0))
        = "2099-12-31 23:59:59+10:00"
    ∧ timeValScan (.str "INVALID") = (timeUnix 0, none)
    ∧ timeValScan (.int64 1000000000) = (timeUnix 1000000000, none) := by
  have h := C9_timeVal_scan_spec
  refine ⟨?_, by decide, ?_, by decide, ?_, h.2.2.1 1000000000⟩
  · rw [h.2.2.2.2.1 2099 12 31 23 59 59 none (by decide) (by decide)
      (by decide) (by decide) (by decide) (by decide) (by decide) (by decide)
      (by intro sgn oh om hzz; cases hzz)]
    decide
  · rw [h.2.2.2.2.2.1 2099 12 31 23 59 59 (some (false, 10, 0)) (by decide)
      (by decide) (by decide) (by decide) (by decide) (by decide) (by decide)
      (by decide) (by intro sgn oh om hzz; cases hzz; decide)]
    decide
  · exact h.2.2.2.2.2.2 "INVALID" (by decide) (by decide) (by decide)

/-! ## Lemmas about association lists and the compilation pass -/

theorem lookupA_isSome_iff {β : Type} (k : VersionID) (l : List (VersionID × β)) :
    (lookupA k l).isSome = true ↔ k ∈ l.map Prod.fst := by
  induction l with
  | nil => simp [lookupA]
  | cons pr l ih =>
    by_cases h : pr.1 = k
    · simp [lookupA, h]
    · simp only [lookupA, if_neg h, List.map_cons, List.mem_cons, ih]
      constructor
      · exact Or.inr
      · rintro (he | hm)
        · exact absurd he.symm h
        · exact hm

theorem lookupA_eq_of_mem_nodup {β : Type} {defs : List (VersionID × β)}
    (hkeys : (defs.map Prod.fst).Nodup) {id : VersionID} {d : β}
    (hmem : (id, d) ∈ defs) : lookupA id defs = some d := by
  induction defs with
  | nil => cases hmem
  | cons pr l ih =>
    have hk : pr.1 ∉ l.map Prod.fst ∧ (l.map Prod.fst).Nodup := by
      have hkeys' := hkeys
      rw [List.map_cons, List.nodup_cons] at hkeys'
      exact hkeys'
    rcases List.mem_cons.1 hmem with h | h
    · subst h
      simp [lookupA]
    · have hne : pr.1 ≠ id := by
        intro he
        exact hk.1 (he ▸ List.mem_map.2 ⟨(id, d), h, he ▸ rfl⟩)
      simp only [lookupA, if_neg hne]
      exact ih hk.2 h

theorem lookupA_append {β : Type} (k : VersionID) (l₁ l₂ : List (VersionID × β)) :
    lookupA k (l₁ ++ l₂)
      = match lookupA k l₁ with
        | some v => some v
        | none => lookupA k l₂ := by
  induction l₁ with
  | nil => rfl
  | cons pr l ih =>
    by_cases h : pr.1 = k
    · simp [lookupA, h]
    · simp only [List.cons_append, lookupA, if_neg h]
      exact ih

theorem lookupA_mapReplace {β : Type} (m : List (VersionID × β)) (k : VersionID)
    (v : β) :
    lookupA k (m.map (fun p => if p.1 = k then (k, v) else p))
      = (lookupA k m).map (fun _ => v) := by
  induction m with
  | nil => rfl
  | cons pr l ih =>
    by_cases h : pr.1 = k
    · simp [lookupA, h]
    · simp only [List.map_cons, if_neg h, lookupA, ih]

theorem lookupA_mapReplace_ne {β : Type} (m : List (VersionID × β))
    {k k' : VersionID} (v : β) (h : k' ≠ k) :
    lookupA k' (m.map (fun p => if p.1 = k then (k, v) else p))
      = lookupA k' m := by
  induction m with
  | nil => rfl
  | cons pr l ih =>
    by_cases hk : pr.1 = k
    · simp only [List.map_cons, if_pos hk, lookupA, if_neg (Ne.symm h), ih]
      rw [if_neg]
      intro he
      exact h (he ▸ hk ▸ rfl)
    · simp only [List.map_cons, if_neg hk, lookupA, ih]

theorem assocSet_lookup_self {β : Type} (m : List (VersionID × β)) (k : VersionID)
    (v : β) : lookupA k (assocSet m k v) = some v := by
  unfold assocSet
  split
  · rename_i hsome
    rw [lookupA_mapReplace]
    rcases Option.isSome_iff_exists.1 hsome with ⟨x, hx⟩
    rw [hx]
    rfl
  · rename_i hnone
    rw [lookupA_append]
    have hn : lookupA k m = none := by
      cases hlk : lookupA k m with
      | none => rfl
      | some x => exact absurd (by rw [hlk]; rfl) hnone
    rw [hn]
    simp [lookupA]

theorem assocSet_lookup_ne {β : Type} (m : List (VersionID × β))
    {k k' : VersionID} (v : β) (h : k' ≠ k) :
    lookupA k' (assocSet m k v) = lookupA k' m := by
  unfold assocSet
  split
  · exact lookupA_mapReplace_ne m v h
  · rw [lookupA_append]
    cases hlk : lookupA k' m with
    | none => simp [lookupA, Ne.symm h]
    | some x => rfl

theorem assocSet_mem {β : Type} {m : List (VersionID × β)} {k : VersionID}
    {v : β} {pr : VersionID × β} (h : pr ∈ assocSet m k v) :
    pr = (k, v) ∨ pr ∈ m := by
  unfold assocSet at h
  split at h
  · rcases List.mem_map.1 h with ⟨q, hq, hqe⟩
    by_cases hk : q.1 = k
    · rw [if_pos hk] at hqe
      exact Or.inl hqe.symm
    · rw [if_neg hk] at hqe
      exact Or.inr (hqe ▸ hq)
  · rcases List.mem_append.1 h with h | h
    · exact Or.inr h
    · exact Or.inl (by simpa using h)

theorem mem_of_lookupA_eq_some {β : Type} {l : List (VersionID × β)}
    {k : VersionID} {v : β} (h : lookupA k l = some v) : (k, v) ∈ l := by
  induction l with
  | nil => cases h
  | cons pr l ih =>
    by_cases hk : pr.1 = k
    · rw [lookupA, if_pos hk] at h
      cases h
      exact hk ▸ List.mem_cons_self _ _
    · rw [lookupA, if_neg hk] at h
      exact List.mem_cons_of_mem _ (ih h)

/-- Plans already in the map keep their entry through the rest of the
compilation pass (ids are processed once each). -/
theorem compileGo_lookup_stable (defs : List (VersionID × Definition)) :
    ∀ (L : List VersionID) (m : List (VersionID × MigrationPlan))
      (k : VersionID), k ∉ L →
      lookupA k (compileGo defs L m).2 = lookupA k m := by
  intro L
  induction L with
  | nil => intro m k _; rfl
  | cons id L ih =>
    intro m k hk
    have hk1 : k ≠ id := fun he => hk (he ▸ List.mem_cons_self id L)
    have hk2 : k ∉ L := fun he => hk (List.mem_cons_of_mem id he)
    show lookupA k (match lookupA id defs with
      | some d =>
        let p := newPlan d m
        let r := compileGo defs L (assocSet m id p)
        (p :: r.1, r.2)
      | none => compileGo defs L m).2 = _
    cases lookupA id defs with
    | some d =>
      dsimp only
      rw [ih (assocSet m id (newPlan d m)) k hk2,
        assocSet_lookup_ne _ _ hk1]
    | none => exact ih m k hk2

/-- Every plan the pass emits is keyed by one of the ids it was asked to
process (given key-consistent definitions). -/
theorem compileGo_out_ids (defs : List (VersionID × Definition))
    (hids : ∀ pr ∈ defs, pr.2.id = pr.1) :
    ∀ (L : List VersionID) (m : List (VersionID × MigrationPlan))
      (p : MigrationPlan), p ∈ (compileGo defs L m).1 → p.id ∈ L := by
  intro L
  induction L with
  | nil => intro m p h; cases h
  | cons id L ih =>
    intro m p hp
    revert hp
    show p ∈ (match lookupA id defs with
      | some d =>
        let q := newPlan d m
        let r := compileGo defs L (assocSet m id q)
        (q :: r.1, r.2)
      | none => compileGo defs L m).1 → _
    cases hd : lookupA id defs with
    | some d =>
      intro hp
      rcases List.mem_cons.1 hp with hp | hp
      · have hdid : d.id = id := hids (id, d) (mem_of_lookupA_eq_some hd)
        subst hp
        show (newPlan d m).id ∈ id :: L
        have hq : (newPlan d m).id = d.id := rfl
        rw [hq, hdid]
        exact List.mem_cons_self id L
      · exact List.mem_cons_of_mem id (ih _ p hp)
    | none =>
      intro hp
      exact List.mem_cons_of_mem id (ih m p hp)

/-- Unfolding equation for one step of the compilation pass. -/
theorem compileGo_cons (defs : List (VersionID × Definition)) (id : VersionID)
    (L : List VersionID) (m : List (VersionID × MigrationPlan)) :
    compileGo defs (id :: L) m
      = match lookupA id defs with
        | some d =>
          let p := newPlan d m
          let r := compileGo defs L (assocSet m id p)
          (p :: r.1, r.2)
        | none => compileGo defs L m := rfl

/-- A resolution step whose error output carries no replay error leaves
no replay tag, provided every plan in the map is itself tag-free. -/
theorem resolveReplay_resolved (pid : VersionID)
    (m : List (VersionID × MigrationPlan)) (a : MAction)
    (hm : ∀ pr ∈ m, pr.2.up.replayUp = none)
    (hnoerr : ∀ e ∈ (resolveReplay pid m a).2, isReplayErr e.Description = false) :
    (resolveReplay pid m a).1.replayUp = none := by
  unfold resolveReplay at *
  cases ha : a.replayUp with
  | none => simp only [ha]
  | some t =>
    simp only [ha] at hnoerr ⊢
    by_cases hge : t ≥ pid
    · rw [if_pos hge] at hnoerr
      have := hnoerr ⟨pid, .replayEarlier⟩ (by simp)
      simp [isReplayErr] at this
    · rw [if_neg hge] at hnoerr ⊢
      cases hl : lookupA t m with
      | none =>
        rw [hl] at hnoerr
        have := hnoerr ⟨pid, .replayUnknown t⟩ (by simp)
        simp [isReplayErr] at this
      | some prev =>
        dsimp only
        exact hm (t, prev) (mem_of_lookupA_eq_some hl)

/-- If no plan the pass emits carries a replay error, every plan the
pass emits is replay-free (given the map's plans already are). -/
theorem compileGo_replay_free (defs : List (VersionID × Definition)) :
    ∀ (L : List VersionID) (m : List (VersionID × MigrationPlan)),
      (∀ pr ∈ m, pr.2.up.replayUp = none ∧ pr.2.down.replayUp = none) →
      (∀ p ∈ (compileGo defs L m).1, ∀ e ∈ p.errs,
        isReplayErr e.Description = false) →
      ∀ p ∈ (compileGo defs L m).1,
        p.up.replayUp = none ∧ p.down.replayUp = none := by
  intro L
  induction L with
  | nil => intro m _ _ p hp; cases hp
  | cons id L ih =>
    intro m hm
    rw [compileGo_cons]
    cases hd : lookupA id defs with
    | none =>
      dsimp only
      exact ih m hm
    | some d =>
      dsimp only
      intro hglob p hp
      have hp0 : ∀ e ∈ (newPlan d m).errs, isReplayErr e.Description = false :=
        hglob _ (List.mem_cons_self _ _)
      have hres : (newPlan d m).up.replayUp = none
          ∧ (newPlan d m).down.replayUp = none := by
        constructor
        · refine resolveReplay_resolved d.id m (buildAction d.upAction)
            (fun pr hpr => (hm pr hpr).1) ?_
          intro e he
          exact hp0 e (by
            show e ∈ d.errs ++ _ ++ _
            exact List.mem_append.2 (Or.inl (List.mem_append.2 (Or.inr he))))
        · refine resolveReplay_resolved d.id m (buildAction d.downAction)
            (fun pr hpr => (hm pr hpr).1) ?_
          intro e he
          exact hp0 e (by
            show e ∈ d.errs ++ _ ++ _
            exact List.mem_append.2 (Or.inr he))
      rcases List.mem_cons.1 hp with hp | hp
      · exact hp ▸ hres
      · refine ih (assocSet m id (newPlan d m)) ?_ (fun q hq e he =>
          hglob q (List.mem_cons_of_mem _ hq) e he) p hp
        intro pr hpr
        rcases assocSet_mem hpr with hpr | hpr
        · rw [hpr]
          exact hres
        · exact hm pr hpr

/-- A replay tag naming a strictly earlier version that is either still
to be processed or already in the map gets replaced by that version's
resolved up action; both ids end up in the final map. -/
theorem compileGo_resolves (defs : List (VersionID × Definition)) (sel : Bool)
    (hids : ∀ pr ∈ defs, pr.2.id = pr.1) :
    ∀ (L : List VersionID) (m : List (VersionID × MigrationPlan)),
      L.Pairwise (· < ·) →
      (∀ k ∈ L, (lookupA k defs).isSome = true) →
      ∀ id d t, id ∈ L → lookupA id defs = some d →
        (buildAction (if sel then d.upAction else d.downAction)).replayUp
          = some t →
        t < id → (t ∈ L ∨ (lookupA t m).isSome = true) →
        ∃ p pt, lookupA id (compileGo defs L m).2 = some p
          ∧ lookupA t (compileGo defs L m).2 = some pt
          ∧ (if sel then p.up else p.down) = pt.up := by
  intro L
  induction L with
  | nil => intro m _ _ id d t hid; cases hid
  | cons id0 L ih =>
    intro m hsort hkeysL id d t hid hd htag hlt htm
    have hrel : ∀ x ∈ L, id0 < x := (List.pairwise_cons.1 hsort).1
    have hsort' := (List.pairwise_cons.1 hsort).2
    have hnotin : id0 ∉ L := fun hmem => lt_irrefl id0 (hrel id0 hmem)
    rw [compileGo_cons]
    cases hdef : lookupA id0 defs with
    | none =>
      have := hkeysL id0 (List.mem_cons_self _ _)
      rw [hdef] at this
      cases this
    | some d0 =>
      dsimp only
      have hd0id : d0.id = id0 := hids (id0, d0) (mem_of_lookupA_eq_some hdef)
      rcases List.mem_cons.1 hid with rfl | hidL
      · -- the id being defined is processed right now
        rw [hdef] at hd
        cases hd
        have htm' : (lookupA t m).isSome = true := by
          rcases htm with htL | hsome
          · rcases List.mem_cons.1 htL with rfl | htL
            · exact absurd hlt (lt_irrefl t)
            · exact absurd hlt (not_lt_of_gt (hrel t htL))
          · exact hsome
        rcases Option.isSome_iff_exists.1 htm' with ⟨pt0, hpt0⟩
        have htne : t ≠ id := fun he => absurd hlt (he ▸ lt_irrefl id)
        have htnotin : t ∉ L := fun hmem =>
          lt_irrefl t (lt_trans hlt (hrel t hmem))
        refine ⟨newPlan d m, pt0, ?_, ?_, ?_⟩
        · rw [compileGo_lookup_stable defs L _ id hnotin,
            assocSet_lookup_self]
        · rw [compileGo_lookup_stable defs L _ t htnotin,
            assocSet_lookup_ne _ _ htne, hpt0]
        · have hres : (resolveReplay d.id m
              (buildAction (if sel then d.upAction else d.downAction))).1
                = pt0.up := by
            unfold resolveReplay
            rw [htag]
            dsimp only
            rw [if_neg (not_le_of_lt (hd0id ▸ hlt)), hpt0]
          cases sel with
          | true => simpa using hres
          | false => simpa using hres
      · -- the id is defined later in the pass
        have htm' : t ∈ L ∨ (lookupA t (assocSet m id0 (newPlan d0 m))).isSome
            = true := by
          rcases htm with htL | hsome
          · rcases List.mem_cons.1 htL with rfl | htL
            · right
              rw [assocSet_lookup_self]
              rfl
            · exact Or.inl htL
          · right
            by_cases he : t = id0
            · rw [he, assocSet_lookup_self]; rfl
            · rw [assocSet_lookup_ne _ _ he]; exact hsome
        exact ih (assocSet m id0 (newPlan d0 m)) hsort'
          (fun k hk => hkeysL k (List.mem_cons_of_mem _ hk)) id d t hidL hd
          htag hlt htm'

/-- After the pass, the final map agrees with searching the emitted plan
list by id. -/
theorem compileGo_find (defs : List (VersionID × Definition))
    (hids : ∀ pr ∈ defs, pr.2.id = pr.1) :
    ∀ (L : List VersionID) (m : List (VersionID × MigrationPlan)),
      L.Nodup → (∀ k ∈ L, lookupA k m = none) →
      ∀ id ∈ L, lookupA id (compileGo defs L m).2
        = (compileGo defs L m).1.find? (fun p => p.id == id) := by
  intro L
  induction L with
  | nil => intro m _ _ id hid; cases hid
  | cons id0 L ih =>
    intro m hnodup hm id hid
    have hnotin : id0 ∉ L := (List.nodup_cons.1 hnodup).1
    have hnodup' := (List.nodup_cons.1 hnodup).2
    rw [compileGo_cons]
    cases hdef : lookupA id0 defs with
    | none =>
      dsimp only
      rcases List.mem_cons.1 hid with rfl | hidL
      · rw [compileGo_lookup_stable defs L m id hnotin,
          hm id (List.mem_cons_self _ _)]
        have hnone : (compileGo defs L m).1.find? (fun p => p.id == id)
            = none := by
          rw [List.find?_eq_none]
          intro p hp
          have hpid := compileGo_out_ids defs hids L m p hp
          simp only [beq_iff_eq]
          intro he
          exact hnotin (he ▸ hpid)
        rw [hnone]
      · exact ih m hnodup' (fun k hk => hm k (List.mem_cons_of_mem _ hk)) id hidL
    | some d0 =>
      dsimp only
      have hd0id : (newPlan d0 m).id = id0 :=
        hids (id0, d0) (mem_of_lookupA_eq_some hdef)
      rcases List.mem_cons.1 hid with rfl | hidL
      · rw [compileGo_lookup_stable defs L _ id hnotin, assocSet_lookup_self]
        rw [List.find?_cons_of_pos _ (by simp [hd0id])]
      · have hne : id ≠ id0 := fun he => hnotin (by rw [← he]; exact hidL)
        rw [List.find?_cons_of_neg _ (by simp [hd0id, Ne.symm hne])]
        exact ih (assocSet m id0 (newPlan d0 m)) hnodup'
          (fun k hk => by
            rw [assocSet_lookup_ne _ _ (fun he => hnotin (by
              rw [← he]; exact hk))]
            exact hm k (List.mem_cons_of_mem _ hk)) id hidL

/-- C1: for a schema whose definitions compile without replay errors,
every compiled plan's up and down actions are free of replay tags, and a
definition whose up (or down) action replays a strictly earlier, defined
version compiles to a value copy of that version's resolved up action,
so chains of replays collapse to the root's content. -/
theorem C1_replay_resolution (defs : List (VersionID × Definition))
    (hids : ∀ pr ∈ defs, pr.2.id = pr.1)
    (hkeys : (defs.map Prod.fst).Nodup)
    (hnoreplay : ∀ p ∈ compileDefs defs, ∀ e ∈ p.errs,
      isReplayErr e.Description = false) :
    (∀ p ∈ compileDefs defs, p.up.replayUp = none ∧ p.down.replayUp = none)
    ∧ (∀ id d t, (id, d) ∈ defs →
        (buildAction d.upAction).replayUp = some t → t < id →
        t ∈ defs.map Prod.fst →
        ∃ p pt, (compileDefs defs).find? (fun q => q.id == id) = some p
          ∧ (compileDefs defs).find? (fun q => q.id == t) = some pt
          ∧ p.up = pt.up)
    ∧ (∀ id d t, (id, d) ∈ defs →
        (buildAction d.downAction).replayUp = some t → t < id →
        t ∈ defs.map Prod.fst →
        ∃ p pt, (compileDefs defs).find? (fun q => q.id == id) = some p
          ∧ (compileDefs defs).find? (fun q => q.id == t) = some pt
          ∧ p.down = pt.up) := by
  have htot : ∀ a b : VersionID, decide (a ≤ b) = true ∨ decide (b ≤ a) = true := by
    intro a b
    rcases le_total a b with h | h
    · exact Or.inl (by simpa using h)
    · exact Or.inr (by simpa using h)
  have htrans : ∀ a b c : VersionID, decide (a ≤ b) = true →
      decide (b ≤ c) = true → decide (a ≤ c) = true := by
    intro a b c h1 h2
    simp only [decide_eq_true_eq] at *
    exact le_trans h1 h2
  have hperm := isortBy_perm (fun a b : VersionID => decide (a ≤ b))
    (defs.map Prod.fst)
  set ids := isortBy (fun a b : VersionID => decide (a ≤ b)) (defs.map Prod.fst)
    with hidsdef
  have hnodupids : ids.Nodup := hperm.nodup_iff.2 hkeys
  have hpw : ids.Pairwise (fun a b => a < b) := by
    have h1 := isortBy_pairwise (fun a b : VersionID => decide (a ≤ b)) htot
      htrans (defs.map Prod.fst)
    refine (List.Pairwise.and h1 hnodupids).imp ?_
    intro a b hab
    rcases hab with ⟨hle, hne⟩
    exact lt_of_le_of_ne (by simpa using hle) hne
  have hkeysL : ∀ k ∈ ids, (lookupA k defs).isSome = true := by
    intro k hk
    exact (lookupA_isSome_iff k defs).2 (hperm.mem_iff.1 hk)
  have hmem_ids : ∀ k, k ∈ defs.map Prod.fst → k ∈ ids := fun k hk =>
    hperm.mem_iff.2 hk
  have hfind : ∀ id ∈ ids, lookupA id (compileGo defs ids []).2
      = (compileDefs defs).find? (fun p => p.id == id) := by
    intro id hid
    exact compileGo_find defs hids ids [] hnodupids (fun _ _ => rfl) id hid
  refine ⟨?_, ?_, ?_⟩
  · exact compileGo_replay_free defs ids [] (fun pr hpr => by cases hpr) hnoreplay
  · intro id d t hmem htag hlt ht
    obtain ⟨p, pt, hp, hpt, he⟩ := compileGo_resolves defs true hids ids []
      hpw hkeysL id d t (hmem_ids id (List.mem_map.2 ⟨(id, d), hmem, rfl⟩))
      (lookupA_eq_of_mem_nodup hkeys hmem) (by simpa using htag) hlt
      (Or.inl (hmem_ids t ht))
    refine ⟨p, pt, ?_, ?_, by simpa using he⟩
    · rw [← hfind id (hmem_ids id (List.mem_map.2 ⟨(id, d), hmem, rfl⟩))]
      exact hp
    · rw [← hfind t (hmem_ids t ht)]
      exact hpt
  · intro id d t hmem htag hlt ht
    obtain ⟨p, pt, hp, hpt, he⟩ := compileGo_resolves defs false hids ids []
      hpw hkeysL id d t (hmem_ids id (List.mem_map.2 ⟨(id, d), hmem, rfl⟩))
      (lookupA_eq_of_mem_nodup hkeys hmem) (by simpa using htag) hlt
      (Or.inl (hmem_ids t ht))
    refine ⟨p, pt, ?_, ?_, by simpa using he⟩
    · rw [← hfind id (hmem_ids id (List.mem_map.2 ⟨(id, d), hmem, rfl⟩))]
      exact hp
    · rw [← hfind t (hmem_ids t ht)]
      exact hpt

/-- Witness for C1 on the source's own replay chain (5 replays 3, which
replays 1): version 5's compiled up action is version 1's original up
content, verbatim, with no replay tag left anywhere. -/
theorem C1_replay_resolution_witness :
    ∃ p5 p3 p1,
      (compileDefs chainDefs).find? (fun q => q.id == 5) = some p5
      ∧ (compileDefs chainDefs).find? (fun q => q.id == 3) = some p3
      ∧ (compileDefs chainDefs).find? (fun q => q.id == 1) = some p1
      ∧ p5.up = p3.up ∧ p3.up = p1.up
      ∧ p5.up.sql = "create view v1;" ∧ p5.up.replayUp = none := by
  have h := C1_replay_resolution chainDefs (by decide) (by decide) (by decide)
  obtain ⟨hfree, hup, _⟩ := h
  obtain ⟨p5, p3, h5, h3, h53⟩ := hup 5 chainDef5 3
    (by
      show (5, chainDef5) ∈ chainDefs
      exact List.mem_cons_of_mem _ (List.mem_cons_of_mem _
        (List.mem_cons_self _ _)))
    (by decide) (by decide) (by decide)
  obtain ⟨p3', p1, h3', h1, h31⟩ := hup 3 chainDef3 1
    (by
      show (3, chainDef3) ∈ chainDefs
      exact List.mem_cons_of_mem _ (List.mem_cons_self _ _))
    (by decide) (by decide) (by decide)
  have hpeq : p3 = p3' := by
    rw [h3] at h3'
    cases h3'
    rfl
  refine ⟨p5, p3, p1, h5, h3, h1, h53, hpeq ▸ h31, ?_, ?_⟩
  · rw [h53, hpeq, h31]
    rw [show (compileDefs chainDefs).find? (fun q => q.id == 1)
      = some ⟨1, ⟨"create view v1;", none, none, none⟩,
          ⟨"drop view v1;", none, none, none⟩, []⟩ from by decide] at h1
    cases h1
    rfl
  · have := hfree p5 (by
      have := List.mem_of_find?_eq_some h5
      exact this)
    exact this.1

/-- Builder calls through a detached handle never touch the schema. -/
theorem applyCalls_detached (calls : List DefCall) :
    ∀ (s : Schema) (d : Definition),
      ∃ d', applyCalls s (.detached d) calls = (s, .detached d') := by
  induction calls with
  | nil => intro s d; exact ⟨d, rfl⟩
  | cons c cs ih =>
    intro s d
    show ∃ d', applyCalls (applyCall s (.detached d) c).1
      (applyCall s (.detached d) c).2 cs = (s, .detached d')
    exact ih s (defCallStep d c)

/-- C10: a second `Define(id)` appends exactly the "defined more than
once" error, leaves the registration map (hence the previously
registered definition) unchanged, and returns a fresh detached
definition whose builder calls never affect the compiled plans or
`Err()` beyond that duplicate error. -/
theorem C10_define_duplicate (s : Schema) (id : VersionID)
    (hdup : (lookupA id s.definitions).isSome = true) :
    (s.Define id).1.definitions = s.definitions
    ∧ (s.Define id).1.errs = s.errs ++ [⟨id, .definedMoreThanOnce⟩]
    ∧ (s.Define id).2 = .detached (newDefinition id)
    ∧ (∀ calls, (applyCalls (s.Define id).1 (s.Define id).2 calls).1
        = (s.Define id).1)
    ∧ (s.Define id).1.compiledPlans = compileDefs s.definitions
    ∧ (s.Define id).1.errList
        = (s.errs ++ [⟨id, .definedMoreThanOnce⟩])
          ++ ((compileDefs s.definitions).map MigrationPlan.errs).flatten
    ∧ (∀ calls, (applyCalls (s.Define id).1 (s.Define id).2 calls).1.Err
        = (s.Define id).1.Err) := by
  have hdef : s.Define id
      = ({ s with errs := s.errs ++ [⟨id, .definedMoreThanOnce⟩], plans := none },
        .detached (newDefinition id)) := by
    unfold Schema.Define
    rw [if_pos hdup]
  have hcalls : ∀ calls, (applyCalls (s.Define id).1 (s.Define id).2 calls).1
      = (s.Define id).1 := by
    intro calls
    rw [hdef]
    obtain ⟨d', hd'⟩ := applyCalls_detached calls
      { s with errs := s.errs ++ [⟨id, .definedMoreThanOnce⟩], plans := none }
      (newDefinition id)
    rw [hd']
  refine ⟨by rw [hdef], by rw [hdef], by rw [hdef], hcalls, ?_, ?_, ?_⟩
  · rw [hdef]
    rfl
  · rw [hdef]
    rfl
  · intro calls
    rw [hcalls calls]

/-- Witness for C10: define id 1 twice, then call `Up`/`Down` on the
returned object; the schema, its plans and `Err()` are unaffected. -/
theorem C10_define_duplicate_witness :
    (lookupA 1 oneSchema.definitions).isSome = true
    ∧ (oneSchema.Define 1).1.definitions = oneSchema.definitions
    ∧ (oneSchema.Define 1).1.errs
        = oneSchema.errs ++ [⟨1, .definedMoreThanOnce⟩]
    ∧ (applyCalls (oneSchema.Define 1).1 (oneSchema.Define 1).2
        [.up "create table t1;", .down "drop table t1;"]).1
        = (oneSchema.Define 1).1
    ∧ (applyCalls (oneSchema.Define 1).1 (oneSchema.Define 1).2
        [.up "create table t1;", .down "drop table t1;"]).1.Err
        = (oneSchema.Define 1).1.Err := by
  have h := C10_define_duplicate oneSchema 1 (by rfl)
  exact ⟨by rfl, h.1, h.2.1, h.2.2.2.1 _, h.2.2.2.2.2.2 _⟩

/-! ## Lemmas about the version summary -/

theorem any_map_gen {α β : Type} (f : α → β) (l : List α) (p : β → Bool) :
    (l.map f).any p = l.any (fun a => p (f a)) := by
  induction l with
  | nil => rfl
  | cons a l ih => simp [List.any_cons, ih]

theorem any_perm {α : Type} {l₁ l₂ : List α} (h : l₁.Perm l₂) (p : α → Bool) :
    l₁.any p = l₂.any p := by
  rw [Bool.eq_iff_iff]
  simp only [List.any_eq_true]
  constructor
  · rintro ⟨x, hx, hp⟩
    exact ⟨x, h.mem_iff.1 hx, hp⟩
  · rintro ⟨x, hx, hp⟩
    exact ⟨x, h.mem_iff.2 hx, hp⟩

theorem lookupA_pairs {α : Type} (key : α → VersionID) (k : VersionID)
    (l : List α) :
    lookupA k (l.map (fun v => (key v, v))) = l.find? (fun v => key v == k) := by
  induction l with
  | nil => rfl
  | cons v l ih =>
    by_cases h : key v = k
    · simp [lookupA, h, List.find?_cons_of_pos]
    · rw [List.map_cons, lookupA, if_neg h, List.find?_cons_of_neg _ (by simp [h])]
      exact ih

theorem find?_key_eq_of_mem {α : Type} (key : α → Int) {l : List α}
    (hnodup : (l.map key).Nodup) {v : α} {k : Int} (hv : v ∈ l)
    (hk : key v = k) : l.find? (fun x => key x == k) = some v := by
  induction l with
  | nil => cases hv
  | cons w l ih =>
    have hn : key w ∉ l.map key ∧ (l.map key).Nodup := by
      have h2 := hnodup
      rw [List.map_cons, List.nodup_cons] at h2
      exact h2
    rcases List.mem_cons.1 hv with rfl | hv
    · rw [List.find?_cons_of_pos _ (by simp [hk])]
    · have hwk : key w ≠ k := by
        intro he
        exact hn.1 (he ▸ hk ▸ List.mem_map.2 ⟨v, hv, hk ▸ rfl⟩)
      rw [List.find?_cons_of_neg _ (by simp [hwk])]
      exact ih hn.2 hv

theorem find?_key_perm {α : Type} (key : α → Int) {l₁ l₂ : List α}
    (h : l₁.Perm l₂) (hnodup : (l₁.map key).Nodup) (k : Int) :
    l₁.find? (fun x => key x == k) = l₂.find? (fun x => key x == k) := by
  cases hf : l₁.find? (fun x => key x == k) with
  | some v =>
    have hmem := List.mem_of_find?_eq_some hf
    have hkv : key v = k := by simpa using List.find?_some hf
    have hnodup2 : (l₂.map key).Nodup := (h.map key).nodup_iff.1 hnodup
    rw [find?_key_eq_of_mem key hnodup2 (h.mem_iff.1 hmem) hkv]
  | none =>
    cases hf2 : l₂.find? (fun x => key x == k) with
    | none => rfl
    | some v =>
      have hmem := h.mem_iff.2 (List.mem_of_find?_eq_some hf2)
      have hkv : key v = k := by simpa using List.find?_some hf2
      have := List.find?_eq_none.1 hf v hmem
      simp [hkv] at this

/-- One step of the summary loop, applied branch. -/
theorem summaryStep_applied (aIds : List VersionID) (acc : VersionSummary)
    (p : MigrationPlan) (h : aIds.contains p.id = true) :
    summaryStep aIds acc p
      = { acc with
            versions := acc.versions.map (fun v =>
              if v.ID == p.id then setPlanText p (vmapGetD acc.vmap p.id) else v)
            vmap := assocSet acc.vmap p.id (setPlanText p (vmapGetD acc.vmap p.id))
            applied := acc.applied ++ [p] } := by
  unfold summaryStep
  rw [if_pos h]

/-- One step of the summary loop, unapplied branch. -/
theorem summaryStep_unapplied (aIds : List VersionID) (acc : VersionSummary)
    (p : MigrationPlan) (h : aIds.contains p.id = false) :
    summaryStep aIds acc p
      = { acc with
            versions := acc.versions
              ++ [setPlanText p ⟨p.id, none, false, false, "", ""⟩]
            vmap := assocSet acc.vmap p.id
              (setPlanText p ⟨p.id, none, false, false, "", ""⟩)
            unapplied := acc.unapplied ++ [p] } := by
  unfold summaryStep
  rw [if_neg (by rw [h]; simp)]

/-- Master characterization of the summary loop: starting from a
well-formed accumulator (vmap in sync with versions, no duplicate ids,
applied ids present, unapplied plan ids fresh), the loop partitions the
plans, appends one placeholder per unapplied plan, and only rewrites the
rendered text of existing entries. -/
theorem foldSummary_spec (aIds : List VersionID) :
    ∀ (ps : List MigrationPlan) (acc : VersionSummary),
    acc.vmap = acc.versions.map (fun v => (v.ID, v)) →
    (acc.versions.map Version.ID).Nodup →
    (ps.map MigrationPlan.id).Nodup →
    (∀ k ∈ aIds, k ∈ acc.versions.map Version.ID) →
    (∀ p ∈ ps, aIds.contains p.id = false → p.id ∉ acc.versions.map Version.ID) →
    (List.foldl (summaryStep aIds) acc ps).applied
        = acc.applied ++ ps.filter (fun p => aIds.contains p.id)
    ∧ (List.foldl (summaryStep aIds) acc ps).unapplied
        = acc.unapplied ++ ps.filter (fun p => !(aIds.contains p.id))
    ∧ (List.foldl (summaryStep aIds) acc ps).versions.map projV
        = acc.versions.map projV
          ++ (ps.filter (fun p => !(aIds.contains p.id))).map
              (fun p => (p.id, (none : Option Nat), false, false))
    ∧ (List.foldl (summaryStep aIds) acc ps).vmap
        = (List.foldl (summaryStep aIds) acc ps).versions.map (fun v => (v.ID, v))
    ∧ ((List.foldl (summaryStep aIds) acc ps).versions.map Version.ID).Nodup
    ∧ (List.foldl (summaryStep aIds) acc ps).id = acc.id := by
  intro ps
  induction ps with
  | nil =>
    intro acc hsync hnodup _ _ _
    exact ⟨by simp, by simp, by simp, hsync, hnodup, rfl⟩
  | cons p ps ih =>
    intro acc hsync hnodup hps hkeys hfresh
    have hpsn : p.id ∉ ps.map MigrationPlan.id ∧ (ps.map MigrationPlan.id).Nodup := by
      have h2 := hps
      rw [List.map_cons, List.nodup_cons] at h2
      exact h2
    rw [List.foldl_cons]
    cases hc : aIds.contains p.id with
    | true =>
      -- the plan is applied: its version entry exists and keeps its data
      have hpm : p.id ∈ acc.versions.map Version.ID :=
        hkeys p.id (List.elem_iff.1 hc)
      rcases List.mem_map.1 hpm with ⟨v0, hv0, hv0id⟩
      have hfind : acc.versions.find? (fun v => v.ID == p.id) = some v0 :=
        find?_key_eq_of_mem Version.ID hnodup hv0 hv0id
      have hget : vmapGetD acc.vmap p.id = v0 := by
        unfold vmapGetD
        rw [hsync, lookupA_pairs Version.ID, hfind]
        rfl
      set ver := setPlanText p (vmapGetD acc.vmap p.id) with hver
      have hverid : ver.ID = p.id := by rw [hver, hget]; exact hv0id
      have hverproj : projV ver = projV v0 := by rw [hver, hget]; rfl
      rw [summaryStep_applied aIds acc p hc]
      have hids : (acc.versions.map (fun v =>
          if v.ID == p.id then ver else v)).map Version.ID
            = acc.versions.map Version.ID := by
        rw [List.map_map]
        refine List.map_eq_map_iff.mpr ?_
        intro v hv
        show (if v.ID == p.id then ver else v).ID = v.ID
        by_cases hvid : v.ID = p.id
        · rw [if_pos (by simp [hvid]), hverid, hvid]
        · rw [if_neg (by simp [hvid])]
      have hproj : (acc.versions.map (fun v =>
          if v.ID == p.id then ver else v)).map projV
            = acc.versions.map projV := by
        rw [List.map_map]
        refine List.map_eq_map_iff.mpr ?_
        intro v hv
        show projV (if v.ID == p.id then ver else v) = projV v
        by_cases hvid : v.ID = p.id
        · have hveq : v = v0 := by
            have hf2 := find?_key_eq_of_mem Version.ID hnodup hv hvid
            rw [hfind] at hf2
            cases hf2
            rfl
          rw [if_pos (by simp [hvid]), hverproj, hveq]
        · rw [if_neg (by simp [hvid])]
      have hsync' : assocSet acc.vmap p.id ver
          = (acc.versions.map (fun v => if v.ID == p.id then ver else v)).map
              (fun v => (v.ID, v)) := by
        rw [hsync]
        unfold assocSet
        rw [if_pos (by rw [lookupA_pairs Version.ID, hfind]; rfl)]
        rw [List.map_map, List.map_map]
        refine List.map_eq_map_iff.mpr ?_
        intro v hv
        show (if (v.ID, v).1 = p.id then (p.id, ver) else (v.ID, v))
          = ((if v.ID == p.id then ver else v).ID, if v.ID == p.id then ver else v)
        by_cases hvid : v.ID = p.id
        · rw [if_pos hvid, if_pos (by simp [hvid]), hverid]
        · rw [if_neg hvid, if_neg (by simp [hvid])]
      obtain ⟨c1, c2, c3, c4, c5, c6⟩ := ih
        { acc with
            versions := acc.versions.map (fun v =>
              if v.ID == p.id then ver else v)
            vmap := assocSet acc.vmap p.id ver
            applied := acc.applied ++ [p] }
        (by dsimp only; rw [hsync'])
        (by dsimp only; rw [hids]; exact hnodup) hpsn.2
        (by dsimp only; intro k hk; rw [hids]; exact hkeys k hk)
        (by
          dsimp only
          intro q hq hqc
          rw [hids]
          exact hfresh q (List.mem_cons_of_mem _ hq) hqc)
      refine ⟨?_, ?_, ?_, c4, c5, c6⟩
      · rw [c1]
        dsimp only
        rw [List.filter_cons, if_pos hc]
        simp only [List.append_assoc, List.singleton_append]
      · rw [c2]
        dsimp only
        rw [List.filter_cons, if_neg (by rw [hc]; simp)]
      · rw [c3]
        dsimp only
        rw [hproj, List.filter_cons, if_neg (by rw [hc]; simp)]
    | false =>
      have hfreshp : p.id ∉ acc.versions.map Version.ID :=
        hfresh p (List.mem_cons_self _ _) hc
      set ver := setPlanText p ⟨p.id, none, false, false, "", ""⟩ with hver
      have hverid : ver.ID = p.id := rfl
      rw [summaryStep_unapplied aIds acc p hc]
      have hsync' : assocSet acc.vmap p.id ver
          = (acc.versions ++ [ver]).map (fun v => (v.ID, v)) := by
        rw [hsync]
        unfold assocSet
        rw [if_neg (by
          rw [lookupA_pairs Version.ID]
          rw [List.find?_eq_none.2 ?hnone]
          · simp
          case hnone =>
            intro v hv
            simp only [beq_iff_eq]
            intro he
            exact hfreshp (he ▸ List.mem_map.2 ⟨v, hv, rfl⟩))]
        simp [hverid]
      have hids : ((acc.versions ++ [ver]).map Version.ID)
          = acc.versions.map Version.ID ++ [p.id] := by simp [hverid]
      obtain ⟨c1, c2, c3, c4, c5, c6⟩ := ih
        { acc with
            versions := acc.versions ++ [ver]
            vmap := assocSet acc.vmap p.id ver
            unapplied := acc.unapplied ++ [p] }
        (by dsimp only; rw [hsync'])
        (by
          dsimp only
          rw [hids, List.nodup_append]
          refine ⟨hnodup, List.nodup_singleton _, ?_⟩
          intro x hx hx2
          simp only [List.mem_singleton] at hx2
          exact hfreshp (hx2 ▸ hx))
        hpsn.2
        (by
          dsimp only
          intro k hk
          rw [hids]
          exact List.mem_append.2 (Or.inl (hkeys k hk)))
        (by
          dsimp only
          intro q hq hqc
          rw [hids]
          intro hmem
          rcases List.mem_append.1 hmem with hmem | heq
          · exact hfresh q (List.mem_cons_of_mem _ hq) hqc hmem
          · simp only [List.mem_singleton] at heq
            exact hpsn.1 (heq ▸ List.mem_map.2 ⟨q, hq, rfl⟩))
      refine ⟨?_, ?_, ?_, c4, c5, c6⟩
      · rw [c1]
        dsimp only
        rw [List.filter_cons, if_neg (by rw [hc]; simp)]
      · rw [c2]
        dsimp only
        rw [List.filter_cons, if_pos (by rw [hc]; rfl)]
        simp only [List.append_assoc, List.singleton_append]
      · rw [c3]
        dsimp only
        rw [List.filter_cons, if_pos (by rw [hc]; rfl)]
        have hpv : projV ver = (p.id, (none : Option Nat), false, false) := rfl
        simp only [List.map_append, List.map_cons, List.map_nil, hpv,
          List.append_assoc, List.singleton_append]

theorem le_int_tot : ∀ a b : Int, decide (a ≤ b) = true ∨ decide (b ≤ a) = true := by
  intro a b
  rcases le_total a b with h | h
  · exact Or.inl (by simpa using h)
  · exact Or.inr (by simpa using h)

theorem le_int_trans : ∀ a b c : Int, decide (a ≤ b) = true →
    decide (b ≤ c) = true → decide (a ≤ c) = true := by
  intro a b c h1 h2
  simp only [decide_eq_true_eq] at *
  exact le_trans h1 h2

/-- The partition/placeholder/ordering facts of `summaryFold` on a table
without duplicate ids and a duplicate-free plan list. -/
theorem summaryFold_spec (w : Worker) (rows : List Row)
    (hrows : (rows.map Row.id).Nodup)
    (hplans : (w.plans.map MigrationPlan.id).Nodup) :
    (summaryFold w rows).applied
        = w.plans.filter (fun p => hasRowB rows p.id)
    ∧ (summaryFold w rows).unapplied
        = w.plans.filter (fun p => !hasRowB rows p.id)
    ∧ (summaryFold w rows).versions.map projV
        = (listRows rows).map (fun r => (r.id, some r.appliedAt, r.failed, r.locked))
          ++ (w.plans.filter (fun p => !hasRowB rows p.id)).map
              (fun p => (p.id, (none : Option Nat), false, false))
    ∧ (summaryFold w rows).vmap
        = (summaryFold w rows).versions.map (fun v => (v.ID, v))
    ∧ ((summaryFold w rows).versions.map Version.ID).Nodup := by
  have hperm0 : (listRows rows).Perm rows := by
    unfold listRows
    exact isortBy_perm _ rows
  have hv0ids : (listVersionRows rows).map Version.ID
      = (listRows rows).map Row.id := by
    unfold listVersionRows
    rw [List.map_map]
    rfl
  have hv0nodup : ((listVersionRows rows).map Version.ID).Nodup := by
    rw [hv0ids]
    exact (hperm0.map Row.id).nodup_iff.2 hrows
  have hcontains : ∀ k : VersionID,
      ((listVersionRows rows).map Version.ID).contains k = hasRowB rows k := by
    intro k
    rw [Bool.eq_iff_iff, List.elem_iff, hv0ids]
    unfold hasRowB
    rw [List.any_eq_true]
    constructor
    · intro hmem
      rcases List.mem_map.1 hmem with ⟨r, hr, hrid⟩
      exact ⟨r, hperm0.mem_iff.1 hr, by simp [hrid]⟩
    · rintro ⟨r, hr, hrid⟩
      simp only [beq_iff_eq] at hrid
      exact List.mem_map.2 ⟨r, hperm0.mem_iff.2 hr, hrid⟩
  obtain ⟨c1, c2, c3, c4, c5, c6⟩ :=
    foldSummary_spec ((listVersionRows rows).map Version.ID) w.plans
      (summaryInit rows) rfl hv0nodup hplans (fun k hk => hk)
      (by
        intro p hp hpc hmem
        have : ((listVersionRows rows).map Version.ID).contains p.id = true :=
          List.elem_iff.2 hmem
        rw [hpc] at this
        cases this)
  have hfilter1 : ∀ ps : List MigrationPlan,
      ps.filter (fun p => ((listVersionRows rows).map Version.ID).contains p.id)
        = ps.filter (fun p => hasRowB rows p.id) := by
    intro ps
    exact List.filter_congr (fun p _ => by rw [hcontains])
  have hfilter2 : ∀ ps : List MigrationPlan,
      ps.filter (fun p => !((listVersionRows rows).map Version.ID).contains p.id)
        = ps.filter (fun p => !hasRowB rows p.id) := by
    intro ps
    exact List.filter_congr (fun p _ => by rw [hcontains])
  have hprojinit : (summaryInit rows).versions.map projV
      = (listRows rows).map (fun r => (r.id, some r.appliedAt, r.failed, r.locked)) := by
    show (listVersionRows rows).map projV = _
    unfold listVersionRows
    rw [List.map_map]
    rfl
  refine ⟨?_, ?_, ?_, c4, c5⟩
  · show (summaryFold w rows).applied = _
    unfold summaryFold
    rw [c1, hfilter1]
    rfl
  · show (summaryFold w rows).unapplied = _
    unfold summaryFold
    rw [c2, hfilter2]
    rfl
  · show (summaryFold w rows).versions.map projV = _
    unfold summaryFold
    rw [c3, hfilter2, hprojinit]

/-- Unfolding equation for `getVersionSummaryAllowFailed`. -/
theorem getVSAF_eq (w : Worker) (rows : List Row) :
    getVersionSummaryAllowFailed w rows
      = { summaryFold w rows with
          applied := isortBy (fun a b => decide (b.id ≤ a.id))
            (summaryFold w rows).applied
          unapplied := isortBy (fun a b => decide (a.id ≤ b.id))
            (summaryFold w rows).unapplied
          versions := isortBy (fun a b => decide (a.ID ≤ b.ID))
            (summaryFold w rows).versions } := rfl

theorem summary_applied_perm (w : Worker) (rows : List Row)
    (hrows : (rows.map Row.id).Nodup)
    (hplans : (w.plans.map MigrationPlan.id).Nodup) :
    (getVersionSummaryAllowFailed w rows).applied.Perm
      (w.plans.filter (fun p => hasRowB rows p.id)) := by
  rw [getVSAF_eq]
  show (isortBy _ (summaryFold w rows).applied).Perm _
  rw [(summaryFold_spec w rows hrows hplans).1]
  exact isortBy_perm _ _

theorem summary_unapplied_perm (w : Worker) (rows : List Row)
    (hrows : (rows.map Row.id).Nodup)
    (hplans : (w.plans.map MigrationPlan.id).Nodup) :
    (getVersionSummaryAllowFailed w rows).unapplied.Perm
      (w.plans.filter (fun p => !hasRowB rows p.id)) := by
  rw [getVSAF_eq]
  show (isortBy _ (summaryFold w rows).unapplied).Perm _
  rw [(summaryFold_spec w rows hrows hplans).2.1]
  exact isortBy_perm _ _

theorem plans_filter_ids_nodup (w : Worker)
    (hplans : (w.plans.map MigrationPlan.id).Nodup) (q : MigrationPlan → Bool) :
    ((w.plans.filter q).map MigrationPlan.id).Nodup :=
  ((List.filter_sublist w.plans).map MigrationPlan.id).nodup hplans

theorem summary_applied_sorted (w : Worker) (rows : List Row)
    (hrows : (rows.map Row.id).Nodup)
    (hplans : (w.plans.map MigrationPlan.id).Nodup) :
    (getVersionSummaryAllowFailed w rows).applied.Pairwise
      (fun a b => b.id < a.id) := by
  have hperm := summary_applied_perm w rows hrows hplans
  have hnodup : ((getVersionSummaryAllowFailed w rows).applied.map
      MigrationPlan.id).Nodup :=
    (hperm.map MigrationPlan.id).nodup_iff.2
      (plans_filter_ids_nodup w hplans _)
  have hge : (getVersionSummaryAllowFailed w rows).applied.Pairwise
      (fun a b => decide (b.id ≤ a.id) = true) := by
    rw [getVSAF_eq]
    exact isortBy_pairwise (fun a b : MigrationPlan => decide (b.id ≤ a.id))
      (fun a b => le_int_tot b.id a.id)
      (fun a b c h1 h2 => le_int_trans c.id b.id a.id h2 h1) _
  exact (hge.and (List.pairwise_map.1 hnodup)).imp (by
    rintro a b ⟨h1, h2⟩
    exact lt_of_le_of_ne (by simpa using h1) (fun he => h2 he.symm))

theorem summary_unapplied_sorted (w : Worker) (rows : List Row)
    (hrows : (rows.map Row.id).Nodup)
    (hplans : (w.plans.map MigrationPlan.id).Nodup) :
    (getVersionSummaryAllowFailed w rows).unapplied.Pairwise
      (fun a b => a.id < b.id) := by
  have hperm := summary_unapplied_perm w rows hrows hplans
  have hnodup : ((getVersionSummaryAllowFailed w rows).unapplied.map
      MigrationPlan.id).Nodup :=
    (hperm.map MigrationPlan.id).nodup_iff.2
      (plans_filter_ids_nodup w hplans _)
  have hle : (getVersionSummaryAllowFailed w rows).unapplied.Pairwise
      (fun a b => decide (a.id ≤ b.id) = true) := by
    rw [getVSAF_eq]
    exact isortBy_pairwise (fun a b : MigrationPlan => decide (a.id ≤ b.id))
      (fun a b => le_int_tot a.id b.id)
      (fun a b c h1 h2 => le_int_trans a.id b.id c.id h1 h2) _
  exact (hle.and (List.pairwise_map.1 hnodup)).imp (by
    rintro a b ⟨h1, h2⟩
    exact lt_of_le_of_ne (by simpa using h1) h2)

theorem summary_versions_perm (w : Worker) (rows : List Row)
    (hrows : (rows.map Row.id).Nodup)
    (hplans : (w.plans.map MigrationPlan.id).Nodup) :
    ((getVersionSummaryAllowFailed w rows).versions.map projV).Perm
      (rows.map (fun r => (r.id, some r.appliedAt, r.failed, r.locked))
        ++ (w.plans.filter (fun p => !hasRowB rows p.id)).map
            (fun p => (p.id, (none : Option Nat), false, false))) := by
  have hsortperm : (getVersionSummaryAllowFailed w rows).versions.Perm
      (summaryFold w rows).versions := by
    rw [getVSAF_eq]
    exact isortBy_perm _ _
  refine (hsortperm.map projV).trans ?_
  rw [(summaryFold_spec w rows hrows hplans).2.2.1]
  refine List.Perm.append ?_ (List.Perm.refl _)
  have hperm0 : (listRows rows).Perm rows := by
    unfold listRows
    exact isortBy_perm _ rows
  exact hperm0.map _

theorem summary_versions_ids_nodup (w : Worker) (rows : List Row)
    (hrows : (rows.map Row.id).Nodup)
    (hplans : (w.plans.map MigrationPlan.id).Nodup) :
    ((getVersionSummaryAllowFailed w rows).versions.map Version.ID).Nodup := by
  have hsortperm : (getVersionSummaryAllowFailed w rows).versions.Perm
      (summaryFold w rows).versions := by
    rw [getVSAF_eq]
    exact isortBy_perm _ _
  exact (hsortperm.map Version.ID).nodup_iff.2
    (summaryFold_spec w rows hrows hplans).2.2.2.2

theorem summary_versions_sorted (w : Worker) (rows : List Row)
    (hrows : (rows.map Row.id).Nodup)
    (hplans : (w.plans.map MigrationPlan.id).Nodup) :
    (getVersionSummaryAllowFailed w rows).versions.Pairwise
      (fun a b => a.ID < b.ID) := by
  have hnodup := summary_versions_ids_nodup w rows hrows hplans
  have hle : (getVersionSummaryAllowFailed w rows).versions.Pairwise
      (fun a b => decide (a.ID ≤ b.ID) = true) := by
    rw [getVSAF_eq]
    exact isortBy_pairwise (fun a b : Version => decide (a.ID ≤ b.ID))
      (fun a b => le_int_tot a.ID b.ID)
      (fun a b c h1 h2 => le_int_trans a.ID b.ID c.ID h1 h2) _
  exact (hle.and (List.pairwise_map.1 hnodup)).imp (by
    rintro a b ⟨h1, h2⟩
    exact lt_of_le_of_ne (by simpa using h1) h2)

/-- `vs.vmap[k]` agrees with searching the sorted versions list by id. -/
theorem summary_vmapGetD (w : Worker) (rows : List Row)
    (hrows : (rows.map Row.id).Nodup)
    (hplans : (w.plans.map MigrationPlan.id).Nodup) (k : VersionID) :
    vmapGetD (getVersionSummaryAllowFailed w rows).vmap k
      = ((getVersionSummaryAllowFailed w rows).versions.find?
          (fun v => v.ID == k)).getD ⟨k, none, false, false, "", ""⟩ := by
  have hvmap : (getVersionSummaryAllowFailed w rows).vmap
      = (summaryFold w rows).versions.map (fun v => (v.ID, v)) := by
    rw [getVSAF_eq]
    exact (summaryFold_spec w rows hrows hplans).2.2.2.1
  have hsortperm : (summaryFold w rows).versions.Perm
      (getVersionSummaryAllowFailed w rows).versions := by
    rw [getVSAF_eq]
    exact (isortBy_perm _ _).symm
  unfold vmapGetD
  rw [hvmap, lookupA_pairs Version.ID,
    find?_key_perm Version.ID hsortperm
      (summaryFold_spec w rows hrows hplans).2.2.2.2 k]

/-- The failed flags visible in the summary are exactly those of the
persisted rows. -/
theorem summary_any_failed (w : Worker) (rows : List Row)
    (hrows : (rows.map Row.id).Nodup)
    (hplans : (w.plans.map MigrationPlan.id).Nodup) :
    (getVersionSummaryAllowFailed w rows).versions.any (fun v => v.Failed)
      = rows.any (fun r => r.failed) := by
  have hperm := summary_versions_perm w rows hrows hplans
  have h1 : (getVersionSummaryAllowFailed w rows).versions.any (fun v => v.Failed)
      = ((getVersionSummaryAllowFailed w rows).versions.map projV).any
          (fun t => t.2.2.1) := by
    rw [any_map_gen]
    rfl
  rw [h1, any_perm hperm, List.any_append]
  have h2 : (rows.map (fun r => (r.id, some r.appliedAt, r.failed, r.locked))).any
      (fun t => t.2.2.1) = rows.any (fun r => r.failed) := by
    rw [any_map_gen]
  have h3 : ((w.plans.filter (fun p => !hasRowB rows p.id)).map
      (fun p => (p.id, (none : Option Nat), false, false))).any
        (fun t => t.2.2.1) = false := by
    rw [any_map_gen]
    simp
  rw [h2, h3, Bool.or_false]

/-- The failed-state gate refuses when some persisted row is failed. -/
theorem getVersionSummary_failed (w : Worker) (rows : List Row)
    (hrows : (rows.map Row.id).Nodup)
    (hplans : (w.plans.map MigrationPlan.id).Nodup)
    (hfail : rows.any (fun r => r.failed) = true) :
    getVersionSummary w rows = .error .prevFailed := by
  unfold getVersionSummary
  rw [if_pos]
  rw [summary_any_failed w rows hrows hplans]
  exact hfail

/-- The failed-state gate passes when no persisted row is failed. -/
theorem getVersionSummary_ok (w : Worker) (rows : List Row)
    (hrows : (rows.map Row.id).Nodup)
    (hplans : (w.plans.map MigrationPlan.id).Nodup)
    (hfail : rows.any (fun r => r.failed) = false) :
    getVersionSummary w rows = .ok (getVersionSummaryAllowFailed w rows) := by
  unfold getVersionSummary
  rw [if_neg]
  rw [summary_any_failed w rows hrows hplans, hfail]
  simp

/-- C8: the summary built from any persisted rows (unique ids) and any
compiled plan list (unique ids) has its applied plans strictly
descending, its unapplied plans strictly ascending, its versions
strictly ascending, and its versions are exactly the persisted rows
plus one placeholder (AppliedAt nil) per plan id without a row. -/
theorem C8_summary_shape (w : Worker) (rows : List Row)
    (hrows : (rows.map Row.id).Nodup)
    (hplans : (w.plans.map MigrationPlan.id).Nodup) :
    (getVersionSummaryAllowFailed w rows).applied.Pairwise
        (fun a b => b.id < a.id)
    ∧ (getVersionSummaryAllowFailed w rows).unapplied.Pairwise
        (fun a b => a.id < b.id)
    ∧ (getVersionSummaryAllowFailed w rows).versions.Pairwise
        (fun a b => a.ID < b.ID)
    ∧ (getVersionSummaryAllowFailed w rows).applied.Perm
        (w.plans.filter (fun p => hasRowB rows p.id))
    ∧ (getVersionSummaryAllowFailed w rows).unapplied.Perm
        (w.plans.filter (fun p => !hasRowB rows p.id))
    ∧ ((getVersionSummaryAllowFailed w rows).versions.map projV).Perm
        (rows.map (fun r => (r.id, some r.appliedAt, r.failed, r.locked))
          ++ (w.plans.filter (fun p => !hasRowB rows p.id)).map
              (fun p => (p.id, (none : Option Nat), false, false))) :=
  ⟨summary_applied_sorted w rows hrows hplans,
    summary_unapplied_sorted w rows hrows hplans,
    summary_versions_sorted w rows hrows hplans,
    summary_applied_perm w rows hrows hplans,
    summary_unapplied_perm w rows hrows hplans,
    summary_versions_perm w rows hrows hplans⟩

/-- Witness for C8 on a concrete table (including a row no plan knows)
and a concrete two-plan list. -/
theorem C8_summary_shape_witness :
    ((getVersionSummaryAllowFailed
        ⟨[10, 20], [⟨10, ⟨"create t1", none, none, none⟩,
            ⟨"drop t1", none, none, none⟩, []⟩,
          ⟨20, ⟨"create t2", none, none, none⟩,
            ⟨"drop t2", none, none, none⟩, []⟩], true, fun _ => true⟩
        [⟨99, 7, false, true⟩, ⟨10, 5, false, false⟩]).applied.Pairwise
          (fun a b => b.id < a.id))
    ∧ ((getVersionSummaryAllowFailed
        ⟨[10, 20], [⟨10, ⟨"create t1", none, none, none⟩,
            ⟨"drop t1", none, none, none⟩, []⟩,
          ⟨20, ⟨"create t2", none, none, none⟩,
            ⟨"drop t2", none, none, none⟩, []⟩], true, fun _ => true⟩
        [⟨99, 7, false, true⟩, ⟨10, 5, false, false⟩]).versions.map projV).Perm
        (([⟨99, 7, false, true⟩, ⟨10, 5, false, false⟩] : List Row).map
            (fun r => (r.id, some r.appliedAt, r.failed, r.locked))
          ++ ([⟨10, ⟨"create t1", none, none, none⟩,
                ⟨"drop t1", none, none, none⟩, []⟩,
              (⟨20, ⟨"create t2", none, none, none⟩,
                ⟨"drop t2", none, none, none⟩, []⟩ : MigrationPlan)].filter
              (fun p => !hasRowB [⟨99, 7, false, true⟩, ⟨10, 5, false, false⟩] p.id)).map
              (fun p => (p.id, (none : Option Nat), false, false))) := by
  have h := C8_summary_shape
    ⟨[10, 20], [⟨10, ⟨"create t1", none, none, none⟩,
        ⟨"drop t1", none, none, none⟩, []⟩,
      ⟨20, ⟨"create t2", none, none, none⟩,
        ⟨"drop t2", none, none, none⟩, []⟩], true, fun _ => true⟩
    [⟨99, 7, false, true⟩, ⟨10, 5, false, false⟩] (by decide) (by decide)
  exact ⟨h.1, h.2.2.2.2.2⟩

/-! ## The failed-state gate over the worker operations (C3) -/

theorem summary_no_locked (w : Worker) (rows : List Row)
    (hrows : (rows.map Row.id).Nodup)
    (hplans : (w.plans.map MigrationPlan.id).Nodup)
    (hnolock : rows.all (fun r => !r.locked) = true) :
    ∀ v ∈ (getVersionSummaryAllowFailed w rows).versions, v.Locked = false := by
  intro v hv
  have hperm := summary_versions_perm w rows hrows hplans
  have hproj : projV v ∈
      (rows.map (fun r => (r.id, some r.appliedAt, r.failed, r.locked))
        ++ (w.plans.filter (fun p => !hasRowB rows p.id)).map
            (fun p => (p.id, (none : Option Nat), false, false))) :=
    hperm.mem_iff.1 (List.mem_map.2 ⟨v, hv, rfl⟩)
  rcases List.mem_append.1 hproj with hmem | hmem
  · rcases List.mem_map.1 hmem with ⟨r, hr, hrv⟩
    have hlock : r.locked = false := by
      have := List.all_eq_true.1 hnolock r hr
      simpa using this
    have : v.Locked = r.locked := congrArg (fun t => t.2.2.2) hrv.symm
    rw [this, hlock]
  · rcases List.mem_map.1 hmem with ⟨p, _, hrv⟩
    exact congrArg (fun t => t.2.2.2) hrv.symm

theorem checkLockedFrom_ok (vmap : List (VersionID × Version)) (id : VersionID) :
    ∀ L : List MigrationPlan,
      (∀ p ∈ L, (vmapGetD vmap p.id).Locked = false) →
      checkLockedFrom vmap id L = .ok () := by
  intro L
  induction L with
  | nil => intro _; rfl
  | cons p L ih =>
    intro h
    unfold checkLockedFrom
    by_cases hle : p.id ≤ id
    · rw [if_pos hle]
    · rw [if_neg hle, if_neg (by rw [h p (List.mem_cons_self _ _)]; simp)]
      exact ih (fun q hq => h q (List.mem_cons_of_mem _ hq))

/-- With no locked rows, the lock check always passes. -/
theorem checkLocked_ok_of_no_locked (w : Worker) (rows : List Row)
    (hrows : (rows.map Row.id).Nodup)
    (hplans : (w.plans.map MigrationPlan.id).Nodup)
    (hnolock : rows.all (fun r => !r.locked) = true) (id : VersionID) :
    (getVersionSummaryAllowFailed w rows).checkLocked id = .ok () := by
  unfold VersionSummary.checkLocked
  refine checkLockedFrom_ok _ id _ ?_
  intro p _
  rw [summary_vmapGetD w rows hrows hplans p.id]
  cases hf : (getVersionSummaryAllowFailed w rows).versions.find?
      (fun v => v.ID == p.id) with
  | none => rfl
  | some v =>
    have := summary_no_locked w rows hrows hplans hnolock v
      (List.mem_of_find?_eq_some hf)
    simpa using this

theorem upN_succ (w : Worker) (fuel : Nat) (s : WState) :
    upN w (fuel + 1) s
      = match upOne w s with
        | (.error e, _, s') => (.error e, s')
        | (.ok _, more, s') =>
          if more then upN w fuel s'
          else (.ok (), finishedOp w "migrate up finished" s') := rfl

theorem downN_succ (w : Worker) (fuel : Nat) (s : WState) :
    downN w (fuel + 1) s
      = match downOne w s with
        | (.error e, _, s') => (.error e, s')
        | (.ok _, more, s') =>
          if more then downN w fuel s'
          else (.ok (), finishedOp w "migrate down finished" s') := rfl

theorem gotoN_succ (w : Worker) (id : VersionID) (fuel : Nat) (s : WState) :
    gotoN w id (fuel + 1) s
      = match gotoOne w id s with
        | (.error e, _, s') => (.error e, s')
        | (.ok _, more, s') =>
          if more then gotoN w id fuel s'
          else (.ok (), finishedOp w "migrate goto finished" s') := rfl

/-- C2 (code bug, down direction): in the non-transactional two-phase
protocol, the up path behaves as specified — phase 1 commits the row
stamped `failed=true`; a failing action leaves it `failed=true` with the
error returned; success clears the flag — but `downOneNoTx`'s phase 1
calls `SetVersionFailed(..., false)` (its own comment says "mark version
as failed"), so a failing non-transactional down action leaves the row
with `failed=false`, not `failed=true` as the claim states; on success
the row is deleted as claimed. -/
theorem C2_noTx_two_phase :
    Up ⟨[6], [⟨6, ⟨"", some false, none, none⟩, ⟨"", some true, none, none⟩, []⟩],
        true, fun _ => true⟩ ⟨[], 100, []⟩
      = (.error (.stepFailed 6), ⟨[⟨6, 101, true, false⟩], 102, []⟩)
    ∧ Up ⟨[7], [⟨7, ⟨"", some true, none, none⟩, ⟨"", some true, none, none⟩, []⟩],
        true, fun _ => true⟩ ⟨[], 100, []⟩
      = (.ok (), ⟨[⟨7, 101, false, false⟩], 102,
          [.migratedUp 7, .finishedMsg "migrate up finished" 7 false false]⟩)
    ∧ downOneNoTx ⟨[5], [⟨5, ⟨"", some true, none, none⟩,
          ⟨"", some false, none, none⟩, []⟩], true, fun _ => true⟩ 5
        ⟨[⟨5, 50, true, false⟩], 100, []⟩
      = (.error (.stepFailed 5), ⟨[⟨5, 50, false, false⟩], 100, []⟩)
    ∧ Down ⟨[5], [⟨5, ⟨"", some true, none, none⟩,
          ⟨"", some false, none, none⟩, []⟩], true, fun _ => true⟩
        ⟨[⟨5, 50, false, false⟩], 100, []⟩
      = (.error (.stepFailed 5), ⟨[⟨5, 50, false, false⟩], 100, []⟩)
    ∧ Down ⟨[5], [⟨5, ⟨"", some true, none, none⟩,
          ⟨"", some true, none, none⟩, []⟩], true, fun _ => true⟩
        ⟨[⟨5, 50, false, false⟩], 100, []⟩
      = (.ok (), ⟨[], 100,
          [.migratedDown 5, .finishedMsg "migrate down finished" 0 false false]⟩) := by
  refine ⟨?_, ?_, ?_, ?_, ?_⟩ <;> rfl

/-! ## Canonical-state lemmas for the migration loops -/

/-- On a list ordered by `R`, a predicate closed towards the front makes
`takeWhile` and `filter` agree. -/
theorem takeWhile_eq_filter_of_pairwise {α : Type} {R : α → α → Prop}
    {l : List α} (hl : l.Pairwise R) (p : α → Bool)
    (hcl : ∀ a b, R a b → p b = true → p a = true) :
    l.takeWhile p = l.filter p := by
  induction l with
  | nil => rfl
  | cons a l ih =>
    have ha := (List.pairwise_cons.1 hl).1
    have hl' := (List.pairwise_cons.1 hl).2
    cases hpa : p a with
    | true =>
      rw [List.takeWhile_cons_of_pos hpa, List.filter_cons_of_pos hpa, ih hl']
    | false =>
      rw [List.takeWhile_cons_of_neg (by simp [hpa]),
        List.filter_cons_of_neg (by simp [hpa])]
      have : l.filter p = [] := by
        rw [List.filter_eq_nil]
        intro b hb hpb
        rw [hcl a b (ha b hb) hpb] at hpa
        cases hpa
      rw [this]

theorem any_congr_mem {α : Type} {l : List α} {p q : α → Bool}
    (h : ∀ a ∈ l, p a = q a) : l.any p = l.any q := by
  induction l with
  | nil => rfl
  | cons a l ih =>
    rw [List.any_cons, List.any_cons, h a (List.mem_cons_self a l),
      ih (fun b hb => h b (List.mem_cons_of_mem a hb))]

theorem any_filter_gen {α : Type} (l : List α) (f g : α → Bool) :
    (l.filter f).any g = l.any (fun a => g a && f a) := by
  induction l with
  | nil => rfl
  | cons a l ih =>
    cases hf : f a with
    | true =>
      rw [List.filter_cons_of_pos hf, List.any_cons, List.any_cons, ih, hf,
        Bool.and_true]
    | false =>
      rw [List.filter_cons_of_neg (by simp [hf]), List.any_cons, ih, hf,
        Bool.and_false, Bool.false_or]

theorem filter_key_singleton {α : Type} (key : α → Int) :
    ∀ {l : List α}, (l.map key).Nodup → ∀ {x : α}, x ∈ l →
      l.filter (fun a => key a == key x) = [x] := by
  intro l
  induction l with
  | nil => intro _ x hx; cases hx
  | cons a l ih =>
    intro hn x hx
    have hn' : key a ∉ l.map key ∧ (l.map key).Nodup := by
      have h2 := hn
      rw [List.map_cons, List.nodup_cons] at h2
      exact h2
    rcases List.mem_cons.1 hx with rfl | hx
    · rw [List.filter_cons_of_pos (by simp)]
      have : l.filter (fun a => key a == key x) = [] := by
        rw [List.filter_eq_nil]
        intro b hb hpb
        exact hn'.1 (List.mem_map.2 ⟨b, hb, by simpa using hpb⟩)
      rw [this]
    · have hne : key a ≠ key x :=
        fun he => hn'.1 (by rw [he]; exact List.mem_map.2 ⟨x, hx, rfl⟩)
      rw [List.filter_cons_of_neg (by simp [hne]), ih hn'.2 hx]

theorem length_filter_ne_key {α : Type} (key : α → Int) :
    ∀ {l : List α}, (l.map key).Nodup → ∀ {x : α}, x ∈ l →
      (l.filter (fun a => !(key a == key x))).length + 1 = l.length := by
  intro l
  induction l with
  | nil => intro _ x hx; cases hx
  | cons a l ih =>
    intro hn x hx
    have hn' : key a ∉ l.map key ∧ (l.map key).Nodup := by
      have h2 := hn
      rw [List.map_cons, List.nodup_cons] at h2
      exact h2
    rcases List.mem_cons.1 hx with rfl | hx
    · rw [List.filter_cons_of_neg (by simp)]
      have : l.filter (fun a => !(key a == key x)) = l := by
        rw [List.filter_eq_self]
        intro b hb
        have : key b ≠ key x := fun he => hn'.1 (by rw [← he]; exact List.mem_map.2 ⟨b, hb, rfl⟩)
        simpa using this
      rw [this, List.length_cons]
    · have hne : key a ≠ key x :=
        fun he => hn'.1 (by rw [he]; exact List.mem_map.2 ⟨x, hx, rfl⟩)
      rw [List.filter_cons_of_pos (by simp [hne]), List.length_cons,
        List.length_cons, ih hn'.2 hx]

theorem length_filter_disjoint {α : Type} (p q : α → Bool) :
    ∀ {l : List α}, (∀ a ∈ l, ¬(p a = true ∧ q a = true)) →
      (l.filter p).length + (l.filter q).length ≤ l.length := by
  intro l
  induction l with
  | nil => intro _; simp
  | cons a l ih =>
    intro h
    have ha := h a (List.mem_cons_self a l)
    have hl := ih (fun b hb => h b (List.mem_cons_of_mem a hb))
    cases hp : p a with
    | true =>
      have hq : q a = false := by
        cases hq : q a with
        | true => exact absurd ⟨hp, hq⟩ ha
        | false => rfl
      rw [List.filter_cons_of_pos hp, List.filter_cons_of_neg (by simp [hq]),
        List.length_cons, List.length_cons]
      omega
    | false =>
      rw [List.filter_cons_of_neg (by simp [hp]), List.length_cons]
      cases hq : q a with
      | true =>
        rw [List.filter_cons_of_pos hq, List.length_cons]
        omega
      | false =>
        rw [List.filter_cons_of_neg (by simp [hq])]
        omega

/-- An element of maximal key in a strictly ascending list sits at the
very end. -/
theorem ascending_top_split {α : Type} (key : α → Int) {l : List α} {x : α}
    (hl : l.Pairwise (fun a b => key a < key b)) (hx : x ∈ l)
    (htop : ∀ a ∈ l, key a ≤ key x) :
    l = l.filter (fun a => !(key a == key x)) ++ [x] := by
  rcases List.append_of_mem hx with ⟨l₁, l₂, rfl⟩
  have hsplit := List.pairwise_append.1 hl
  have hx2 := List.pairwise_cons.1 hsplit.2.1
  have hl2 : l₂ = [] := by
    cases l₂ with
    | nil => rfl
    | cons b l₂ =>
      have h1 : key x < key b := hx2.1 b (List.mem_cons_self b l₂)
      have h2 : key b ≤ key x := htop b (by
        refine List.mem_append_right _ ?_
        exact List.mem_cons_of_mem x (List.mem_cons_self b l₂))
      exact absurd h1 (not_lt_of_le h2)
  subst hl2
  have h1 : l₁.filter (fun a => !(key a == key x)) = l₁ := by
    rw [List.filter_eq_self]
    intro b hb
    have : key b < key x :=
      hsplit.2.2 b hb x (List.mem_cons_self x [])
    simpa using ne_of_lt this
  rw [List.filter_append, h1, List.filter_cons_of_neg (by simp),
    List.filter_nil, List.append_nil]

theorem eq_row_of_id_eq {rows : List Row} (hn : (rows.map Row.id).Nodup)
    {r₁ r₂ : Row} (h₁ : r₁ ∈ rows) (h₂ : r₂ ∈ rows) (hid : r₁.id = r₂.id) :
    r₁ = r₂ := by
  by_contra hne
  have hp : rows.Pairwise (fun a b => a.id ≠ b.id) := List.pairwise_map.1 hn
  have hsymm : Symmetric (fun a b : Row => a.id ≠ b.id) := by
    intro a b hab he
    exact hab he.symm
  exact hp.forall hsymm h₁ h₂ hne hid

/-! Behaviour of the driver row-operations. -/

theorem hasRowB_append_single (rows : List Row) (r : Row) (k : VersionID) :
    hasRowB (rows ++ [r]) k = (hasRowB rows k || (r.id == k)) := by
  unfold hasRowB
  rw [List.any_append, List.any_cons, List.any_nil, Bool.or_false]

theorem hasRowB_delete (rows : List Row) (id k : VersionID) :
    hasRowB (rowsDelete rows id) k = (hasRowB rows k && !(k == id)) := by
  unfold hasRowB rowsDelete
  rw [any_filter_gen]
  by_cases hk : k = id
  · subst hk
    have h1 : rows.any (fun r => (r.id == k) && (r.id != k))
        = rows.any (fun _ => false) :=
      any_congr_mem (fun r _ => by by_cases h : r.id = k <;> simp [h, bne])
    rw [h1]
    simp
  · have h1 : rows.any (fun r => (r.id == k) && (r.id != id))
        = rows.any (fun r => r.id == k) :=
      any_congr_mem (fun r _ => by
        by_cases h : r.id = k
        · subst h
          simp [bne, hk]
        · simp [h])
    rw [h1]
    simp [hk]

theorem hasRowB_of_map_eq {rows₁ rows₂ : List Row}
    (h : rows₁.map Row.id = rows₂.map Row.id) (k : VersionID) :
    hasRowB rows₁ k = hasRowB rows₂ k := by
  unfold hasRowB
  rw [← any_map_gen Row.id rows₁ (fun i => i == k),
    ← any_map_gen Row.id rows₂ (fun i => i == k), h]

theorem rowsSetFailed_of_not_hasRow (rows : List Row) (id : VersionID) (b : Bool)
    (h : hasRowB rows id = false) : rowsSetFailed rows id b = rows := by
  unfold rowsSetFailed
  have h' : ∀ r ∈ rows, (r.id == id) = false := by
    unfold hasRowB at h
    rw [List.any_eq_false] at h
    intro r hr
    simpa using h r hr
  have heq : rows.map (fun r => if r.id == id then { r with failed := b } else r)
      = rows.map (fun r => r) :=
    List.map_congr_left (fun r hr => by rw [h' r hr]; rfl)
  rw [heq, List.map_id']

theorem rowsSetFailed_clean (rows : List Row) (id : VersionID)
    (h : ∀ r ∈ rows, r.failed = false) : rowsSetFailed rows id false = rows := by
  unfold rowsSetFailed
  have heq : rows.map (fun r => if r.id == id then { r with failed := false } else r)
      = rows.map (fun r => r) := by
    refine List.map_congr_left (fun r hr => ?_)
    by_cases hr' : r.id == id
    · rw [if_pos hr']
      have hf := h r hr
      cases r
      simp only at hf
      rw [hf]
    · rw [if_neg hr']
  rw [heq, List.map_id']

theorem rowsSetFailed_append (rows₁ rows₂ : List Row) (id : VersionID) (b : Bool) :
    rowsSetFailed (rows₁ ++ rows₂) id b
      = rowsSetFailed rows₁ id b ++ rowsSetFailed rows₂ id b :=
  List.map_append _ _ _

theorem rowsSetLocked_map_id (rows : List Row) (id : VersionID) (b : Bool) :
    (rowsSetLocked rows id b).map Row.id = rows.map Row.id := by
  unfold rowsSetLocked
  rw [List.map_map]
  refine List.map_congr_left (fun r _ => ?_)
  by_cases h : r.id == id
  · rw [Function.comp_apply, if_pos h]
  · rw [Function.comp_apply, if_neg h]

theorem rowsSetLocked_mem {rows : List Row} {id : VersionID} {b : Bool} {r' : Row}
    (h : r' ∈ rowsSetLocked rows id b) :
    ∃ r ∈ rows, r'.id = r.id ∧ r'.appliedAt = r.appliedAt
      ∧ r'.failed = r.failed ∧ (r'.locked = b ∨ r'.locked = r.locked) := by
  rcases List.mem_map.1 h with ⟨r, hr, hr'⟩
  by_cases hid : r.id == id
  · rw [if_pos hid] at hr'
    exact ⟨r, hr, by rw [← hr']; exact ⟨rfl, rfl, rfl, Or.inl rfl⟩⟩
  · rw [if_neg hid] at hr'
    exact ⟨r, hr, by rw [← hr']; exact ⟨rfl, rfl, rfl, Or.inr rfl⟩⟩

/-! Canonical form of the summary when the compiled plans are strictly
ascending (as `Schema.complete` produces them, sorted with unique ids). -/

theorem nodup_ids_of_sorted (w : Worker)
    (hW : w.plans.Pairwise (fun a b => a.id < b.id)) :
    (w.plans.map MigrationPlan.id).Nodup :=
  List.pairwise_map.2 (hW.imp (fun h => ne_of_lt h))

theorem summary_applied_eq (w : Worker) (rows : List Row)
    (hW : w.plans.Pairwise (fun a b => a.id < b.id))
    (hrows : (rows.map Row.id).Nodup) :
    (getVersionSummaryAllowFailed w rows).applied
      = (w.plans.filter (fun p => hasRowB rows p.id)).reverse := by
  have hplans := nodup_ids_of_sorted w hW
  refine eq_of_perm_of_strict_key (fun p => -p.id) ?_ ?_ ?_
  · exact (summary_applied_perm w rows hrows hplans).trans
      (List.reverse_perm _).symm
  · exact (summary_applied_sorted w rows hrows hplans).imp
      (fun h => neg_lt_neg h)
  · rw [List.pairwise_reverse]
    exact (hW.filter _).imp (fun h => neg_lt_neg h)

theorem summary_unapplied_eq (w : Worker) (rows : List Row)
    (hW : w.plans.Pairwise (fun a b => a.id < b.id))
    (hrows : (rows.map Row.id).Nodup) :
    (getVersionSummaryAllowFailed w rows).unapplied
      = w.plans.filter (fun p => !hasRowB rows p.id) := by
  have hplans := nodup_ids_of_sorted w hW
  refine eq_of_perm_of_strict_key (fun p => p.id) ?_ ?_ ?_
  · exact summary_unapplied_perm w rows hrows hplans
  · exact summary_unapplied_sorted w rows hrows hplans
  · exact hW.filter _

/-- Every persisted row appears in the summary's versions list under its
own id, carrying the row's persisted fields. -/
theorem summary_find_row (w : Worker) (rows : List Row)
    (hrows : (rows.map Row.id).Nodup)
    (hplans : (w.plans.map MigrationPlan.id).Nodup)
    {r : Row} (hr : r ∈ rows) :
    ∃ v, (getVersionSummaryAllowFailed w rows).versions.find?
        (fun x => x.ID == r.id) = some v
      ∧ v.ID = r.id ∧ v.AppliedAt = some r.appliedAt
      ∧ v.Failed = r.failed ∧ v.Locked = r.locked := by
  have hperm := summary_versions_perm w rows hrows hplans
  have hmem : (r.id, some r.appliedAt, r.failed, r.locked)
      ∈ (getVersionSummaryAllowFailed w rows).versions.map projV :=
    hperm.mem_iff.2 (List.mem_append_left _ (List.mem_map.2 ⟨r, hr, rfl⟩))
  rcases List.mem_map.1 hmem with ⟨v, hv, hproj⟩
  have hfields : v.ID = r.id ∧ v.AppliedAt = some r.appliedAt
      ∧ v.Failed = r.failed ∧ v.Locked = r.locked := by
    unfold projV at hproj
    simpa using hproj
  have hnodup := summary_versions_ids_nodup w rows hrows hplans
  exact ⟨v, find?_key_eq_of_mem Version.ID hnodup hv hfields.1, hfields⟩

/-- `vs.vmap[id]` carries the lock flag of the persisted row with that id. -/
theorem vmapGetD_locked_of_row (w : Worker) (rows : List Row)
    (hrows : (rows.map Row.id).Nodup)
    (hplans : (w.plans.map MigrationPlan.id).Nodup)
    {r : Row} (hr : r ∈ rows) :
    (vmapGetD (getVersionSummaryAllowFailed w rows).vmap r.id).Locked
      = r.locked := by
  rw [summary_vmapGetD w rows hrows hplans r.id]
  rcases summary_find_row w rows hrows hplans hr with ⟨v, hfind, _, _, _, hlock⟩
  rw [hfind]
  exact hlock

theorem rowsInsert_fresh (rows : List Row) (r : Row)
    (h : hasRowB rows r.id = false) :
    rowsInsert rows r = .ok (rows ++ [r]) := by
  unfold rowsInsert
  have h' : rows.any (fun x => x.id == r.id) = false := h
  rw [h']
  rfl

/-- After inserting the row for the first unapplied plan, the unapplied
plans are exactly the remaining ones. -/
theorem filter_unapplied_insert (w : Worker)
    (hplans : (w.plans.map MigrationPlan.id).Nodup)
    {rows : List Row} {p : MigrationPlan} {rest : List MigrationPlan} (r : Row)
    (hrid : r.id = p.id)
    (hU : w.plans.filter (fun q => !hasRowB rows q.id) = p :: rest) :
    w.plans.filter (fun q => !hasRowB (rows ++ [r]) q.id) = rest := by
  have hcong : ∀ q ∈ w.plans,
      (!hasRowB (rows ++ [r]) q.id)
        = ((!(q.id == p.id)) && !hasRowB rows q.id) := by
    intro q _
    rw [hasRowB_append_single, hrid]
    by_cases h : p.id = q.id
    · rw [h]
      simp
    · have e1 : (p.id == q.id) = false := by simp [h]
      have e2 : (q.id == p.id) = false := by simp [Ne.symm h]
      rw [e1, e2]
      simp
  rw [List.filter_congr hcong, ← List.filter_filter, hU,
    List.filter_cons_of_neg (by simp)]
  have hnodup := plans_filter_ids_nodup w hplans (fun q => !hasRowB rows q.id)
  rw [hU, List.map_cons, List.nodup_cons] at hnodup
  refine List.filter_eq_self.2 (fun q hq => ?_)
  have : q.id ≠ p.id :=
    fun he => hnodup.1 (by rw [← he]; exact List.mem_map.2 ⟨q, hq, rfl⟩)
  simpa using this

/-- After deleting the row of the last applied plan, the applied plans
are exactly the remaining ones. -/
theorem filter_applied_delete (w : Worker)
    (hplans : (w.plans.map MigrationPlan.id).Nodup)
    {rows : List Row} {p : MigrationPlan} {rest : List MigrationPlan}
    (hA : w.plans.filter (fun q => hasRowB rows q.id) = rest ++ [p]) :
    w.plans.filter (fun q => hasRowB (rowsDelete rows p.id) q.id) = rest := by
  have hcong : ∀ q ∈ w.plans,
      hasRowB (rowsDelete rows p.id) q.id
        = ((!(q.id == p.id)) && hasRowB rows q.id) := by
    intro q _
    rw [hasRowB_delete, Bool.and_comm]
  rw [List.filter_congr hcong, ← List.filter_filter, hA,
    List.filter_append, List.filter_cons_of_neg (by simp), List.filter_nil,
    List.append_nil]
  have hnodup := plans_filter_ids_nodup w hplans (fun q => hasRowB rows q.id)
  rw [hA, List.map_append, List.nodup_append] at hnodup
  refine List.filter_eq_self.2 (fun q hq => ?_)
  have : q.id ≠ p.id := by
    intro he
    have := hnodup.2.2 (List.mem_map.2 ⟨q, hq, rfl⟩)
    rw [he] at this
    exact this (by simp)
  simpa using this

/-- `upOneNoTx`, given that the plan is found and its id has no row yet:
phase 1 stamps the new row `failed=true`; on success the flag is
cleared, on failure it stays. -/
theorem upOneNoTx_char (w : Worker) (p : MigrationPlan) (s : WState)
    (hplans : (w.plans.map MigrationPlan.id).Nodup)
    (hpmem : p ∈ w.plans)
    (hnorow : hasRowB s.db p.id = false) :
    ((match p.up.dbFunc with
      | some b => b
      | none => w.execSql p.up.sql) = true →
      upOneNoTx w p.id s
        = (.ok (), ⟨s.db ++ [⟨p.id, s.clock, false, false⟩],
            s.clock + 1, s.log⟩))
    ∧ ((match p.up.dbFunc with
      | some b => b
      | none => w.execSql p.up.sql) = false →
      upOneNoTx w p.id s
        = (.error (.stepFailed p.id),
            ⟨s.db ++ [⟨p.id, s.clock, true, false⟩], s.clock + 1, s.log⟩)) := by
  have hfind : w.plans.find? (fun q => q.id == p.id) = some p :=
    find?_key_eq_of_mem MigrationPlan.id hplans hpmem rfl
  unfold upOneNoTx
  rw [hfind]
  dsimp only
  rw [rowsInsert_fresh s.db ⟨p.id, s.clock, true, false⟩ hnorow]
  dsimp only
  constructor
  · intro hok
    rw [hok, if_pos rfl]
    rw [rowsSetFailed_append, rowsSetFailed_of_not_hasRow s.db p.id false hnorow]
    unfold rowsSetFailed
    rw [List.map_cons, List.map_nil, if_pos (by simp)]
  · intro hfail
    rw [hfail, if_neg (by simp)]

/-- `downOneNoTx`, given that the plan is found, its row is present and
no row is failed: phase 1's `SetVersionFailed(..., false)` (the code
bug) leaves the table unchanged; success deletes the row, failure
leaves it `failed=false`. -/
theorem downOneNoTx_char (w : Worker) (p : MigrationPlan) (s : WState)
    (hplans : (w.plans.map MigrationPlan.id).Nodup)
    (hpmem : p ∈ w.plans)
    (hclean : ∀ r ∈ s.db, r.failed = false) :
    ((match p.down.dbFunc with
      | some b => b
      | none => w.execSql p.down.sql) = true →
      downOneNoTx w p.id s
        = (.ok (), ⟨rowsDelete s.db p.id, s.clock, s.log⟩))
    ∧ ((match p.down.dbFunc with
      | some b => b
      | none => w.execSql p.down.sql) = false →
      downOneNoTx w p.id s = (.error (.stepFailed p.id), s)) := by
  have hfind : w.plans.find? (fun q => q.id == p.id) = some p :=
    find?_key_eq_of_mem MigrationPlan.id hplans hpmem rfl
  unfold downOneNoTx
  rw [hfind]
  dsimp only
  rw [rowsSetFailed_clean s.db p.id hclean]
  constructor
  · intro hok
    rw [hok, if_pos rfl]
  · intro hfail
    rw [hfail, if_neg (by simp)]

/-- One up step on a clean table: nothing to do if every plan has a row;
otherwise the lowest unapplied plan is applied — a fresh row with
`failed=false, locked=false` stamped at some time at or after the
current clock — exactly when its action succeeds. -/
theorem upOne_char (w : Worker) (s : WState)
    (hW : w.plans.Pairwise (fun a b => a.id < b.id))
    (hrows : (s.db.map Row.id).Nodup)
    (hclean : ∀ r ∈ s.db, r.failed = false) :
    (w.plans.filter (fun q => !hasRowB s.db q.id) = [] →
      upOne w s = (.ok (), false, s))
    ∧ ∀ p rest, w.plans.filter (fun q => !hasRowB s.db q.id) = p :: rest →
        (actionOk w p.up = true →
          ∃ t c', s.clock ≤ t ∧ t < c'
            ∧ upOne w s = (.ok (), !rest.isEmpty,
                ⟨s.db ++ [⟨p.id, t, false, false⟩], c',
                 s.log ++ [.migratedUp p.id]⟩))
        ∧ (actionOk w p.up = false →
          ∃ e b s', upOne w s = (.error e, b, s')) := by
  have hplans := nodup_ids_of_sorted w hW
  have hfail0 : s.db.any (fun r => r.failed) = false := by
    rw [List.any_eq_false]
    intro r hr
    simp [hclean r hr]
  have hsum := getVersionSummary_ok w s.db hrows hplans hfail0
  have hunap := summary_unapplied_eq w s.db hW hrows
  constructor
  · intro hU
    unfold upOne
    rw [hsum]
    dsimp only
    rw [hunap, hU]
  · intro p rest hU
    have hpfil : p ∈ w.plans.filter (fun q => !hasRowB s.db q.id) := by
      rw [hU]
      exact List.mem_cons_self p rest
    have hpmem : p ∈ w.plans := (List.mem_filter.1 hpfil).1
    have hnorow : hasRowB s.db p.id = false := by
      have h2 := (List.mem_filter.1 hpfil).2
      cases h : hasRowB s.db p.id
      · rfl
      · rw [h] at h2
        cases h2
    unfold upOne
    rw [hsum]
    dsimp only
    rw [hunap, hU]
    dsimp only
    constructor
    · intro hact
      unfold actionOk at hact
      cases htx : p.up.txFunc with
      | some fnOk =>
        rw [htx] at hact
        dsimp only at hact ⊢
        rw [if_pos hact]
        unfold upCommit
        rw [rowsInsert_fresh s.db ⟨p.id, s.clock, false, false⟩ hnorow]
        dsimp only
        exact ⟨s.clock, s.clock + 1, le_refl _, Nat.lt_succ_self _, rfl⟩
      | none =>
        rw [htx] at hact
        dsimp only at hact ⊢
        cases hdb : p.up.dbFunc with
        | some b =>
          rw [hdb] at hact
          rw [if_pos (by simp)]
          have hchar := (upOneNoTx_char w p { s with clock := s.clock + 1 }
            hplans hpmem hnorow).1 (by rw [hdb]; exact hact)
          rw [hchar]
          dsimp only
          exact ⟨s.clock + 1, s.clock + 2, Nat.le_succ _, Nat.lt_succ_self _, rfl⟩
        | none =>
          rw [hdb] at hact
          cases htddl : w.txDDL with
          | false =>
            rw [if_pos (by simp)]
            have hchar := (upOneNoTx_char w p { s with clock := s.clock + 1 }
              hplans hpmem hnorow).1 (by rw [hdb]; exact hact)
            rw [hchar]
            dsimp only
            exact ⟨s.clock + 1, s.clock + 2, Nat.le_succ _, Nat.lt_succ_self _, rfl⟩
          | true =>
            rw [if_neg (by simp), if_pos hact]
            unfold upCommit
            rw [rowsInsert_fresh s.db ⟨p.id, s.clock, false, false⟩ hnorow]
            dsimp only
            exact ⟨s.clock, s.clock + 1, le_refl _, Nat.lt_succ_self _, rfl⟩
    · intro hact
      unfold actionOk at hact
      cases htx : p.up.txFunc with
      | some fnOk =>
        rw [htx] at hact
        dsimp only at hact ⊢
        rw [if_neg (by rw [hact]; simp)]
        exact ⟨_, _, _, rfl⟩
      | none =>
        rw [htx] at hact
        dsimp only at hact ⊢
        cases hdb : p.up.dbFunc with
        | some b =>
          rw [hdb] at hact
          rw [if_pos (by simp)]
          have hchar := (upOneNoTx_char w p { s with clock := s.clock + 1 }
            hplans hpmem hnorow).2 (by rw [hdb]; exact hact)
          rw [hchar]
          exact ⟨_, _, _, rfl⟩
        | none =>
          rw [hdb] at hact
          cases htddl : w.txDDL with
          | false =>
            rw [if_pos (by simp)]
            have hchar := (upOneNoTx_char w p { s with clock := s.clock + 1 }
              hplans hpmem hnorow).2 (by rw [hdb]; exact hact)
            rw [hchar]
            exact ⟨_, _, _, rfl⟩
          | true =>
            have hact' : w.execSql p.up.sql = false := hact
            rw [if_neg (by simp), if_neg (by rw [hact']; simp)]
            exact ⟨_, _, _, rfl⟩

/-- One down step on a clean table: nothing to do if no plan has a row;
otherwise the highest applied plan is examined — skipped (with a log
line, no error) when its row is locked, reverted and its row deleted
exactly when its action succeeds. -/
theorem downOne_char (w : Worker) (s : WState)
    (hW : w.plans.Pairwise (fun a b => a.id < b.id))
    (hrows : (s.db.map Row.id).Nodup)
    (hclean : ∀ r ∈ s.db, r.failed = false) :
    (w.plans.filter (fun q => hasRowB s.db q.id) = [] →
      downOne w s = (.ok (), false, s))
    ∧ ∀ p rest,
        (w.plans.filter (fun q => hasRowB s.db q.id)).reverse = p :: rest →
        ∀ r ∈ s.db, r.id = p.id →
          (r.locked = true →
            downOne w s = (.ok (), false,
              { s with log := s.log ++ [.lockedSkip p.id] }))
          ∧ (r.locked = false → actionOk w p.down = true →
            downOne w s = (.ok (), !rest.isEmpty,
              ⟨rowsDelete s.db p.id, s.clock, s.log ++ [.migratedDown p.id]⟩))
          ∧ (r.locked = false → actionOk w p.down = false →
            ∃ e b s', downOne w s = (.error e, b, s')) := by
  have hplans := nodup_ids_of_sorted w hW
  have hfail0 : s.db.any (fun r => r.failed) = false := by
    rw [List.any_eq_false]
    intro r hr
    simp [hclean r hr]
  have hsum := getVersionSummary_ok w s.db hrows hplans hfail0
  have happ := summary_applied_eq w s.db hW hrows
  constructor
  · intro hA
    unfold downOne
    rw [hsum]
    dsimp only
    rw [happ, hA, List.reverse_nil]
  · intro p rest hA r hr hrid
    have hpmem : p ∈ w.plans := by
      have : p ∈ (w.plans.filter (fun q => hasRowB s.db q.id)).reverse := by
        rw [hA]
        exact List.mem_cons_self p rest
      exact (List.mem_filter.1 (List.mem_reverse.1 this)).1
    rcases summary_find_row w s.db hrows hplans hr with
      ⟨v, hfind, hvID, _, _, hvlock⟩
    rw [hrid] at hfind
    unfold downOne
    rw [hsum]
    dsimp only
    rw [happ, hA]
    dsimp only
    rw [hfind]
    dsimp only
    refine ⟨?_, ?_, ?_⟩
    · intro hlock
      rw [if_pos (by rw [hvlock, hrid] at *; exact hlock), hvID, hrid]
    · intro hlock hact
      rw [if_neg (by rw [hvlock]; rw [hlock]; simp)]
      unfold actionOk at hact
      cases htx : p.down.txFunc with
      | some fnOk =>
        rw [htx] at hact
        dsimp only at hact ⊢
        rw [if_pos hact]
        unfold downCommit
        rw [hvID, hrid]
      | none =>
        rw [htx] at hact
        dsimp only at hact ⊢
        cases hdb : p.down.dbFunc with
        | some b =>
          rw [hdb] at hact
          rw [if_pos (by simp)]
          have hchar := (downOneNoTx_char w p s hplans hpmem hclean).1
            (by rw [hdb]; exact hact)
          rw [hchar]
        | none =>
          rw [hdb] at hact
          cases htddl : w.txDDL with
          | false =>
            rw [if_pos (by simp)]
            have hchar := (downOneNoTx_char w p s hplans hpmem hclean).1
              (by rw [hdb]; exact hact)
            rw [hchar]
          | true =>
            rw [if_neg (by simp), if_pos hact]
            unfold downCommit
            rw [hvID, hrid]
    · intro hlock hact
      rw [if_neg (by rw [hvlock]; rw [hlock]; simp)]
      unfold actionOk at hact
      cases htx : p.down.txFunc with
      | some fnOk =>
        rw [htx] at hact
        dsimp only at hact ⊢
        rw [if_neg (by rw [hact]; simp)]
        exact ⟨_, _, _, rfl⟩
      | none =>
        rw [htx] at hact
        dsimp only at hact ⊢
        cases hdb : p.down.dbFunc with
        | some b =>
          rw [hdb] at hact
          rw [if_pos (by simp)]
          have hchar := (downOneNoTx_char w p s hplans hpmem hclean).2
            (by rw [hdb]; exact hact)
          rw [hchar]
          exact ⟨_, _, _, rfl⟩
        | none =>
          rw [hdb] at hact
          cases htddl : w.txDDL with
          | false =>
            rw [if_pos (by simp)]
            have hchar := (downOneNoTx_char w p s hplans hpmem hclean).2
              (by rw [hdb]; exact hact)
            rw [hchar]
            exact ⟨_, _, _, rfl⟩
          | true =>
            have hact' : w.execSql p.down.sql = false := hact
            rw [if_neg (by simp), if_neg (by rw [hact']; simp)]
            exact ⟨_, _, _, rfl⟩

theorem not_mem_map_id_of_not_hasRow {rows : List Row} {k : VersionID}
    (h : hasRowB rows k = false) : k ∉ rows.map Row.id := by
  intro hmem
  rcases List.mem_map.1 hmem with ⟨r, hr, hrid⟩
  unfold hasRowB at h
  rw [List.any_eq_false] at h
  exact h r hr (by simp [hrid])

theorem hasRowB_iff_mem {rows : List Row} {k : VersionID} :
    hasRowB rows k = true ↔ k ∈ rows.map Row.id := by
  unfold hasRowB
  rw [List.any_eq_true]
  constructor
  · rintro ⟨r, hr, hb⟩
    exact List.mem_map.2 ⟨r, hr, by simpa using hb⟩
  · intro hmem
    rcases List.mem_map.1 hmem with ⟨r, hr, hrid⟩
    exact ⟨r, hr, by simp [hrid]⟩

/-- `Worker.finished` only appends one log line. -/
theorem finishedOp_char (w : Worker) (m : String) (s : WState) :
    ∃ fin, finishedOp w m s = { s with log := s.log ++ [fin] } := by
  have hunf : finishedOp w m s
      = match (getVersionSummaryAllowFailed w s.db).applied with
        | [] => { s with log := s.log ++ [.finishedMsg m 0 false false] }
        | plan :: _ =>
          let v := vmapGetD (getVersionSummaryAllowFailed w s.db).vmap plan.id
          { s with log := s.log ++ [.finishedMsg m v.ID v.Locked v.Failed] } := rfl
  rw [hunf]
  cases hA : (getVersionSummaryAllowFailed w s.db).applied with
  | nil => exact ⟨_, rfl⟩
  | cons p rest => exact ⟨_, rfl⟩

/-- The `Up` loop on a clean table, conditional on overall success:
every missing plan gets a fresh clean row, in ascending-id order with
strictly increasing timestamps, and one "migrated up" log line each. -/
theorem upN_char (w : Worker)
    (hW : w.plans.Pairwise (fun a b => a.id < b.id)) :
    ∀ fuel s s',
      (s.db.map Row.id).Nodup →
      (∀ r ∈ s.db, r.failed = false) →
      upN w fuel s = (.ok (), s') →
      ∃ rowsNew fin,
        s'.db = s.db ++ rowsNew
        ∧ rowsNew.map Row.id
            = (w.plans.filter (fun q => !hasRowB s.db q.id)).map MigrationPlan.id
        ∧ (∀ r ∈ rowsNew, r.failed = false ∧ r.locked = false
            ∧ s.clock ≤ r.appliedAt)
        ∧ rowsNew.Pairwise (fun a b => a.appliedAt < b.appliedAt)
        ∧ s'.log = s.log ++ (w.plans.filter (fun q => !hasRowB s.db q.id)).map
            (fun q => LogEntry.migratedUp q.id) ++ [fin] := by
  have hplans := nodup_ids_of_sorted w hW
  intro fuel
  induction fuel with
  | zero =>
    intro s s' _ _ hok
    rw [show upN w 0 s = (.error .fuelExhausted, s) from rfl] at hok
    exact absurd (congrArg Prod.fst hok) (by simp)
  | succ fuel ih =>
    intro s s' hrows hclean hok
    rw [upN_succ] at hok
    obtain ⟨hnil, hcons⟩ := upOne_char w s hW hrows hclean
    cases hU : w.plans.filter (fun q => !hasRowB s.db q.id) with
    | nil =>
      rw [hnil hU] at hok
      dsimp only at hok
      rw [if_neg (by simp)] at hok
      have hs' := congrArg Prod.snd hok
      dsimp only at hs'
      rcases finishedOp_char w "migrate up finished" s with ⟨fin, hfin⟩
      rw [hfin] at hs'
      refine ⟨[], fin, ?_, ?_, ?_, ?_, ?_⟩
      · rw [← hs']
        simp
      · simp
      · intro r hr
        cases hr
      · exact List.Pairwise.nil
      · rw [← hs']
        simp
    | cons p rest =>
      obtain ⟨hsucc, hfailc⟩ := hcons p rest hU
      have hpfil : p ∈ w.plans.filter (fun q => !hasRowB s.db q.id) := by
        rw [hU]
        exact List.mem_cons_self p rest
      have hpmem : p ∈ w.plans := (List.mem_filter.1 hpfil).1
      have hnorow : hasRowB s.db p.id = false := by
        have h2 := (List.mem_filter.1 hpfil).2
        cases h : hasRowB s.db p.id
        · rfl
        · rw [h] at h2
          cases h2
      cases hact : actionOk w p.up with
      | false =>
        rcases hfailc hact with ⟨e, b, s₂, heq⟩
        rw [heq] at hok
        dsimp only at hok
        exact absurd (congrArg Prod.fst hok) (by simp)
      | true =>
        rcases hsucc hact with ⟨t, c', ht1, ht2, heq⟩
        rw [heq] at hok
        dsimp only at hok
        cases rest with
        | nil =>
          rw [if_neg (by simp)] at hok
          have hs' := congrArg Prod.snd hok
          dsimp only at hs'
          rcases finishedOp_char w "migrate up finished"
            ⟨s.db ++ [⟨p.id, t, false, false⟩], c',
              s.log ++ [.migratedUp p.id]⟩ with ⟨fin, hfin⟩
          rw [hfin] at hs'
          refine ⟨[⟨p.id, t, false, false⟩], fin, ?_, ?_, ?_, ?_, ?_⟩
          · rw [← hs']
          · simp
          · intro r hr
            rcases List.mem_cons.1 hr with rfl | hr
            · exact ⟨rfl, rfl, ht1⟩
            · cases hr
          · simp
          · rw [← hs']
            simp
        | cons q rest' =>
          rw [if_pos (by simp)] at hok
          have hrows1 : ((s.db ++ [(⟨p.id, t, false, false⟩ : Row)]).map
              Row.id).Nodup := by
            rw [List.map_append]
            refine List.Nodup.append hrows (by simp) ?_
            intro a ha hb
            simp only [List.map_cons, List.map_nil, List.mem_singleton] at hb
            rw [hb] at ha
            exact not_mem_map_id_of_not_hasRow hnorow ha
          have hclean1 : ∀ r ∈ s.db ++ [(⟨p.id, t, false, false⟩ : Row)],
              r.failed = false := by
            intro r hr
            rcases List.mem_append.1 hr with h | h
            · exact hclean r h
            · simp only [List.mem_singleton] at h
              rw [h]
          obtain ⟨rowsNew', fin, hdb', hids', hflags', hpair', hlog'⟩ :=
            ih _ s' hrows1 hclean1 hok
          have hU1 : w.plans.filter
              (fun z => !hasRowB (s.db ++ [(⟨p.id, t, false, false⟩ : Row)]) z.id)
                = q :: rest' :=
            filter_unapplied_insert w hplans ⟨p.id, t, false, false⟩ rfl hU
          rw [hU1] at hids' hlog'
          refine ⟨⟨p.id, t, false, false⟩ :: rowsNew', fin, ?_, ?_, ?_, ?_, ?_⟩
          · rw [hdb']
            simp
          · simp [hids']
          · intro r hr
            rcases List.mem_cons.1 hr with rfl | hr
            · exact ⟨rfl, rfl, ht1⟩
            · obtain ⟨hf, hl, hc⟩ := hflags' r hr
              exact ⟨hf, hl, le_trans ht1 (le_trans (le_of_lt ht2) hc)⟩
          · refine List.pairwise_cons.2 ⟨?_, hpair'⟩
            intro r hr
            exact lt_of_lt_of_le ht2 (hflags' r hr).2.2
          · rw [hlog']
            simp

/-- C5: starting from an empty version table, a successful `Up` applies
every compiled plan exactly once, lowest id first: afterwards the
persisted ids are exactly the plan ids in ascending order, all rows are
clean and unlocked, the applied-at stamps are nondecreasing in
ascending id order, and the log records one "migrated up" line per plan
in plan order followed by the finished line. -/
theorem C5_up_from_empty (w : Worker) (s s' : WState)
    (hW : w.plans.Pairwise (fun a b => a.id < b.id))
    (hdb : s.db = [])
    (hok : Up w s = (.ok (), s')) :
    s'.db.map Row.id = w.plans.map MigrationPlan.id
    ∧ (∀ r ∈ s'.db, r.failed = false ∧ r.locked = false)
    ∧ s'.db.Pairwise (fun a b => a.id < b.id)
    ∧ s'.db.Pairwise (fun a b => a.appliedAt ≤ b.appliedAt)
    ∧ ∃ fin, s'.log = s.log
        ++ w.plans.map (fun p => LogEntry.migratedUp p.id) ++ [fin] := by
  unfold Up at hok
  obtain ⟨rowsNew, fin, hdb', hids, hflags, hpair, hlog⟩ :=
    upN_char w hW _ s s' (by rw [hdb]; simp) (by rw [hdb]; intro r hr; cases hr)
      hok
  have hfilter : w.plans.filter (fun q => !hasRowB s.db q.id) = w.plans := by
    refine List.filter_eq_self.2 (fun q _ => ?_)
    rw [hdb]
    rfl
  rw [hfilter] at hids hlog
  rw [hdb, List.nil_append] at hdb'
  refine ⟨?_, ?_, ?_, ?_, fin, ?_⟩
  · rw [hdb', hids]
  · intro r hr
    rw [hdb'] at hr
    exact ⟨(hflags r hr).1, (hflags r hr).2.1⟩
  · rw [hdb']
    have hplpair : (w.plans.map MigrationPlan.id).Pairwise (fun a b => a < b) :=
      List.pairwise_map.2 hW
    rw [← hids] at hplpair
    exact List.pairwise_map.1 hplpair
  · rw [hdb']
    exact hpair.imp le_of_lt
  · rw [hlog]

/-- Witness for C5 on a concrete two-plan schema run from an empty table. -/
theorem C5_up_from_empty_witness :
    (⟨[⟨1, 0, false, false⟩, ⟨2, 1, false, false⟩], 2,
        [.migratedUp 1, .migratedUp 2,
         .finishedMsg "migrate up finished" 2 false false]⟩ : WState).db.map Row.id
        = ([⟨1, ⟨"u1", none, none, none⟩, ⟨"d1", none, none, none⟩, []⟩,
            ⟨2, ⟨"u2", none, none, none⟩, ⟨"d2", none, none, none⟩, []⟩]
              : List MigrationPlan).map MigrationPlan.id
    ∧ (∀ r ∈ (⟨[⟨1, 0, false, false⟩, ⟨2, 1, false, false⟩], 2,
        [.migratedUp 1, .migratedUp 2,
         .finishedMsg "migrate up finished" 2 false false]⟩ : WState).db,
        r.failed = false ∧ r.locked = false)
    ∧ (⟨[⟨1, 0, false, false⟩, ⟨2, 1, false, false⟩], 2,
        [.migratedUp 1, .migratedUp 2,
         .finishedMsg "migrate up finished" 2 false false]⟩ : WState).db.Pairwise
        (fun a b => a.id < b.id)
    ∧ (⟨[⟨1, 0, false, false⟩, ⟨2, 1, false, false⟩], 2,
        [.migratedUp 1, .migratedUp 2,
         .finishedMsg "migrate up finished" 2 false false]⟩ : WState).db.Pairwise
        (fun a b => a.appliedAt ≤ b.appliedAt)
    ∧ ∃ fin, (⟨[⟨1, 0, false, false⟩, ⟨2, 1, false, false⟩], 2,
        [.migratedUp 1, .migratedUp 2,
         .finishedMsg "migrate up finished" 2 false false]⟩ : WState).log
        = (⟨[], 0, []⟩ : WState).log
          ++ ([⟨1, ⟨"u1", none, none, none⟩, ⟨"d1", none, none, none⟩, []⟩,
              ⟨2, ⟨"u2", none, none, none⟩, ⟨"d2", none, none, none⟩, []⟩]
                : List MigrationPlan).map (fun p => LogEntry.migratedUp p.id)
          ++ [fin] :=
  C5_up_from_empty
    ⟨[1, 2], [⟨1, ⟨"u1", none, none, none⟩, ⟨"d1", none, none, none⟩, []⟩,
      ⟨2, ⟨"u2", none, none, none⟩, ⟨"d2", none, none, none⟩, []⟩],
      true, fun _ => true⟩
    ⟨[], 0, []⟩
    ⟨[⟨1, 0, false, false⟩, ⟨2, 1, false, false⟩], 2,
      [.migratedUp 1, .migratedUp 2,
       .finishedMsg "migrate up finished" 2 false false]⟩
    (by decide) rfl rfl

/-- A table whose every row belongs to a plan is empty when no plan has
a row. -/
theorem db_nil_of_no_applied (w : Worker) (rows : List Row)
    (hsub : ∀ r ∈ rows, r.id ∈ w.plans.map MigrationPlan.id)
    (hA : w.plans.filter (fun q => hasRowB rows q.id) = []) :
    rows = [] := by
  cases rows with
  | nil => rfl
  | cons r rows' =>
    exfalso
    rcases List.mem_map.1 (hsub r (List.mem_cons_self r rows')) with ⟨q, hq, hqid⟩
    have hqfil : q ∈ w.plans.filter (fun z => hasRowB (r :: rows') z.id) := by
      refine List.mem_filter.2 ⟨hq, ?_⟩
      unfold hasRowB
      rw [List.any_cons]
      simp [hqid]
    rw [hA] at hqfil
    cases hqfil

/-- The head of the reversed applied list bounds every persisted row id. -/
theorem top_max_of_applied (w : Worker) (rows : List Row)
    (hsub : ∀ r ∈ rows, r.id ∈ w.plans.map MigrationPlan.id)
    (hW : w.plans.Pairwise (fun a b => a.id < b.id))
    {p : MigrationPlan} {rest : List MigrationPlan}
    (hA : (w.plans.filter (fun q => hasRowB rows q.id)).reverse = p :: rest) :
    ∀ r ∈ rows, r.id ≤ p.id := by
  intro r hr
  rcases List.mem_map.1 (hsub r hr) with ⟨q, hq, hqid⟩
  have hqfil : q ∈ (w.plans.filter (fun z => hasRowB rows z.id)).reverse := by
    refine List.mem_reverse.2 (List.mem_filter.2 ⟨hq, ?_⟩)
    unfold hasRowB
    rw [List.any_eq_true]
    exact ⟨r, hr, by simp [hqid]⟩
  rw [hA] at hqfil
  have hdesc : (p :: rest).Pairwise (fun a b => b.id < a.id) := by
    rw [← hA, List.pairwise_reverse]
    exact hW.filter _
  rw [← hqid]
  rcases List.mem_cons.1 hqfil with rfl | hq2
  · exact le_refl _
  · exact le_of_lt ((List.pairwise_cons.1 hdesc).1 q hq2)

/-- The `Down` loop on a clean table, conditional on overall success:
with no locked row the table is emptied, the applied plans reverted
highest id first; with locked rows it stops at the highest locked
version, reverting exactly the rows above it. -/
theorem downN_char (w : Worker)
    (hW : w.plans.Pairwise (fun a b => a.id < b.id)) :
    ∀ fuel s s',
      (s.db.map Row.id).Nodup →
      (∀ r ∈ s.db, r.id ∈ w.plans.map MigrationPlan.id) →
      (∀ r ∈ s.db, r.failed = false) →
      downN w fuel s = (.ok (), s') →
      ((∀ r ∈ s.db, r.locked = false) →
        s'.db = [] ∧ ∃ fin, s'.log = s.log
          ++ (w.plans.filter (fun q => hasRowB s.db q.id)).reverse.map
              (fun q => LogEntry.migratedDown q.id) ++ [fin])
      ∧ (∀ r0 ∈ s.db, r0.locked = true →
          (∀ r ∈ s.db, r.locked = true → r.id ≤ r0.id) →
          s'.db = s.db.filter (fun r => decide (r.id ≤ r0.id))
          ∧ ∃ fin, s'.log = s.log
            ++ (w.plans.filter (fun q => hasRowB s.db q.id
                  && decide (r0.id < q.id))).reverse.map
                (fun q => LogEntry.migratedDown q.id)
            ++ [.lockedSkip r0.id, fin]) := by
  have hplans := nodup_ids_of_sorted w hW
  intro fuel
  induction fuel with
  | zero =>
    intro s s' _ _ _ hok
    rw [show downN w 0 s = (.error .fuelExhausted, s) from rfl] at hok
    exact absurd (congrArg Prod.fst hok) (by simp)
  | succ fuel ih =>
    intro s s' hrows hsub hclean hok
    rw [downN_succ] at hok
    obtain ⟨hnil, hcons⟩ := downOne_char w s hW hrows hclean
    cases hA : (w.plans.filter (fun q => hasRowB s.db q.id)).reverse with
    | nil =>
      have hAnil : w.plans.filter (fun q => hasRowB s.db q.id) = [] :=
        List.reverse_eq_nil_iff.1 hA
      have hdbnil := db_nil_of_no_applied w s.db hsub hAnil
      rw [hnil hAnil] at hok
      dsimp only at hok
      rw [if_neg (by simp)] at hok
      have hs' := congrArg Prod.snd hok
      dsimp only at hs'
      rcases finishedOp_char w "migrate down finished" s with ⟨fin, hfin⟩
      rw [hfin] at hs'
      constructor
      · intro _
        refine ⟨?_, fin, ?_⟩
        · rw [← hs']
          exact hdbnil
        · rw [← hs']
          simp
      · intro r0 hr0 _ _
        rw [hdbnil] at hr0
        cases hr0
    | cons p rest =>
      have hpmem_rev : p ∈ (w.plans.filter
          (fun q => hasRowB s.db q.id)).reverse := by
        rw [hA]
        exact List.mem_cons_self p rest
      have hpfil := List.mem_reverse.1 hpmem_rev
      have hpmem : p ∈ w.plans := (List.mem_filter.1 hpfil).1
      have hprow : hasRowB s.db p.id = true := (List.mem_filter.1 hpfil).2
      obtain ⟨r_p, hr_p, hr_pid⟩ : ∃ r ∈ s.db, r.id = p.id := by
        have h2 := hprow
        unfold hasRowB at h2
        rw [List.any_eq_true] at h2
        rcases h2 with ⟨r, hr, hb⟩
        exact ⟨r, hr, by simpa using hb⟩
      have htop := top_max_of_applied w s.db hsub hW hA
      obtain ⟨hskip, hdel, hfailc⟩ := hcons p rest hA r_p hr_p hr_pid
      cases hlk : r_p.locked with
      | true =>
        rw [hskip hlk] at hok
        dsimp only at hok
        rw [if_neg (by simp)] at hok
        have hs' := congrArg Prod.snd hok
        dsimp only at hs'
        rcases finishedOp_char w "migrate down finished"
          { s with log := s.log ++ [.lockedSkip p.id] } with ⟨fin, hfin⟩
        rw [hfin] at hs'
        constructor
        · intro hall
          rw [hall r_p hr_p] at hlk
          cases hlk
        · intro r0 hr0 hlock0 hmax0
          have hr0le : r0.id ≤ p.id := htop r0 hr0
          have hple : p.id ≤ r0.id := by
            rw [← hr_pid]
            exact hmax0 r_p hr_p hlk
          have hr0eq : r0.id = p.id := le_antisymm hr0le hple
          refine ⟨?_, fin, ?_⟩
          · rw [← hs']
            exact (List.filter_eq_self.2 (fun r hr => by
              rw [hr0eq]
              simpa using htop r hr)).symm
          · rw [← hs']
            have hemp : w.plans.filter
                (fun q => hasRowB s.db q.id && decide (r0.id < q.id)) = [] := by
              rw [List.filter_eq_nil_iff]
              intro q hq hcon
              rw [Bool.and_eq_true] at hcon
              obtain ⟨r', hr', hr'id⟩ : ∃ r ∈ s.db, r.id = q.id := by
                have h2 := hcon.1
                unfold hasRowB at h2
                rw [List.any_eq_true] at h2
                rcases h2 with ⟨r, hr, hb⟩
                exact ⟨r, hr, by simpa using hb⟩
              have h3 : q.id ≤ p.id := by
                rw [← hr'id]
                exact htop r' hr'
              have h4 : r0.id < q.id := of_decide_eq_true hcon.2
              rw [hr0eq] at h4
              exact absurd h4 (not_lt_of_le h3)
            rw [hemp, hr0eq]
            simp
      | false =>
        cases hact : actionOk w p.down with
        | false =>
          rcases hfailc hlk hact with ⟨e, b, s₂, heq⟩
          rw [heq] at hok
          dsimp only at hok
          exact absurd (congrArg Prod.fst hok) (by simp)
        | true =>
          rw [hdel hlk hact] at hok
          dsimp only at hok
          have hrows1 : ((rowsDelete s.db p.id).map Row.id).Nodup :=
            ((List.filter_sublist s.db).map Row.id).nodup hrows
          have hsub1 : ∀ r ∈ rowsDelete s.db p.id,
              r.id ∈ w.plans.map MigrationPlan.id :=
            fun r hr => hsub r (List.mem_of_mem_filter hr)
          have hclean1 : ∀ r ∈ rowsDelete s.db p.id, r.failed = false :=
            fun r hr => hclean r (List.mem_of_mem_filter hr)
          have hXeq : w.plans.filter (fun q => hasRowB s.db q.id)
              = rest.reverse ++ [p] := by
            have h2 := congrArg List.reverse hA
            rw [List.reverse_reverse] at h2
            rw [h2, List.reverse_cons]
          have hA1 : w.plans.filter
              (fun q => hasRowB (rowsDelete s.db p.id) q.id) = rest.reverse :=
            filter_applied_delete w hplans hXeq
          cases rest with
          | nil =>
            rw [if_neg (by simp)] at hok
            have hs' := congrArg Prod.snd hok
            dsimp only at hs'
            rcases finishedOp_char w "migrate down finished"
              ⟨rowsDelete s.db p.id, s.clock, s.log ++ [.migratedDown p.id]⟩
              with ⟨fin, hfin⟩
            rw [hfin] at hs'
            have hdb1nil := db_nil_of_no_applied w (rowsDelete s.db p.id) hsub1
              (by simpa using hA1)
            constructor
            · intro hall
              refine ⟨?_, fin, ?_⟩
              · rw [← hs']
                exact hdb1nil
              · rw [← hs']
                simp
            · intro r0 hr0 hlock0 hmax0
              exfalso
              rcases List.mem_map.1 (hsub r0 hr0) with ⟨q, hq, hqid⟩
              have hqfil : q ∈ w.plans.filter
                  (fun z => hasRowB s.db z.id) := by
                refine List.mem_filter.2 ⟨hq, ?_⟩
                unfold hasRowB
                rw [List.any_eq_true]
                exact ⟨r0, hr0, by simp [hqid]⟩
              rw [hXeq] at hqfil
              simp only [List.reverse_nil, List.nil_append,
                List.mem_singleton] at hqfil
              have hr0id : r0.id = p.id := by rw [← hqid, hqfil]
              have hr0rp := eq_row_of_id_eq hrows hr0 hr_p
                (by rw [hr0id, hr_pid])
              rw [hr0rp, hlk] at hlock0
              cases hlock0
          | cons q2 rest2 =>
            rw [if_pos (by simp)] at hok
            obtain ⟨IH1, IH2⟩ := ih
              ⟨rowsDelete s.db p.id, s.clock, s.log ++ [.migratedDown p.id]⟩
              s' hrows1 hsub1 hclean1 hok
            dsimp only at IH1 IH2
            have hA1' : (w.plans.filter
                (fun z => hasRowB (rowsDelete s.db p.id) z.id)).reverse
                  = q2 :: rest2 := by
              rw [hA1]
              exact List.reverse_reverse _
            constructor
            · intro hall
              have hall1 : ∀ r ∈ rowsDelete s.db p.id, r.locked = false :=
                fun r hr => hall r (List.mem_of_mem_filter hr)
              obtain ⟨hdbnil, fin, hlog1⟩ := IH1 hall1
              refine ⟨hdbnil, fin, ?_⟩
              rw [hlog1, hA1']
              simp
            · intro r0 hr0 hlock0 hmax0
              have hr0ne : r0.id ≠ p.id := by
                intro he
                have hr0rp := eq_row_of_id_eq hrows hr0 hr_p
                  (by rw [he, hr_pid])
                rw [hr0rp, hlk] at hlock0
                cases hlock0
              have hr0lt : r0.id < p.id := lt_of_le_of_ne (htop r0 hr0) hr0ne
              have hr0mem1 : r0 ∈ rowsDelete s.db p.id := by
                refine List.mem_filter.2 ⟨hr0, ?_⟩
                simpa using hr0ne
              have hmax1 : ∀ r ∈ rowsDelete s.db p.id,
                  r.locked = true → r.id ≤ r0.id :=
                fun r hr hl => hmax0 r (List.mem_of_mem_filter hr) hl
              obtain ⟨hdb2, fin, hlog2⟩ := IH2 r0 hr0mem1 hlock0 hmax1
              have hsplit : w.plans.filter
                  (fun q => hasRowB s.db q.id && decide (r0.id < q.id))
                  = w.plans.filter (fun q => hasRowB (rowsDelete s.db p.id) q.id
                      && decide (r0.id < q.id)) ++ [p] := by
                have hsplit0 := ascending_top_split MigrationPlan.id
                  (hW.filter
                    (fun q => hasRowB s.db q.id && decide (r0.id < q.id)))
                  (List.mem_filter.2 ⟨hpmem, by
                    rw [hprow]
                    simpa using hr0lt⟩)
                  (by
                    intro a ha
                    have h2 := (List.mem_filter.1 ha).2
                    rw [Bool.and_eq_true] at h2
                    obtain ⟨r', hr', hr'id⟩ : ∃ r ∈ s.db, r.id = a.id := by
                      have h3 := h2.1
                      unfold hasRowB at h3
                      rw [List.any_eq_true] at h3
                      rcases h3 with ⟨r, hr, hb⟩
                      exact ⟨r, hr, by simpa using hb⟩
                    rw [← hr'id]
                    exact htop r' hr')
                rw [hsplit0, List.filter_filter]
                congr 1
                refine List.filter_congr (fun q hq => ?_)
                rw [hasRowB_delete]
                cases h1 : hasRowB s.db q.id <;>
                  cases h2 : (q.id == p.id) <;>
                  cases h3 : decide (r0.id < q.id) <;> rfl
              refine ⟨?_, fin, ?_⟩
              · rw [hdb2]
                have hdd : rowsDelete s.db p.id
                    = s.db.filter (fun r => r.id != p.id) := rfl
                rw [hdd, List.filter_filter]
                refine List.filter_congr (fun r hr => ?_)
                by_cases h1 : r.id ≤ r0.id
                · have h2 : r.id ≠ p.id := ne_of_lt (lt_of_le_of_lt h1 hr0lt)
                  simp [h1, h2]
                · simp [h1]
              · rw [hlog2, hsplit]
                simp

/-- C6: from a fully-applied clean table, a successful `Down` reverts the
applied plans highest id first and empties the table — unless some row
is locked, in which case it reverts exactly the versions above the
highest locked id and stops there with a "locked" log line (no error),
leaving that version and every version below it applied. -/
theorem C6_down_behaviour (w : Worker) (s s' : WState)
    (hW : w.plans.Pairwise (fun a b => a.id < b.id))
    (hrows : (s.db.map Row.id).Nodup)
    (hsub : ∀ r ∈ s.db, r.id ∈ w.plans.map MigrationPlan.id)
    (hfull : ∀ p ∈ w.plans, hasRowB s.db p.id = true)
    (hclean : ∀ r ∈ s.db, r.failed = false)
    (hok : Down w s = (.ok (), s')) :
    ((∀ r ∈ s.db, r.locked = false) →
      s'.db = [] ∧ ∃ fin, s'.log = s.log
        ++ w.plans.reverse.map (fun p => LogEntry.migratedDown p.id) ++ [fin])
    ∧ (∀ r0 ∈ s.db, r0.locked = true →
        (∀ r ∈ s.db, r.locked = true → r.id ≤ r0.id) →
        s'.db = s.db.filter (fun r => decide (r.id ≤ r0.id))
        ∧ (∀ p ∈ w.plans, p.id ≤ r0.id → hasRowB s'.db p.id = true)
        ∧ ∃ fin, s'.log = s.log
          ++ (w.plans.filter (fun p => decide (r0.id < p.id))).reverse.map
              (fun p => LogEntry.migratedDown p.id)
          ++ [.lockedSkip r0.id, fin]) := by
  unfold Down at hok
  obtain ⟨D1, D2⟩ := downN_char w hW _ s s' hrows hsub hclean hok
  have hfilter : w.plans.filter (fun q => hasRowB s.db q.id) = w.plans :=
    List.filter_eq_self.2 (fun q hq => hfull q hq)
  constructor
  · intro hall
    obtain ⟨hdbnil, fin, hlog⟩ := D1 hall
    refine ⟨hdbnil, fin, ?_⟩
    rw [hlog, hfilter]
  · intro r0 hr0 hlock0 hmax0
    obtain ⟨hdb2, fin, hlog2⟩ := D2 r0 hr0 hlock0 hmax0
    refine ⟨hdb2, ?_, fin, ?_⟩
    · intro p hp hple
      obtain ⟨r, hr, hrid⟩ : ∃ r ∈ s.db, r.id = p.id := by
        have h2 := hfull p hp
        unfold hasRowB at h2
        rw [List.any_eq_true] at h2
        rcases h2 with ⟨r, hr, hb⟩
        exact ⟨r, hr, by simpa using hb⟩
      rw [hdb2]
      unfold hasRowB
      rw [List.any_eq_true]
      refine ⟨r, List.mem_filter.2 ⟨hr, by rw [hrid]; simpa using hple⟩,
        by simp [hrid]⟩
    · rw [hlog2]
      have hfeq : w.plans.filter
          (fun q => hasRowB s.db q.id && decide (r0.id < q.id))
            = w.plans.filter (fun q => decide (r0.id < q.id)) :=
        List.filter_congr (fun q hq => by rw [hfull q hq]; simp)
      rw [hfeq]

/-- Witness for C6 on a concrete three-plan schema, fully applied with
version 2 locked: `Down` reverts only version 3 and stops at 2. -/
theorem C6_down_behaviour_witness :
    (⟨[⟨1, 0, false, false⟩, ⟨2, 1, false, true⟩], 5,
        [.migratedDown 3, .lockedSkip 2,
         .finishedMsg "migrate down finished" 2 true false]⟩ : WState).db
      = ([⟨1, 0, false, false⟩, ⟨2, 1, false, true⟩, ⟨3, 2, false, false⟩]
          : List Row).filter (fun r => decide (r.id ≤ (2 : Int)))
    ∧ hasRowB (⟨[⟨1, 0, false, false⟩, ⟨2, 1, false, true⟩], 5,
        [.migratedDown 3, .lockedSkip 2,
         .finishedMsg "migrate down finished" 2 true false]⟩ : WState).db 1 = true
    ∧ ∃ fin, (⟨[⟨1, 0, false, false⟩, ⟨2, 1, false, true⟩], 5,
        [.migratedDown 3, .lockedSkip 2,
         .finishedMsg "migrate down finished" 2 true false]⟩ : WState).log
      = ([] : List LogEntry)
        ++ (([⟨1, ⟨"u1", none, none, none⟩, ⟨"d1", none, none, none⟩, []⟩,
             ⟨2, ⟨"u2", none, none, none⟩, ⟨"d2", none, none, none⟩, []⟩,
             ⟨3, ⟨"u3", none, none, none⟩, ⟨"d3", none, none, none⟩, []⟩]
               : List MigrationPlan).filter
            (fun p => decide ((2 : Int) < p.id))).reverse.map
            (fun p => LogEntry.migratedDown p.id)
        ++ [.lockedSkip 2, fin] := by
  have h := C6_down_behaviour
    ⟨[1, 2, 3],
      [⟨1, ⟨"u1", none, none, none⟩, ⟨"d1", none, none, none⟩, []⟩,
       ⟨2, ⟨"u2", none, none, none⟩, ⟨"d2", none, none, none⟩, []⟩,
       ⟨3, ⟨"u3", none, none, none⟩, ⟨"d3", none, none, none⟩, []⟩],
      true, fun _ => true⟩
    ⟨[⟨1, 0, false, false⟩, ⟨2, 1, false, true⟩, ⟨3, 2, false, false⟩], 5, []⟩
    ⟨[⟨1, 0, false, false⟩, ⟨2, 1, false, true⟩], 5,
      [.migratedDown 3, .lockedSkip 2,
       .finishedMsg "migrate down finished" 2 true false]⟩
    (by decide) (by decide) (by decide) (by decide) (by decide) rfl
  obtain ⟨hdb, hhas, fin, hlog⟩ :=
    h.2 ⟨2, 1, false, true⟩ (by decide) rfl (by decide)
  exact ⟨hdb, hhas ⟨1, ⟨"u1", none, none, none⟩, ⟨"d1", none, none, none⟩, []⟩
    (by decide) (by decide), fin, hlog⟩

/-- `pendingDown` counts the applied plans above the target. -/
theorem pendingDown_eq (w : Worker) (rows : List Row) (t : VersionID)
    (hW : w.plans.Pairwise (fun a b => a.id < b.id))
    (hrows : (rows.map Row.id).Nodup) :
    pendingDown (getVersionSummaryAllowFailed w rows) t
      = ((w.plans.filter (fun q => hasRowB rows q.id)).filter
          (fun q => decide (t < q.id))).length := by
  unfold pendingDown
  rw [summary_applied_eq w rows hW hrows]
  have hdesc : (w.plans.filter (fun q => hasRowB rows q.id)).reverse.Pairwise
      (fun a b : MigrationPlan => b.id < a.id) := by
    rw [List.pairwise_reverse]
    exact hW.filter _
  have hclose : ∀ a b : MigrationPlan, b.id < a.id →
      decide (t < b.id) = true → decide (t < a.id) = true :=
    fun a b hab hb => decide_eq_true (lt_trans (of_decide_eq_true hb) hab)
  rw [takeWhile_eq_filter_of_pairwise hdesc _ hclose]
  exact ((List.reverse_perm _).filter _).length_eq

/-- `pendingUp` counts the unapplied plans at or below the target. -/
theorem pendingUp_eq (w : Worker) (rows : List Row) (t : VersionID)
    (hW : w.plans.Pairwise (fun a b => a.id < b.id))
    (hrows : (rows.map Row.id).Nodup) :
    pendingUp (getVersionSummaryAllowFailed w rows) t
      = ((w.plans.filter (fun q => !hasRowB rows q.id)).filter
          (fun q => decide (q.id ≤ t))).length := by
  unfold pendingUp
  rw [summary_unapplied_eq w rows hW hrows]
  have hasc := hW.filter (fun q => !hasRowB rows q.id)
  have hclose : ∀ a b : MigrationPlan, a.id < b.id →
      decide (b.id ≤ t) = true → decide (a.id ≤ t) = true :=
    fun a b hab hb =>
      decide_eq_true (le_trans (le_of_lt hab) (of_decide_eq_true hb))
  rw [takeWhile_eq_filter_of_pairwise hasc _ hclose]

theorem count_above_delete (w : Worker)
    (hplans : (w.plans.map MigrationPlan.id).Nodup)
    {rows : List Row} {p : MigrationPlan} (hpmem : p ∈ w.plans)
    (hrow : hasRowB rows p.id = true) {t : VersionID} (ht : t < p.id) :
    ((w.plans.filter (fun q => hasRowB (rowsDelete rows p.id) q.id)).filter
        (fun q => decide (t < q.id))).length + 1
      = ((w.plans.filter (fun q => hasRowB rows q.id)).filter
          (fun q => decide (t < q.id))).length := by
  have h1 : (w.plans.filter
        (fun q => hasRowB (rowsDelete rows p.id) q.id)).filter
          (fun q => decide (t < q.id))
      = ((w.plans.filter (fun q => hasRowB rows q.id)).filter
          (fun q => decide (t < q.id))).filter
            (fun q => !(q.id == p.id)) := by
    rw [List.filter_filter, List.filter_filter, List.filter_filter]
    refine List.filter_congr (fun q hq => ?_)
    rw [hasRowB_delete]
    cases h1 : hasRowB rows q.id <;> cases h2 : (q.id == p.id) <;>
      cases h3 : decide (t < q.id) <;> rfl
  rw [h1]
  refine length_filter_ne_key MigrationPlan.id ?_ ?_
  · exact ((List.filter_sublist _).map MigrationPlan.id).nodup
      (plans_filter_ids_nodup w hplans _)
  · exact List.mem_filter.2
      ⟨List.mem_filter.2 ⟨hpmem, hrow⟩, decide_eq_true ht⟩

theorem count_below_delete (w : Worker) {rows : List Row} {p : MigrationPlan}
    {t : VersionID} (ht : t < p.id) :
    (w.plans.filter (fun q => !hasRowB (rowsDelete rows p.id) q.id)).filter
        (fun q => decide (q.id ≤ t))
      = (w.plans.filter (fun q => !hasRowB rows q.id)).filter
          (fun q => decide (q.id ≤ t)) := by
  rw [List.filter_filter, List.filter_filter]
  refine List.filter_congr (fun q hq => ?_)
  rw [hasRowB_delete]
  by_cases h1 : q.id ≤ t
  · have h2 : (q.id == p.id) = false := by
      simp [ne_of_lt (lt_of_le_of_lt h1 ht)]
    rw [h2]
    simp [h1]
  · simp [h1]

theorem count_below_insert (w : Worker)
    (hplans : (w.plans.map MigrationPlan.id).Nodup)
    {rows : List Row} {p : MigrationPlan} (hpmem : p ∈ w.plans)
    (r : Row) (hrid : r.id = p.id)
    (hnorow : hasRowB rows p.id = false) {t : VersionID} (ht : p.id ≤ t) :
    ((w.plans.filter (fun q => !hasRowB (rows ++ [r]) q.id)).filter
        (fun q => decide (q.id ≤ t))).length + 1
      = ((w.plans.filter (fun q => !hasRowB rows q.id)).filter
          (fun q => decide (q.id ≤ t))).length := by
  have h1 : (w.plans.filter (fun q => !hasRowB (rows ++ [r]) q.id)).filter
        (fun q => decide (q.id ≤ t))
      = ((w.plans.filter (fun q => !hasRowB rows q.id)).filter
          (fun q => decide (q.id ≤ t))).filter
            (fun q => !(q.id == p.id)) := by
    rw [List.filter_filter, List.filter_filter, List.filter_filter]
    refine List.filter_congr (fun q hq => ?_)
    rw [hasRowB_append_single, hrid]
    have hbe : (p.id == q.id) = (q.id == p.id) := by
      by_cases h : p.id = q.id
      · simp [h]
      · simp [h, Ne.symm h]
    rw [hbe]
    cases h1 : hasRowB rows q.id <;> cases h2 : (q.id == p.id) <;>
      cases h3 : decide (q.id ≤ t) <;> rfl
  rw [h1]
  refine length_filter_ne_key MigrationPlan.id ?_ ?_
  · exact ((List.filter_sublist _).map MigrationPlan.id).nodup
      (plans_filter_ids_nodup w hplans _)
  · refine List.mem_filter.2
      ⟨List.mem_filter.2 ⟨hpmem, by rw [hnorow]; rfl⟩, decide_eq_true ht⟩

theorem count_above_insert (w : Worker) {rows : List Row} (r : Row)
    {t : VersionID} (ht : r.id ≤ t) :
    (w.plans.filter (fun q => hasRowB (rows ++ [r]) q.id)).filter
        (fun q => decide (t < q.id))
      = (w.plans.filter (fun q => hasRowB rows q.id)).filter
          (fun q => decide (t < q.id)) := by
  rw [List.filter_filter, List.filter_filter]
  refine List.filter_congr (fun q hq => ?_)
  rw [hasRowB_append_single]
  by_cases h1 : t < q.id
  · have h2 : (r.id == q.id) = false := by
      simp [ne_of_lt (lt_of_le_of_lt ht h1)]
    rw [h2]
    simp [h1]
  · simp [h1]

theorem top_max_of_filter (w : Worker)
    (hW : w.plans.Pairwise (fun a b => a.id < b.id))
    {pred : MigrationPlan → Bool} {p : MigrationPlan}
    {rest : List MigrationPlan}
    (hA : (w.plans.filter pred).reverse = p :: rest) :
    ∀ q ∈ w.plans.filter pred, q.id ≤ p.id := by
  intro q hq
  have hdesc : (p :: rest).Pairwise (fun a b : MigrationPlan => b.id < a.id) := by
    rw [← hA, List.pairwise_reverse]
    exact hW.filter _
  have hq' : q ∈ p :: rest := by
    rw [← hA]
    exact List.mem_reverse.2 hq
  rcases List.mem_cons.1 hq' with rfl | hq2
  · exact le_refl _
  · exact le_of_lt ((List.pairwise_cons.1 hdesc).1 q hq2)

theorem head_min_of_filter (w : Worker)
    (hW : w.plans.Pairwise (fun a b => a.id < b.id))
    {pred : MigrationPlan → Bool} {q : MigrationPlan}
    {rest : List MigrationPlan}
    (hU : w.plans.filter pred = q :: rest) :
    ∀ z ∈ w.plans.filter pred, q.id ≤ z.id := by
  intro z hz
  have hasc : (q :: rest).Pairwise (fun a b : MigrationPlan => a.id < b.id) := by
    rw [← hU]
    exact hW.filter _
  rw [hU] at hz
  rcases List.mem_cons.1 hz with rfl | hz
  · exact le_refl _
  · exact le_of_lt ((List.pairwise_cons.1 hasc).1 z hz)

/-- When the lock check passes and the top applied plan sits above the
target, the top plan's row is unlocked. -/
theorem checkLocked_top_unlocked (w : Worker) (rows : List Row) (t : VersionID)
    (hW : w.plans.Pairwise (fun a b => a.id < b.id))
    (hrows : (rows.map Row.id).Nodup)
    {p : MigrationPlan} {rest : List MigrationPlan}
    (hA : (w.plans.filter (fun q => hasRowB rows q.id)).reverse = p :: rest)
    (ht : t < p.id)
    (hclok : (getVersionSummaryAllowFailed w rows).checkLocked t = .ok ())
    {r_p : Row} (hr_p : r_p ∈ rows) (hr_pid : r_p.id = p.id) :
    r_p.locked = false := by
  have hplans := nodup_ids_of_sorted w hW
  unfold VersionSummary.checkLocked at hclok
  rw [summary_applied_eq w rows hW hrows, hA] at hclok
  unfold checkLockedFrom at hclok
  rw [if_neg (not_le_of_lt ht)] at hclok
  by_cases hl : (vmapGetD (getVersionSummaryAllowFailed w rows).vmap p.id).Locked
      = true
  · rw [if_pos hl] at hclok
    exact absurd hclok (by simp)
  · have h2 := vmapGetD_locked_of_row w rows hrows hplans hr_p
    rw [hr_pid] at h2
    have h3 : (vmapGetD (getVersionSummaryAllowFailed w rows).vmap p.id).Locked
        = false := Bool.eq_false_iff.2 hl
    rw [h2] at h3
    exact h3

/-- After a successful `Goto` loop the table is clean and well-formed
and both pending counts for the target are zero. -/
theorem gotoN_post (w : Worker) (t : VersionID)
    (hW : w.plans.Pairwise (fun a b => a.id < b.id)) :
    ∀ fuel s s',
      (s.db.map Row.id).Nodup →
      (∀ r ∈ s.db, r.id ∈ w.plans.map MigrationPlan.id) →
      (∀ r ∈ s.db, r.failed = false) →
      gotoN w t fuel s = (.ok (), s') →
      (s'.db.map Row.id).Nodup
      ∧ (∀ r ∈ s'.db, r.id ∈ w.plans.map MigrationPlan.id)
      ∧ (∀ r ∈ s'.db, r.failed = false)
      ∧ ((w.plans.filter (fun q => hasRowB s'.db q.id)).filter
          (fun q => decide (t < q.id))).length = 0
      ∧ ((w.plans.filter (fun q => !hasRowB s'.db q.id)).filter
          (fun q => decide (q.id ≤ t))).length = 0 := by
  have hplans := nodup_ids_of_sorted w hW
  intro fuel
  induction fuel with
  | zero =>
    intro s s' _ _ _ hok
    rw [show gotoN w t 0 s = (.error .fuelExhausted, s) from rfl] at hok
    exact absurd (congrArg Prod.fst hok) (by simp)
  | succ fuel ih =>
    intro s s' hrows hsub hclean hok
    rw [gotoN_succ] at hok
    have hfail0 : s.db.any (fun r => r.failed) = false := by
      rw [List.any_eq_false]
      intro r hr
      simp [hclean r hr]
    have hsum := getVersionSummary_ok w s.db hrows hplans hfail0
    cases hcl : (getVersionSummaryAllowFailed w s.db).checkLocked t with
    | error e =>
      have hgoto : gotoOne w t s = (.error e, false, s) := by
        unfold gotoOne
        rw [hsum]
        dsimp only
        rw [hcl]
      rw [hgoto] at hok
      dsimp only at hok
      exact absurd (congrArg Prod.fst hok) (by simp)
    | ok u =>
      cases u
      have hdccnt := pendingDown_eq w s.db t hW hrows
      have huccnt := pendingUp_eq w s.db t hW hrows
      by_cases hdc : 0 < pendingDown (getVersionSummaryAllowFailed w s.db) t
      · -- a down step runs
        cases hA : (w.plans.filter (fun q => hasRowB s.db q.id)).reverse with
        | nil =>
          exfalso
          have hXnil : w.plans.filter (fun q => hasRowB s.db q.id) = [] :=
            List.reverse_eq_nil_iff.1 hA
          rw [hdccnt, hXnil] at hdc
          simp at hdc
        | cons p rest =>
          obtain ⟨z, hz⟩ : ∃ z, z ∈ (w.plans.filter
              (fun q => hasRowB s.db q.id)).filter
                (fun q => decide (t < q.id)) := by
            rw [hdccnt] at hdc
            exact List.exists_mem_of_length_pos hdc
          have hzmem := List.mem_of_mem_filter hz
          have hzgt : t < z.id := of_decide_eq_true (List.mem_filter.1 hz).2
          have htp : t < p.id :=
            lt_of_lt_of_le hzgt (top_max_of_filter w hW hA z hzmem)
          have hpfil : p ∈ w.plans.filter (fun q => hasRowB s.db q.id) := by
            refine List.mem_reverse.1 ?_
            rw [hA]
            exact List.mem_cons_self p rest
          have hpmem : p ∈ w.plans := (List.mem_filter.1 hpfil).1
          have hprow : hasRowB s.db p.id = true := (List.mem_filter.1 hpfil).2
          obtain ⟨r_p, hr_p, hr_pid⟩ : ∃ r ∈ s.db, r.id = p.id := by
            have h2 := hprow
            unfold hasRowB at h2
            rw [List.any_eq_true] at h2
            rcases h2 with ⟨r, hr, hb⟩
            exact ⟨r, hr, by simpa using hb⟩
          have hlk := checkLocked_top_unlocked w s.db t hW hrows hA htp hcl
            hr_p hr_pid
          obtain ⟨hnilD, hconsD⟩ := downOne_char w s hW hrows hclean
          obtain ⟨hskip, hdel, hfailc⟩ := hconsD p rest hA r_p hr_p hr_pid
          cases hact : actionOk w p.down with
          | false =>
            rcases hfailc hlk hact with ⟨e, b, s₂, heq⟩
            have hgoto : gotoOne w t s = (.error e, false, s₂) := by
              unfold gotoOne
              rw [hsum]
              dsimp only
              rw [hcl]
              dsimp only
              rw [if_pos hdc, heq]
            rw [hgoto] at hok
            dsimp only at hok
            exact absurd (congrArg Prod.fst hok) (by simp)
          | true =>
            have hgoto : gotoOne w t s = (.ok (),
                decide (0 < pendingUp (getVersionSummaryAllowFailed w s.db) t
                  + (pendingDown (getVersionSummaryAllowFailed w s.db) t - 1)),
                ⟨rowsDelete s.db p.id, s.clock,
                  s.log ++ [.migratedDown p.id]⟩) := by
              unfold gotoOne
              rw [hsum]
              dsimp only
              rw [hcl]
              dsimp only
              rw [if_pos hdc, hdel hlk hact]
            rw [hgoto] at hok
            dsimp only at hok
            have hrows1 : ((rowsDelete s.db p.id).map Row.id).Nodup :=
              ((List.filter_sublist s.db).map Row.id).nodup hrows
            have hsub1 : ∀ r ∈ rowsDelete s.db p.id,
                r.id ∈ w.plans.map MigrationPlan.id :=
              fun r hr => hsub r (List.mem_of_mem_filter hr)
            have hclean1 : ∀ r ∈ rowsDelete s.db p.id, r.failed = false :=
              fun r hr => hclean r (List.mem_of_mem_filter hr)
            by_cases hmore :
                0 < pendingUp (getVersionSummaryAllowFailed w s.db) t
                  + (pendingDown (getVersionSummaryAllowFailed w s.db) t - 1)
            · rw [if_pos (decide_eq_true hmore)] at hok
              exact ih _ s' hrows1 hsub1 hclean1 hok
            · rw [if_neg (by simpa using hmore)] at hok
              have hcnt : pendingUp (getVersionSummaryAllowFailed w s.db) t = 0
                  ∧ pendingDown (getVersionSummaryAllowFailed w s.db) t = 1 := by
                omega
              have hs'eq := congrArg Prod.snd hok
              dsimp only at hs'eq
              rcases finishedOp_char w "migrate goto finished"
                ⟨rowsDelete s.db p.id, s.clock, s.log ++ [.migratedDown p.id]⟩
                with ⟨fin, hfin⟩
              rw [hfin] at hs'eq
              have habove : ((w.plans.filter
                  (fun q => hasRowB (rowsDelete s.db p.id) q.id)).filter
                    (fun q => decide (t < q.id))).length = 0 := by
                have h2 := count_above_delete w hplans hpmem hprow htp
                rw [← hdccnt, hcnt.2] at h2
                omega
              have hbelow : ((w.plans.filter
                  (fun q => !hasRowB (rowsDelete s.db p.id) q.id)).filter
                    (fun q => decide (q.id ≤ t))).length = 0 := by
                rw [count_below_delete w htp, ← huccnt]
                exact hcnt.1
              refine ⟨?_, ?_, ?_, ?_, ?_⟩
              · rw [← hs'eq]
                exact hrows1
              · rw [← hs'eq]
                exact hsub1
              · rw [← hs'eq]
                exact hclean1
              · rw [← hs'eq]
                exact habove
              · rw [← hs'eq]
                exact hbelow
      · by_cases huc : 0 < pendingUp (getVersionSummaryAllowFailed w s.db) t
        · -- an up step runs
          cases hU : w.plans.filter (fun q => !hasRowB s.db q.id) with
          | nil =>
            exfalso
            rw [huccnt, hU] at huc
            simp at huc
          | cons q rest =>
            obtain ⟨z, hz⟩ : ∃ z, z ∈ (w.plans.filter
                (fun x => !hasRowB s.db x.id)).filter
                  (fun x => decide (x.id ≤ t)) := by
              rw [huccnt] at huc
              exact List.exists_mem_of_length_pos huc
            have hzmem := List.mem_of_mem_filter hz
            have hzle : z.id ≤ t := of_decide_eq_true (List.mem_filter.1 hz).2
            have htq : q.id ≤ t :=
              le_trans (head_min_of_filter w hW hU z hzmem) hzle
            have hqfil : q ∈ w.plans.filter (fun x => !hasRowB s.db x.id) := by
              rw [hU]
              exact List.mem_cons_self q rest
            have hqmem : q ∈ w.plans := (List.mem_filter.1 hqfil).1
            have hqnorow : hasRowB s.db q.id = false := by
              have h2 := (List.mem_filter.1 hqfil).2
              cases h : hasRowB s.db q.id
              · rfl
              · rw [h] at h2
                cases h2
            obtain ⟨hnilU, hconsU⟩ := upOne_char w s hW hrows hclean
            obtain ⟨hsucc, hfailc⟩ := hconsU q rest hU
            cases hact : actionOk w q.up with
            | false =>
              rcases hfailc hact with ⟨e, b, s₂, heq⟩
              have hgoto : gotoOne w t s = (.error e, false, s₂) := by
                unfold gotoOne
                rw [hsum]
                dsimp only
                rw [hcl]
                dsimp only
                rw [if_neg hdc, if_pos huc, heq]
              rw [hgoto] at hok
              dsimp only at hok
              exact absurd (congrArg Prod.fst hok) (by simp)
            | true =>
              rcases hsucc hact with ⟨t0, c', ht1, ht2, heq⟩
              have hgoto : gotoOne w t s = (.ok (),
                  decide (0 < (pendingUp (getVersionSummaryAllowFailed w s.db) t
                      - 1)
                    + pendingDown (getVersionSummaryAllowFailed w s.db) t),
                  ⟨s.db ++ [⟨q.id, t0, false, false⟩], c',
                    s.log ++ [.migratedUp q.id]⟩) := by
                unfold gotoOne
                rw [hsum]
                dsimp only
                rw [hcl]
                dsimp only
                rw [if_neg hdc, if_pos huc, heq]
              rw [hgoto] at hok
              dsimp only at hok
              have hrows1 : ((s.db ++ [(⟨q.id, t0, false, false⟩ : Row)]).map
                  Row.id).Nodup := by
                rw [List.map_append]
                refine List.Nodup.append hrows (by simp) ?_
                intro a ha hb
                simp only [List.map_cons, List.map_nil,
                  List.mem_singleton] at hb
                rw [hb] at ha
                exact not_mem_map_id_of_not_hasRow hqnorow ha
              have hsub1 : ∀ r ∈ s.db ++ [(⟨q.id, t0, false, false⟩ : Row)],
                  r.id ∈ w.plans.map MigrationPlan.id := by
                intro r hr
                rcases List.mem_append.1 hr with h | h
                · exact hsub r h
                · simp only [List.mem_singleton] at h
                  rw [h]
                  exact List.mem_map.2 ⟨q, hqmem, rfl⟩
              have hclean1 : ∀ r ∈ s.db ++ [(⟨q.id, t0, false, false⟩ : Row)],
                  r.failed = false := by
                intro r hr
                rcases List.mem_append.1 hr with h | h
                · exact hclean r h
                · simp only [List.mem_singleton] at h
                  rw [h]
              by_cases hmore :
                  0 < (pendingUp (getVersionSummaryAllowFailed w s.db) t - 1)
                    + pendingDown (getVersionSummaryAllowFailed w s.db) t
              · rw [if_pos (decide_eq_true hmore)] at hok
                exact ih _ s' hrows1 hsub1 hclean1 hok
              · rw [if_neg (by simpa using hmore)] at hok
                have hcnt :
                    pendingUp (getVersionSummaryAllowFailed w s.db) t = 1
                    ∧ pendingDown (getVersionSummaryAllowFailed w s.db) t
                        = 0 := by
                  omega
                have hs'eq := congrArg Prod.snd hok
                dsimp only at hs'eq
                rcases finishedOp_char w "migrate goto finished"
                  ⟨s.db ++ [⟨q.id, t0, false, false⟩], c',
                    s.log ++ [.migratedUp q.id]⟩ with ⟨fin, hfin⟩
                rw [hfin] at hs'eq
                have habove : ((w.plans.filter (fun x =>
                    hasRowB (s.db ++ [(⟨q.id, t0, false, false⟩ : Row)])
                      x.id)).filter
                      (fun x => decide (t < x.id))).length = 0 := by
                  rw [count_above_insert w ⟨q.id, t0, false, false⟩ htq,
                    ← hdccnt]
                  exact hcnt.2
                have hbelow : ((w.plans.filter (fun x =>
                    !hasRowB (s.db ++ [(⟨q.id, t0, false, false⟩ : Row)])
                      x.id)).filter
                      (fun x => decide (x.id ≤ t))).length = 0 := by
                  have h2 := count_below_insert w hplans hqmem
                    ⟨q.id, t0, false, false⟩ rfl hqnorow htq
                  rw [← huccnt, hcnt.1] at h2
                  omega
                refine ⟨?_, ?_, ?_, ?_, ?_⟩
                · rw [← hs'eq]
                  exact hrows1
                · rw [← hs'eq]
                  exact hsub1
                · rw [← hs'eq]
                  exact hclean1
                · rw [← hs'eq]
                  exact habove
                · rw [← hs'eq]
                  exact hbelow
        · have hgoto : gotoOne w t s = (.ok (), false, s) := by
            unfold gotoOne
            rw [hsum]
            dsimp only
            rw [hcl]
            dsimp only
            rw [if_neg hdc, if_neg huc]
          rw [hgoto] at hok
          dsimp only at hok
          rw [if_neg (by simp)] at hok
          have hs'eq := congrArg Prod.snd hok
          dsimp only at hs'eq
          rcases finishedOp_char w "migrate goto finished" s with ⟨fin, hfin⟩
          rw [hfin] at hs'eq
          refine ⟨?_, ?_, ?_, ?_, ?_⟩
          · rw [← hs'eq]
            exact hrows
          · rw [← hs'eq]
            exact hsub
          · rw [← hs'eq]
            exact hclean
          · rw [← hs'eq]
            rw [← hdccnt]
            omega
          · rw [← hs'eq]
            rw [← huccnt]
            omega

/-- C7: if `Goto(t)` succeeds, an immediate second `Goto(t)` computes
zero pending down-steps and zero pending up-steps and changes no
version row — it only appends the finished log line. -/
theorem C7_goto_idempotent (w : Worker) (t : VersionID) (s s' : WState)
    (hW : w.plans.Pairwise (fun a b => a.id < b.id))
    (hrows : (s.db.map Row.id).Nodup)
    (hsub : ∀ r ∈ s.db, r.id ∈ w.plans.map MigrationPlan.id)
    (hclean : ∀ r ∈ s.db, r.failed = false)
    (hok : Goto w t s = (.ok (), s')) :
    pendingDown (getVersionSummaryAllowFailed w s'.db) t = 0
    ∧ pendingUp (getVersionSummaryAllowFailed w s'.db) t = 0
    ∧ ∃ fin, Goto w t s' = (.ok (), { s' with log := s'.log ++ [fin] }) := by
  have hplans := nodup_ids_of_sorted w hW
  unfold Goto at hok
  cases hchk : (if t = 0 then Except.ok () else checkVersion w t
      : Except WErr Unit) with
  | error e =>
    rw [hchk] at hok
    exact absurd (congrArg Prod.fst hok) (by simp)
  | ok u =>
    cases u
    rw [hchk] at hok
    dsimp only at hok
    obtain ⟨hrows', hsub', hclean', habove, hbelow⟩ :=
      gotoN_post w t hW _ s s' hrows hsub hclean hok
    have hpd : pendingDown (getVersionSummaryAllowFailed w s'.db) t = 0 := by
      rw [pendingDown_eq w s'.db t hW hrows']
      exact habove
    have hpu : pendingUp (getVersionSummaryAllowFailed w s'.db) t = 0 := by
      rw [pendingUp_eq w s'.db t hW hrows']
      exact hbelow
    refine ⟨hpd, hpu, ?_⟩
    have hfail0' : s'.db.any (fun r => r.failed) = false := by
      rw [List.any_eq_false]
      intro r hr
      simp [hclean' r hr]
    have hsum' := getVersionSummary_ok w s'.db hrows' hplans hfail0'
    have hclok' : (getVersionSummaryAllowFailed w s'.db).checkLocked t
        = .ok () := by
      unfold VersionSummary.checkLocked
      rw [summary_applied_eq w s'.db hW hrows']
      cases hA : (w.plans.filter (fun q => hasRowB s'.db q.id)).reverse with
      | nil => rfl
      | cons p rest =>
        have hpfil : p ∈ w.plans.filter (fun q => hasRowB s'.db q.id) :=
          List.mem_reverse.1 (by rw [hA]; exact List.mem_cons_self p rest)
        have hple : p.id ≤ t := by
          by_contra hgt
          push_neg at hgt
          have hpmemf : p ∈ (w.plans.filter
              (fun q => hasRowB s'.db q.id)).filter
                (fun q => decide (t < q.id)) :=
            List.mem_filter.2 ⟨hpfil, decide_eq_true hgt⟩
          rw [List.length_eq_zero] at habove
          rw [habove] at hpmemf
          cases hpmemf
        unfold checkLockedFrom
        rw [if_pos hple]
    have hgoto2 : gotoOne w t s' = (.ok (), false, s') := by
      unfold gotoOne
      rw [hsum']
      dsimp only
      rw [hclok']
      dsimp only
      rw [if_neg (by rw [hpd]; simp), if_neg (by rw [hpu]; simp)]
    rcases finishedOp_char w "migrate goto finished" s' with ⟨fin, hfin⟩
    refine ⟨fin, ?_⟩
    unfold Goto
    rw [hchk]
    dsimp only
    rw [gotoN_succ, hgoto2]
    dsimp only
    rw [if_neg (by simp)]
    rw [hfin]

/-- Witness for C7: `Goto 2` from a state with only version 1 applied,
then the idempotence facts at the resulting state. -/
theorem C7_goto_idempotent_witness :
    pendingDown (getVersionSummaryAllowFailed
      ⟨[1, 2], [⟨1, ⟨"u1", none, none, none⟩, ⟨"d1", none, none, none⟩, []⟩,
        ⟨2, ⟨"u2", none, none, none⟩, ⟨"d2", none, none, none⟩, []⟩],
        true, fun _ => true⟩
      (⟨[⟨1, 0, false, false⟩, ⟨2, 7, false, false⟩], 8,
        [.migratedUp 2,
         .finishedMsg "migrate goto finished" 2 false false]⟩ : WState).db) 2 = 0
    ∧ pendingUp (getVersionSummaryAllowFailed
      ⟨[1, 2], [⟨1, ⟨"u1", none, none, none⟩, ⟨"d1", none, none, none⟩, []⟩,
        ⟨2, ⟨"u2", none, none, none⟩, ⟨"d2", none, none, none⟩, []⟩],
        true, fun _ => true⟩
      (⟨[⟨1, 0, false, false⟩, ⟨2, 7, false, false⟩], 8,
        [.migratedUp 2,
         .finishedMsg "migrate goto finished" 2 false false]⟩ : WState).db) 2 = 0
    ∧ ∃ fin, Goto
      ⟨[1, 2], [⟨1, ⟨"u1", none, none, none⟩, ⟨"d1", none, none, none⟩, []⟩,
        ⟨2, ⟨"u2", none, none, none⟩, ⟨"d2", none, none, none⟩, []⟩],
        true, fun _ => true⟩ 2
      ⟨[⟨1, 0, false, false⟩, ⟨2, 7, false, false⟩], 8,
        [.migratedUp 2, .finishedMsg "migrate goto finished" 2 false false]⟩
      = (.ok (), { (⟨[⟨1, 0, false, false⟩, ⟨2, 7, false, false⟩], 8,
          [.migratedUp 2,
           .finishedMsg "migrate goto finished" 2 false false]⟩ : WState) with
          log := (⟨[⟨1, 0, false, false⟩, ⟨2, 7, false, false⟩], 8,
            [.migratedUp 2,
             .finishedMsg "migrate goto finished" 2 false false]⟩ : WState).log
            ++ [fin] }) :=
  C7_goto_idempotent
    ⟨[1, 2], [⟨1, ⟨"u1", none, none, none⟩, ⟨"d1", none, none, none⟩, []⟩,
      ⟨2, ⟨"u2", none, none, none⟩, ⟨"d2", none, none, none⟩, []⟩],
      true, fun _ => true⟩ 2
    ⟨[⟨1, 0, false, false⟩], 7, []⟩
    ⟨[⟨1, 0, false, false⟩, ⟨2, 7, false, false⟩], 8,
      [.migratedUp 2, .finishedMsg "migrate goto finished" 2 false false]⟩
    (by decide) (by decide) (by decide) (by decide) rfl

/-- With no locked or failed rows and every action succeeding, the
`Goto` loop terminates successfully given fuel above the pending work. -/
theorem gotoN_total (w : Worker) (t : VersionID)
    (hW : w.plans.Pairwise (fun a b => a.id < b.id))
    (hacts : ∀ p ∈ w.plans, actionOk w p.up = true ∧ actionOk w p.down = true) :
    ∀ fuel s,
      (s.db.map Row.id).Nodup →
      (∀ r ∈ s.db, r.id ∈ w.plans.map MigrationPlan.id) →
      (∀ r ∈ s.db, r.failed = false) →
      (∀ r ∈ s.db, r.locked = false) →
      ((w.plans.filter (fun q => hasRowB s.db q.id)).filter
          (fun q => decide (t < q.id))).length
        + ((w.plans.filter (fun q => !hasRowB s.db q.id)).filter
            (fun q => decide (q.id ≤ t))).length < fuel →
      ∃ s', gotoN w t fuel s = (.ok (), s') := by
  have hplans := nodup_ids_of_sorted w hW
  intro fuel
  induction fuel with
  | zero =>
    intro s _ _ _ _ hlt
    exact absurd hlt (Nat.not_lt_zero _)
  | succ fuel ih =>
    intro s hrows hsub hclean hnolock hlt
    have hfail0 : s.db.any (fun r => r.failed) = false := by
      rw [List.any_eq_false]
      intro r hr
      simp [hclean r hr]
    have hsum := getVersionSummary_ok w s.db hrows hplans hfail0
    have hnolockb : s.db.all (fun r => !r.locked) = true := by
      rw [List.all_eq_true]
      intro r hr
      simp [hnolock r hr]
    have hclok := checkLocked_ok_of_no_locked w s.db hrows hplans hnolockb t
    have hdccnt := pendingDown_eq w s.db t hW hrows
    have huccnt := pendingUp_eq w s.db t hW hrows
    rw [gotoN_succ]
    by_cases hdc : 0 < pendingDown (getVersionSummaryAllowFailed w s.db) t
    · cases hA : (w.plans.filter (fun q => hasRowB s.db q.id)).reverse with
      | nil =>
        exfalso
        have hXnil : w.plans.filter (fun q => hasRowB s.db q.id) = [] :=
          List.reverse_eq_nil_iff.1 hA
        rw [hdccnt, hXnil] at hdc
        simp at hdc
      | cons p rest =>
        obtain ⟨z, hz⟩ : ∃ z, z ∈ (w.plans.filter
            (fun q => hasRowB s.db q.id)).filter
              (fun q => decide (t < q.id)) := by
          rw [hdccnt] at hdc
          exact List.exists_mem_of_length_pos hdc
        have hzmem := List.mem_of_mem_filter hz
        have hzgt : t < z.id := of_decide_eq_true (List.mem_filter.1 hz).2
        have htp : t < p.id :=
          lt_of_lt_of_le hzgt (top_max_of_filter w hW hA z hzmem)
        have hpfil : p ∈ w.plans.filter (fun q => hasRowB s.db q.id) := by
          refine List.mem_reverse.1 ?_
          rw [hA]
          exact List.mem_cons_self p rest
        have hpmem : p ∈ w.plans := (List.mem_filter.1 hpfil).1
        have hprow : hasRowB s.db p.id = true := (List.mem_filter.1 hpfil).2
        obtain ⟨r_p, hr_p, hr_pid⟩ : ∃ r ∈ s.db, r.id = p.id := by
          have h2 := hprow
          unfold hasRowB at h2
          rw [List.any_eq_true] at h2
          rcases h2 with ⟨r, hr, hb⟩
          exact ⟨r, hr, by simpa using hb⟩
        obtain ⟨hnilD, hconsD⟩ := downOne_char w s hW hrows hclean
        obtain ⟨hskip, hdel, hfailc⟩ := hconsD p rest hA r_p hr_p hr_pid
        have hgoto : gotoOne w t s = (.ok (),
            decide (0 < pendingUp (getVersionSummaryAllowFailed w s.db) t
              + (pendingDown (getVersionSummaryAllowFailed w s.db) t - 1)),
            ⟨rowsDelete s.db p.id, s.clock,
              s.log ++ [.migratedDown p.id]⟩) := by
          unfold gotoOne
          rw [hsum]
          dsimp only
          rw [hclok]
          dsimp only
          rw [if_pos hdc, hdel (hnolock r_p hr_p) (hacts p hpmem).2]
        rw [hgoto]
        dsimp only
        cases hmoreb : decide
            (0 < pendingUp (getVersionSummaryAllowFailed w s.db) t
              + (pendingDown (getVersionSummaryAllowFailed w s.db) t - 1)) with
        | false =>
          rw [if_neg (by simp)]
          exact ⟨_, rfl⟩
        | true =>
          rw [if_pos rfl]
          have hrows1 : ((rowsDelete s.db p.id).map Row.id).Nodup :=
            ((List.filter_sublist s.db).map Row.id).nodup hrows
          have hsub1 : ∀ r ∈ rowsDelete s.db p.id,
              r.id ∈ w.plans.map MigrationPlan.id :=
            fun r hr => hsub r (List.mem_of_mem_filter hr)
          have hclean1 : ∀ r ∈ rowsDelete s.db p.id, r.failed = false :=
            fun r hr => hclean r (List.mem_of_mem_filter hr)
          have hnolock1 : ∀ r ∈ rowsDelete s.db p.id, r.locked = false :=
            fun r hr => hnolock r (List.mem_of_mem_filter hr)
          have h2 := count_above_delete w hplans hpmem hprow htp
          have h3' : (w.plans.filter
              (fun q => !hasRowB (rowsDelete s.db p.id) q.id)).filter
                (fun q => decide (q.id ≤ t))
              = (w.plans.filter (fun q => !hasRowB s.db q.id)).filter
                  (fun q => decide (q.id ≤ t)) := count_below_delete w htp
          have h3 := congrArg List.length h3'
          refine ih _ hrows1 hsub1 hclean1 hnolock1 ?_
          dsimp only
          omega
    · by_cases huc : 0 < pendingUp (getVersionSummaryAllowFailed w s.db) t
      · cases hU : w.plans.filter (fun q => !hasRowB s.db q.id) with
        | nil =>
          exfalso
          rw [huccnt, hU] at huc
          simp at huc
        | cons q rest =>
          obtain ⟨z, hz⟩ : ∃ z, z ∈ (w.plans.filter
              (fun x => !hasRowB s.db x.id)).filter
                (fun x => decide (x.id ≤ t)) := by
            rw [huccnt] at huc
            exact List.exists_mem_of_length_pos huc
          have hzmem := List.mem_of_mem_filter hz
          have hzle : z.id ≤ t := of_decide_eq_true (List.mem_filter.1 hz).2
          have htq : q.id ≤ t :=
            le_trans (head_min_of_filter w hW hU z hzmem) hzle
          have hqfil : q ∈ w.plans.filter (fun x => !hasRowB s.db x.id) := by
            rw [hU]
            exact List.mem_cons_self q rest
          have hqmem : q ∈ w.plans := (List.mem_filter.1 hqfil).1
          have hqnorow : hasRowB s.db q.id = false := by
            have h2 := (List.mem_filter.1 hqfil).2
            cases h : hasRowB s.db q.id
            · rfl
            · rw [h] at h2
              cases h2
          obtain ⟨hnilU, hconsU⟩ := upOne_char w s hW hrows hclean
          obtain ⟨hsucc, hfailc⟩ := hconsU q rest hU
          rcases hsucc (hacts q hqmem).1 with ⟨t0, c', ht1, ht2, heq⟩
          have hgoto : gotoOne w t s = (.ok (),
              decide (0 < (pendingUp (getVersionSummaryAllowFailed w s.db) t
                  - 1)
                + pendingDown (getVersionSummaryAllowFailed w s.db) t),
              ⟨s.db ++ [⟨q.id, t0, false, false⟩], c',
                s.log ++ [.migratedUp q.id]⟩) := by
            unfold gotoOne
            rw [hsum]
            dsimp only
            rw [hclok]
            dsimp only
            rw [if_neg hdc, if_pos huc, heq]
          rw [hgoto]
          dsimp only
          cases hmoreb : decide
              (0 < (pendingUp (getVersionSummaryAllowFailed w s.db) t - 1)
                + pendingDown (getVersionSummaryAllowFailed w s.db) t) with
          | false =>
            rw [if_neg (by simp)]
            exact ⟨_, rfl⟩
          | true =>
            rw [if_pos rfl]
            have hrows1 : ((s.db ++ [(⟨q.id, t0, false, false⟩ : Row)]).map
                Row.id).Nodup := by
              rw [List.map_append]
              refine List.Nodup.append hrows (by simp) ?_
              intro a ha hb
              simp only [List.map_cons, List.map_nil,
                List.mem_singleton] at hb
              rw [hb] at ha
              exact not_mem_map_id_of_not_hasRow hqnorow ha
            have hsub1 : ∀ r ∈ s.db ++ [(⟨q.id, t0, false, false⟩ : Row)],
                r.id ∈ w.plans.map MigrationPlan.id := by
              intro r hr
              rcases List.mem_append.1 hr with h | h
              · exact hsub r h
              · simp only [List.mem_singleton] at h
                rw [h]
                exact List.mem_map.2 ⟨q, hqmem, rfl⟩
            have hclean1 : ∀ r ∈ s.db ++ [(⟨q.id, t0, false, false⟩ : Row)],
                r.failed = false := by
              intro r hr
              rcases List.mem_append.1 hr with h | h
              · exact hclean r h
              · simp only [List.mem_singleton] at h
                rw [h]
            have hnolock1 : ∀ r ∈ s.db ++ [(⟨q.id, t0, false, false⟩ : Row)],
                r.locked = false := by
              intro r hr
              rcases List.mem_append.1 hr with h | h
              · exact hnolock r h
              · simp only [List.mem_singleton] at h
                rw [h]
            have h2 := count_below_insert w hplans hqmem
              ⟨q.id, t0, false, false⟩ rfl hqnorow htq
            have h3' : (w.plans.filter (fun x =>
                hasRowB (s.db ++ [(⟨q.id, t0, false, false⟩ : Row)])
                  x.id)).filter (fun x => decide (t < x.id))
                = (w.plans.filter (fun x => hasRowB s.db x.id)).filter
                    (fun x => decide (t < x.id)) :=
              count_above_insert w ⟨q.id, t0, false, false⟩ htq
            have h3 := congrArg List.length h3'
            refine ih _ hrows1 hsub1 hclean1 hnolock1 ?_
            dsimp only
            omega
      · have hgoto : gotoOne w t s = (.ok (), false, s) := by
          unfold gotoOne
          rw [hsum]
          dsimp only
          rw [hclok]
          dsimp only
          rw [if_neg hdc, if_neg huc]
        rw [hgoto]
        dsimp only
        rw [if_neg (by simp)]
        exact ⟨_, rfl⟩

/-- The lock check reports the first plan above the target (walking
downward) whose row is locked. -/
theorem checkLockedFrom_hits (vmap : List (VersionID × Version))
    (t : VersionID) :
    ∀ (l1 : List MigrationPlan) (pV : MigrationPlan)
      (l2 : List MigrationPlan),
      (∀ q ∈ l1, ¬(q.id ≤ t) ∧ (vmapGetD vmap q.id).Locked = false) →
      ¬(pV.id ≤ t) → (vmapGetD vmap pV.id).Locked = true →
      checkLockedFrom vmap t (l1 ++ pV :: l2)
        = .error (.lockedVersion pV.id) := by
  intro l1
  induction l1 with
  | nil =>
    intro pV l2 _ hple hlock
    rw [List.nil_append]
    unfold checkLockedFrom
    rw [if_neg hple, if_pos hlock]
  | cons a l1 ih =>
    intro pV l2 hl1 hple hlock
    rw [List.cons_append]
    unfold checkLockedFrom
    rw [if_neg (hl1 a (List.mem_cons_self a l1)).1,
      if_neg (by rw [(hl1 a (List.mem_cons_self a l1)).2]; simp)]
    exact ih pV l2 (fun q hq => hl1 q (List.mem_cons_of_mem a hq)) hple hlock

/-- C4 (amended): when V's row is the only locked one and the target t
(a defined id or 0) lies below V, `Goto t` fails with the locked-version
error naming V and leaves the state untouched; and, if additionally
every migration action succeeds, after `Unlock V` (which changes no
version ids) the same `Goto t` succeeds.  (As stated the claim is
refuted by `C4_goto_lock_counterexample`: with a second locked version
above V the error names that version, and unlocking V alone does not
help.) -/
theorem C4_lock_blocks_goto (w : Worker) (s : WState) (t : VersionID)
    (rV : Row)
    (hW : w.plans.Pairwise (fun a b => a.id < b.id))
    (hrows : (s.db.map Row.id).Nodup)
    (hsub : ∀ r ∈ s.db, r.id ∈ w.plans.map MigrationPlan.id)
    (hclean : ∀ r ∈ s.db, r.failed = false)
    (hrV : rV ∈ s.db) (hlock : rV.locked = true)
    (honly : ∀ r ∈ s.db, r.locked = true → r.id = rV.id)
    (ht : t < rV.id)
    (htdef : t = 0 ∨ w.defIds.contains t = true)
    (hVdef : w.defIds.contains rV.id = true) :
    Goto w t s = (.error (.lockedVersion rV.id), s)
    ∧ ((∀ p ∈ w.plans, actionOk w p.up = true ∧ actionOk w p.down = true) →
        ∃ s₂ s₃, Unlock w rV.id s = (.ok (), s₂)
          ∧ s₂.db.map Row.id = s.db.map Row.id
          ∧ Goto w t s₂ = (.ok (), s₃)) := by
  have hplans := nodup_ids_of_sorted w hW
  have hfail0 : s.db.any (fun r => r.failed) = false := by
    rw [List.any_eq_false]
    intro r hr
    simp [hclean r hr]
  have hsum := getVersionSummary_ok w s.db hrows hplans hfail0
  have hcheckv : (if t = 0 then Except.ok () else checkVersion w t
      : Except WErr Unit) = Except.ok () := by
    rcases htdef with h0 | hc
    · rw [if_pos h0]
    · by_cases h0 : t = 0
      · rw [if_pos h0]
      · rw [if_neg h0]
        unfold checkVersion
        rw [if_pos hc]
  rcases List.mem_map.1 (hsub rV hrV) with ⟨pV, hpVp, hpVid⟩
  have hpVrow : hasRowB s.db pV.id = true := by
    unfold hasRowB
    rw [List.any_eq_true]
    exact ⟨rV, hrV, by simp [hpVid]⟩
  have hpVX : pV ∈ w.plans.filter (fun q => hasRowB s.db q.id) :=
    List.mem_filter.2 ⟨hpVp, hpVrow⟩
  rcases List.append_of_mem hpVX with ⟨A, B, hXsplit⟩
  have hXpair : (w.plans.filter
      (fun q => hasRowB s.db q.id)).Pairwise (fun a b => a.id < b.id) :=
    hW.filter _
  rw [hXsplit] at hXpair
  have hsplit3 := List.pairwise_append.1 hXpair
  have hBgt : ∀ q ∈ B, pV.id < q.id := (List.pairwise_cons.1 hsplit3.2.1).1
  have htpV : t < pV.id := by
    rw [hpVid]
    exact ht
  have hl1 : ∀ q ∈ B.reverse, ¬(q.id ≤ t)
      ∧ (vmapGetD (getVersionSummaryAllowFailed w s.db).vmap q.id).Locked
          = false := by
    intro q hq
    have hqB := List.mem_reverse.1 hq
    have hqgt : pV.id < q.id := hBgt q hqB
    refine ⟨not_le_of_lt (lt_trans htpV hqgt), ?_⟩
    have hqX : q ∈ w.plans.filter (fun z => hasRowB s.db z.id) := by
      rw [hXsplit]
      exact List.mem_append_right _ (List.mem_cons_of_mem _ hqB)
    have hqrow := (List.mem_filter.1 hqX).2
    obtain ⟨r_q, hr_q, hr_qid⟩ : ∃ r ∈ s.db, r.id = q.id := by
      unfold hasRowB at hqrow
      rw [List.any_eq_true] at hqrow
      rcases hqrow with ⟨r, hr, hb⟩
      exact ⟨r, hr, by simpa using hb⟩
    have h2 := vmapGetD_locked_of_row w s.db hrows hplans hr_q
    rw [hr_qid] at h2
    rw [h2]
    cases hql : r_q.locked
    · rfl
    · exfalso
      have h3 := honly r_q hr_q hql
      rw [hr_qid] at h3
      rw [hpVid, h3] at hqgt
      exact lt_irrefl _ hqgt
  have hpVlocked : (vmapGetD (getVersionSummaryAllowFailed w s.db).vmap
      pV.id).Locked = true := by
    have h2 := vmapGetD_locked_of_row w s.db hrows hplans hrV
    rw [← hpVid] at h2
    rw [h2]
    exact hlock
  have hcheck : (getVersionSummaryAllowFailed w s.db).checkLocked t
      = .error (.lockedVersion pV.id) := by
    unfold VersionSummary.checkLocked
    rw [summary_applied_eq w s.db hW hrows, hXsplit, List.reverse_append,
      List.reverse_cons, List.append_assoc, List.singleton_append]
    exact checkLockedFrom_hits _ t B.reverse pV A.reverse hl1
      (not_le_of_lt htpV) hpVlocked
  have hgoto1 : gotoOne w t s = (.error (.lockedVersion pV.id), false, s) := by
    unfold gotoOne
    rw [hsum]
    dsimp only
    rw [hcheck]
  constructor
  · unfold Goto
    rw [hcheckv]
    dsimp only
    rw [gotoN_succ, hgoto1]
    dsimp only
    rw [hpVid]
  · -- Unlock V, then a successful Goto
    intro hacts
    have happany : (getVersionSummaryAllowFailed w s.db).applied.any
        (fun p => p.id == rV.id) = true := by
      rw [summary_applied_eq w s.db hW hrows,
        any_perm (List.reverse_perm _), List.any_eq_true]
      exact ⟨pV, hpVX, by simp [hpVid]⟩
    have hunlock : Unlock w rV.id s = (.ok (),
        ⟨rowsSetLocked s.db rV.id false, s.clock,
          s.log ++ [.lockVerb "unlock" rV.id]⟩) := by
      unfold Unlock lockHelper
      rw [show checkVersion w rV.id = Except.ok () from by
        unfold checkVersion
        rw [if_pos hVdef]]
      dsimp only
      rw [hsum]
      dsimp only
      rw [if_pos happany]
    have hids2 : (rowsSetLocked s.db rV.id false).map Row.id
        = s.db.map Row.id := rowsSetLocked_map_id s.db rV.id false
    have hrows2 : ((rowsSetLocked s.db rV.id false).map Row.id).Nodup := by
      rw [hids2]
      exact hrows
    have hsub2 : ∀ r ∈ rowsSetLocked s.db rV.id false,
        r.id ∈ w.plans.map MigrationPlan.id := by
      intro r' hr'
      rcases rowsSetLocked_mem hr' with ⟨r, hr, hid, _, _, _⟩
      rw [hid]
      exact hsub r hr
    have hclean2 : ∀ r ∈ rowsSetLocked s.db rV.id false, r.failed = false := by
      intro r' hr'
      rcases rowsSetLocked_mem hr' with ⟨r, hr, _, _, hfl, _⟩
      rw [hfl]
      exact hclean r hr
    have hnolock2 : ∀ r' ∈ rowsSetLocked s.db rV.id false,
        r'.locked = false := by
      intro r' hr'
      unfold rowsSetLocked at hr'
      rcases List.mem_map.1 hr' with ⟨r, hr, hmap⟩
      by_cases h : r.id == rV.id
      · rw [if_pos h] at hmap
        rw [← hmap]
      · rw [if_neg h] at hmap
        rw [← hmap]
        cases hrl : r.locked
        · rfl
        · exact absurd (honly r hr hrl) (by simpa using h)
    have hfc1 : w.plans.filter
        (fun q => hasRowB (rowsSetLocked s.db rV.id false) q.id)
          = w.plans.filter (fun q => hasRowB s.db q.id) :=
      List.filter_congr (fun q _ => hasRowB_of_map_eq hids2 q.id)
    have hfc2 : w.plans.filter
        (fun q => !hasRowB (rowsSetLocked s.db rV.id false) q.id)
          = w.plans.filter (fun q => !hasRowB s.db q.id) :=
      List.filter_congr (fun q _ => by rw [hasRowB_of_map_eq hids2 q.id])
    have hbound : ((w.plans.filter (fun q => hasRowB s.db q.id)).filter
          (fun q => decide (t < q.id))).length
        + ((w.plans.filter (fun q => !hasRowB s.db q.id)).filter
            (fun q => decide (q.id ≤ t))).length ≤ w.plans.length := by
      rw [List.filter_filter, List.filter_filter]
      refine length_filter_disjoint _ _ ?_
      rintro a _ ⟨h1, h2⟩
      rw [Bool.and_eq_true] at h1 h2
      have h3 := h2.2
      rw [h1.2] at h3
      cases h3
    obtain ⟨s₃, hgtot⟩ := gotoN_total w t hW hacts (w.plans.length + 1)
      ⟨rowsSetLocked s.db rV.id false, s.clock,
        s.log ++ [.lockVerb "unlock" rV.id]⟩
      hrows2 hsub2 hclean2 hnolock2
      (by
        dsimp only
        rw [hfc1, hfc2]
        omega)
    refine ⟨_, s₃, hunlock, hids2, ?_⟩
    unfold Goto
    rw [hcheckv]
    dsimp only
    exact hgtot

/-- C4 counterexample to the claim as stated: versions 1 and 2 are both
applied and locked, so V = 1 is a locked applied version with target
0 < V — but `Goto 0` fails naming version 2, not V, and after
`Unlock V` the same `Goto 0` still fails (again naming version 2). -/
theorem C4_goto_lock_counterexample :
    Goto ⟨[1, 2],
        [⟨1, ⟨"u1", none, none, none⟩, ⟨"d1", none, none, none⟩, []⟩,
         ⟨2, ⟨"u2", none, none, none⟩, ⟨"d2", none, none, none⟩, []⟩],
        true, fun _ => true⟩ 0
      ⟨[⟨1, 0, false, true⟩, ⟨2, 1, false, true⟩], 10, []⟩
      = (.error (.lockedVersion 2),
        ⟨[⟨1, 0, false, true⟩, ⟨2, 1, false, true⟩], 10, []⟩)
    ∧ (2 : Int) ≠ 1
    ∧ Unlock ⟨[1, 2],
        [⟨1, ⟨"u1", none, none, none⟩, ⟨"d1", none, none, none⟩, []⟩,
         ⟨2, ⟨"u2", none, none, none⟩, ⟨"d2", none, none, none⟩, []⟩],
        true, fun _ => true⟩ 1
      ⟨[⟨1, 0, false, true⟩, ⟨2, 1, false, true⟩], 10, []⟩
      = (.ok (), ⟨[⟨1, 0, false, false⟩, ⟨2, 1, false, true⟩], 10,
          [.lockVerb "unlock" 1]⟩)
    ∧ Goto ⟨[1, 2],
        [⟨1, ⟨"u1", none, none, none⟩, ⟨"d1", none, none, none⟩, []⟩,
         ⟨2, ⟨"u2", none, none, none⟩, ⟨"d2", none, none, none⟩, []⟩],
        true, fun _ => true⟩ 0
      ⟨[⟨1, 0, false, false⟩, ⟨2, 1, false, true⟩], 10,
        [.lockVerb "unlock" 1]⟩
      = (.error (.lockedVersion 2),
        ⟨[⟨1, 0, false, false⟩, ⟨2, 1, false, true⟩], 10,
          [.lockVerb "unlock" 1]⟩) := by
  refine ⟨rfl, by decide, rfl, rfl⟩

/-- Witness for the amended C4 on a concrete two-plan schema where only
version 1 is locked. -/
theorem C4_lock_blocks_goto_witness :
    Goto ⟨[1, 2],
        [⟨1, ⟨"u1", none, none, none⟩, ⟨"d1", none, none, none⟩, []⟩,
         ⟨2, ⟨"u2", none, none, none⟩, ⟨"d2", none, none, none⟩, []⟩],
        true, fun _ => true⟩ 0
      ⟨[⟨1, 0, false, true⟩, ⟨2, 1, false, false⟩], 10, []⟩
      = (.error (.lockedVersion (⟨1, 0, false, true⟩ : Row).id),
        ⟨[⟨1, 0, false, true⟩, ⟨2, 1, false, false⟩], 10, []⟩)
    ∧ ∃ s₂ s₃, Unlock ⟨[1, 2],
        [⟨1, ⟨"u1", none, none, none⟩, ⟨"d1", none, none, none⟩, []⟩,
         ⟨2, ⟨"u2", none, none, none⟩, ⟨"d2", none, none, none⟩, []⟩],
        true, fun _ => true⟩ (⟨1, 0, false, true⟩ : Row).id
      ⟨[⟨1, 0, false, true⟩, ⟨2, 1, false, false⟩], 10, []⟩ = (.ok (), s₂)
      ∧ s₂.db.map Row.id = (⟨[⟨1, 0, false, true⟩, ⟨2, 1, false, false⟩],
          10, []⟩ : WState).db.map Row.id
      ∧ Goto ⟨[1, 2],
          [⟨1, ⟨"u1", none, none, none⟩, ⟨"d1", none, none, none⟩, []⟩,
           ⟨2, ⟨"u2", none, none, none⟩, ⟨"d2", none, none, none⟩, []⟩],
          true, fun _ => true⟩ 0 s₂ = (.ok (), s₃) := by
  have h := C4_lock_blocks_goto
    ⟨[1, 2],
      [⟨1, ⟨"u1", none, none, none⟩, ⟨"d1", none, none, none⟩, []⟩,
       ⟨2, ⟨"u2", none, none, none⟩, ⟨"d2", none, none, none⟩, []⟩],
      true, fun _ => true⟩
    ⟨[⟨1, 0, false, true⟩, ⟨2, 1, false, false⟩], 10, []⟩ 0
    ⟨1, 0, false, true⟩
    (by decide) (by decide) (by decide) (by decide) (by decide) rfl
    (by decide) (by decide) (Or.inl rfl) (by decide)
  exact ⟨h.1, h.2 (by decide)⟩

/-- Every id carried by some compiled plan appears in the tolerant
summary's versions list — as the persisted row's version or as the
synthesized placeholder. -/
theorem summary_find_plan (w : Worker) (rows : List Row)
    (hrows : (rows.map Row.id).Nodup)
    (hplans : (w.plans.map MigrationPlan.id).Nodup)
    {id : VersionID} (hid : id ∈ w.plans.map MigrationPlan.id) :
    ∃ v, (getVersionSummaryAllowFailed w rows).versions.find?
        (fun x => x.ID == id) = some v := by
  by_cases hrow : hasRowB rows id = true
  · obtain ⟨r, hr, hrid⟩ : ∃ r ∈ rows, r.id = id := by
      unfold hasRowB at hrow
      rw [List.any_eq_true] at hrow
      rcases hrow with ⟨r, hr, hb⟩
      exact ⟨r, hr, by simpa using hb⟩
    obtain ⟨v, hfind, _⟩ := summary_find_row w rows hrows hplans hr
    rw [hrid] at hfind
    exact ⟨v, hfind⟩
  · rcases List.mem_map.1 hid with ⟨p, hp, hpid⟩
    have hrow' : hasRowB rows p.id = false := by
      rw [hpid]
      cases h : hasRowB rows id
      · rfl
      · exact absurd h hrow
    have hperm := summary_versions_perm w rows hrows hplans
    have hmem : ((p.id : VersionID), (none : Option Nat), false, false)
        ∈ (getVersionSummaryAllowFailed w rows).versions.map projV := by
      refine hperm.mem_iff.2 (List.mem_append_right _ ?_)
      exact List.mem_map.2 ⟨p, List.mem_filter.2 ⟨hp, by rw [hrow']; rfl⟩, rfl⟩
    rcases List.mem_map.1 hmem with ⟨v, hv, hproj⟩
    have hvID : v.ID = p.id := congrArg Prod.fst hproj
    have hnodup := summary_versions_ids_nodup w rows hrows hplans
    refine ⟨v, ?_⟩
    rw [← hpid]
    exact find?_key_eq_of_mem Version.ID hnodup hv hvID

/-- C3: with a failed row persisted, `Up`, `Down`, `Goto`, `Lock` and
`Unlock` all refuse with the "previously failed" error before touching
anything — locked rows or not — while `Version` and `Versions` still
answer from the tolerant summary, and `Force` can still succeed (shown
with no locked rows, which `Force`'s own lock check requires). -/
theorem C3_failed_state_gate (w : Worker) (s : WState) (id gid : VersionID)
    (hrows : (s.db.map Row.id).Nodup)
    (hplans : (w.plans.map MigrationPlan.id).Nodup)
    (hfail : s.db.any (fun r => r.failed) = true)
    (hid : w.defIds.contains id = true)
    (hidp : id ∈ w.plans.map MigrationPlan.id)
    (hgid : gid = 0 ∨ w.defIds.contains gid = true) :
    Up w s = (.error .prevFailed, s)
    ∧ Down w s = (.error .prevFailed, s)
    ∧ Goto w gid s = (.error .prevFailed, s)
    ∧ Lock w id s = (.error .prevFailed, s)
    ∧ Unlock w id s = (.error .prevFailed, s)
    ∧ Versions w s = .ok (getVersionSummaryAllowFailed w s.db).versions
    ∧ (∃ v, VersionOf w id s = .ok v)
    ∧ (s.db.all (fun r => !r.locked) = true →
        ∃ s', Force w 0 s = (.ok (), s')) := by
  have hgate := getVersionSummary_failed w s.db hrows hplans hfail
  have hup : upOne w s = (.error .prevFailed, false, s) := by
    unfold upOne
    rw [hgate]
  have hdown : downOne w s = (.error .prevFailed, false, s) := by
    unfold downOne
    rw [hgate]
  have hgoto : gotoOne w gid s = (.error .prevFailed, false, s) := by
    unfold gotoOne
    rw [hgate]
  have hcheck : checkVersion w id = .ok () := by
    unfold checkVersion
    rw [if_pos hid]
  refine ⟨?_, ?_, ?_, ?_, ?_, rfl, ?_, ?_⟩
  · show upN w (w.plans.length + 1) s = _
    rw [upN_succ, hup]
  · show downN w (w.plans.length + 1) s = _
    rw [downN_succ, hdown]
  · unfold Goto
    rcases hgid with rfl | hg
    · rw [if_pos rfl]
      show gotoN w 0 (w.plans.length + 1) s = _
      rw [gotoN_succ, hgoto]
    · by_cases hz : gid = 0
      · rw [if_pos hz]
        subst hz
        show gotoN w 0 (w.plans.length + 1) s = _
        rw [gotoN_succ, hgoto]
      · rw [if_neg hz]
        show (match checkVersion w gid with
          | .error e => ((.error e : Except WErr Unit), s)
          | .ok _ => gotoN w gid (w.plans.length + 1) s) = _
        rw [show checkVersion w gid = .ok () from by
          unfold checkVersion; rw [if_pos hg]]
        show gotoN w gid (w.plans.length + 1) s = _
        rw [gotoN_succ, hgoto]
  · unfold Lock lockHelper
    rw [hcheck, hgate]
  · unfold Unlock lockHelper
    rw [hcheck, hgate]
  · obtain ⟨v, hfind⟩ := summary_find_plan w s.db hrows hplans hidp
    refine ⟨v, ?_⟩
    unfold VersionOf
    rw [hcheck]
    dsimp only
    rw [hfind]
  · intro hnolock
    unfold Force
    rw [if_pos rfl]
    dsimp only
    rw [checkLocked_ok_of_no_locked w s.db hrows hplans hnolock 0]
    dsimp only
    rw [if_neg (by
      rintro ⟨h0, _⟩
      exact h0 rfl)]
    exact ⟨_, rfl⟩

/-- Witness for C3 on a concrete failed table: the gate refuses `Up` and
`Goto`, while `Version` and `Force` still work. -/
theorem C3_failed_state_gate_witness :
    Up ⟨[10, 20], [⟨10, ⟨"create t1", none, none, none⟩,
          ⟨"drop t1", none, none, none⟩, []⟩,
        ⟨20, ⟨"create t2", none, none, none⟩,
          ⟨"drop t2", none, none, none⟩, []⟩], true, fun _ => true⟩
      ⟨[⟨10, 5, true, false⟩], 100, []⟩
      = (.error .prevFailed, ⟨[⟨10, 5, true, false⟩], 100, []⟩)
    ∧ Goto ⟨[10, 20], [⟨10, ⟨"create t1", none, none, none⟩,
          ⟨"drop t1", none, none, none⟩, []⟩,
        ⟨20, ⟨"create t2", none, none, none⟩,
          ⟨"drop t2", none, none, none⟩, []⟩], true, fun _ => true⟩ 20
      ⟨[⟨10, 5, true, false⟩], 100, []⟩
      = (.error .prevFailed, ⟨[⟨10, 5, true, false⟩], 100, []⟩)
    ∧ (∃ v, VersionOf ⟨[10, 20], [⟨10, ⟨"create t1", none, none, none⟩,
          ⟨"drop t1", none, none, none⟩, []⟩,
        ⟨20, ⟨"create t2", none, none, none⟩,
          ⟨"drop t2", none, none, none⟩, []⟩], true, fun _ => true⟩ 10
      ⟨[⟨10, 5, true, false⟩], 100, []⟩ = .ok v)
    ∧ (∃ s', Force ⟨[10, 20], [⟨10, ⟨"create t1", none, none, none⟩,
          ⟨"drop t1", none, none, none⟩, []⟩,
        ⟨20, ⟨"create t2", none, none, none⟩,
          ⟨"drop t2", none, none, none⟩, []⟩], true, fun _ => true⟩ 0
      ⟨[⟨10, 5, true, false⟩], 100, []⟩ = (.ok (), s')) := by
  have h := C3_failed_state_gate
    ⟨[10, 20], [⟨10, ⟨"create t1", none, none, none⟩,
        ⟨"drop t1", none, none, none⟩, []⟩,
      ⟨20, ⟨"create t2", none, none, none⟩,
        ⟨"drop t2", none, none, none⟩, []⟩], true, fun _ => true⟩
    ⟨[⟨10, 5, true, false⟩], 100, []⟩ 10 20 (by decide) (by decide) (by decide)
    (by decide) (by decide) (Or.inr (by decide))
  exact ⟨h.1, h.2.2.1, h.2.2.2.2.2.2.1, h.2.2.2.2.2.2.2 (by decide)⟩

end Migration
